import Mathlib

/-!
Verification development for the unirules policy/rule evaluation engine.

The Python sources under the repository provide the field/domain layer
(interval and discrete field refs, interval conditions, context
validation) directly; those definitions below are translated from the
source files.  The rule tree, resolver, explain engine, analyzer, value
sets and discrete conditions are not part of the provided sources (only
their tests and callers are), so they are modelled from the
specification; each such definition carries a doc comment saying so.

Numeric values are modelled with rationals; Python floats in the
exercised fragment behave like exact rationals.  Python values that can
appear in a context are modelled by `CtxVal`: a proper domain value, a
non-finite float, a non-numeric object, or an unhashable object.
-/

namespace Unirules

/-- A well-formed domain value: a string or a (finite) numeric value. -/
inductive Val where
  | str (s : String)
  | num (q : ℚ)
deriving DecidableEq, Repr

/-- A raw Python value supplied in a context or as a literal:
either a proper value, a non-finite float (nan or an infinity),
an object that float() rejects, or an unhashable object whose
containment check raises TypeError. -/
inductive CtxVal where
  | val (v : Val)
  | nan
  | infinite
  | nonNumeric
  | unhashable
deriving DecidableEq, Repr

/-- Result of Python float(raw): a finite numeric, a non-finite float,
or an exception.  Non-numeric strings are modelled by `Val.str`. -/
inductive FloatRes where
  | ok (q : ℚ)
  | notFinite
  | raises
deriving DecidableEq, Repr

/-- Model of applying Python float() to a raw value. -/
def pyFloat : CtxVal → FloatRes
  | .val (.num q) => .ok q
  | .val (.str _) => .raises
  | .nan => .notFinite
  | .infinite => .notFinite
  | .nonNumeric => .raises
  | .unhashable => .raises

/-- A field domain: a discrete value set or a closed numeric range. -/
inductive Domain where
  | discrete (vals : Finset Val)
  | interval (lo hi : ℚ)
deriving DecidableEq

/-- True when the domain is discrete; used to track value-set kinds. -/
def Domain.kind : Domain → Bool
  | .discrete _ => true
  | .interval _ _ => false

/-- Reference binding a field name to a domain. -/
structure FieldRef where
  name : String
  domain : Domain
deriving DecidableEq

/-- Error taxonomy of the engine.  Python raises ValueError for invalid
values, literals and tags, and LookupError for a failed resolution; the
`invalidValue` and `invalidCondition` constructors carry the field name
that the Python message interpolates. -/
inductive Err where
  | invalidValue (fieldName : String)
  | invalidCondition (fieldName : String)
  | invalidPolicy
  | noMatch
deriving DecidableEq, Repr

/-- A context: an association list from field names to raw values;
lookup takes the first binding, matching a Python dict with unique
keys. -/
abbrev Ctx := List (String × CtxVal)

/-- First-binding lookup in a context. -/
def ctxGet (ctx : Ctx) (k : String) : Option CtxVal :=
  match ctx with
  | [] => none
  | (k2, v) :: rest => if k2 = k then some v else ctxGet rest k

/-- IntervalFieldRef.coerce from the source: float-convert, reject
non-finite, reject values outside the closed range, return the numeric
form. -/
def coerceInterval (lo hi : ℚ) (fieldName : String) (raw : CtxVal) : Except Err ℚ :=
  match pyFloat raw with
  | .raises => .error (.invalidValue fieldName)
  | .notFinite => .error (.invalidValue fieldName)
  | .ok numeric =>
      if numeric < lo ∨ hi < numeric then .error (.invalidValue fieldName)
      else .ok numeric

/-- DiscreteFieldRef.validate_value from the source: membership in the
domain's value set; a containment check that raises (unhashable input)
is caught and reported as the same invalid-value error. -/
def validateDiscrete (vals : Finset Val) (fieldName : String) (value : CtxVal) :
    Except Err Unit :=
  match value with
  | .val v => if v ∈ vals then .ok () else .error (.invalidValue fieldName)
  | _ => .error (.invalidValue fieldName)

/-- normalize_value from the source: discrete fields validate and return
the value unchanged; interval fields return the coerced numeric form. -/
def normalizeValue (f : FieldRef) (value : CtxVal) : Except Err CtxVal :=
  match f.domain with
  | .discrete vals => (validateDiscrete vals f.name value).map (fun _ => value)
  | .interval lo hi => (coerceInterval lo hi f.name value).map (fun q => .val (.num q))

/-- Error-propagating map over a list, the explicit form of the
iteration the engine performs when validating several values: the
first failure aborts. -/
def mapExcept {α β : Type} (f : α → Except Err β) : List α → Except Err (List β)
  | [] => .ok []
  | x :: rest => (f x).bind fun y => (mapExcept f rest).map fun ys => y :: ys

/-- Boundary tag of a Between condition. -/
inductive ClosedTag where
  | both
  | left
  | right
  | none
deriving DecidableEq, Repr

/-- left_closed from the source: tag is left or both. -/
def leftClosed : ClosedTag → Bool
  | .left => true
  | .both => true
  | _ => false

/-- right_closed from the source: tag is right or both. -/
def rightClosed : ClosedTag → Bool
  | .right => true
  | .both => true
  | _ => false

/-- Parse the string tag accepted by Between; anything outside the four
accepted spellings is rejected at construction. -/
def parseClosed (s : String) : Option ClosedTag :=
  if s = "both" then some .both
  else if s = "left" then some .left
  else if s = "right" then some .right
  else if s = "none" then some .none
  else Option.none

/-- Condition tree.  Interval leaves (between, gt, ge, lt, le) are
translated from the source; discrete leaves (eq, isin, notin) and the
boolean combinators are modelled from the spec, which gives value
equality, membership, and standard boolean composition. -/
inductive Cond where
  | eq (f : FieldRef) (lit : Val)
  | isin (f : FieldRef) (lits : Finset Val)
  | notin (f : FieldRef) (lits : Finset Val)
  | between (f : FieldRef) (lo hi : ℚ) (closed : ClosedTag)
  | gt (f : FieldRef) (value : ℚ)
  | ge (f : FieldRef) (value : ℚ)
  | lt (f : FieldRef) (value : ℚ)
  | le (f : FieldRef) (value : ℚ)
  | and (a b : Cond)
  | or (a b : Cond)
  | not (a : Cond)

/-- Condition evaluation against a context.  Interval leaves follow the
source exactly: a missing field evaluates false, the tag named closed
uses the strict comparison on its side.  A non-numeric binding on an
interval field is unreachable after context validation and is evaluated
false here.  Discrete leaves and combinators are modelled from the
spec. -/
def evalCond : Cond → Ctx → Bool
  | .eq f lit, ctx =>
      match ctxGet ctx f.name with
      | some (.val v) => decide (v = lit)
      | some _ => false
      | Option.none => false
  | .isin f lits, ctx =>
      match ctxGet ctx f.name with
      | some (.val v) => decide (v ∈ lits)
      | some _ => false
      | Option.none => false
  | .notin f lits, ctx =>
      match ctxGet ctx f.name with
      | some (.val v) => !decide (v ∈ lits)
      | some _ => false
      | Option.none => false
  | .between f lo hi closed, ctx =>
      match ctxGet ctx f.name with
      | some (.val (.num v)) =>
          (if leftClosed closed then decide (lo < v) else decide (lo ≤ v)) &&
          (if rightClosed closed then decide (v < hi) else decide (v ≤ hi))
      | some _ => false
      | Option.none => false
  | .gt f value, ctx =>
      match ctxGet ctx f.name with
      | some (.val (.num v)) => decide (value < v)
      | some _ => false
      | Option.none => false
  | .ge f value, ctx =>
      match ctxGet ctx f.name with
      | some (.val (.num v)) => decide (value ≤ v)
      | some _ => false
      | Option.none => false
  | .lt f value, ctx =>
      match ctxGet ctx f.name with
      | some (.val (.num v)) => decide (v < value)
      | some _ => false
      | Option.none => false
  | .le f value, ctx =>
      match ctxGet ctx f.name with
      | some (.val (.num v)) => decide (v ≤ value)
      | some _ => false
      | Option.none => false
  | .and a b, ctx => evalCond a ctx && evalCond b ctx
  | .or a b, ctx => evalCond a ctx || evalCond b ctx
  | .not a, ctx => !evalCond a ctx

/-- Lower bound of an interval segment; following the inverted tag
semantics of the source, `strict` true means the comparison on this
side is strict. -/
structure LB where
  v : ℚ
  strict : Bool
deriving DecidableEq, Repr

/-- Upper bound of an interval segment. -/
structure UB where
  v : ℚ
  strict : Bool
deriving DecidableEq, Repr

/-- A boundary-tagged interval segment. -/
structure ISeg where
  l : LB
  u : UB
deriving DecidableEq, Repr

/-- Whether q satisfies a lower bound. -/
def LB.holds (b : LB) (q : ℚ) : Bool :=
  if b.strict then decide (b.v < q) else decide (b.v ≤ q)

/-- Whether q satisfies an upper bound. -/
def UB.holds (b : UB) (q : ℚ) : Bool :=
  if b.strict then decide (q < b.v) else decide (q ≤ b.v)

/-- Segment membership. -/
def ISeg.memq (s : ISeg) (q : ℚ) : Bool := s.l.holds q && s.u.holds q

/-- More restrictive of two lower bounds; at a shared cut the stricter
flag wins, matching the spec's boundary recombination for
intersections. -/
def maxLB (a b : LB) : LB :=
  if a.v < b.v then b else if b.v < a.v then a else ⟨a.v, a.strict || b.strict⟩

/-- More restrictive of two upper bounds. -/
def minUB (a b : UB) : UB :=
  if a.v < b.v then a else if b.v < a.v then b else ⟨a.v, a.strict || b.strict⟩

/-- Intersection of two segments (possibly empty). -/
def segInter (s t : ISeg) : ISeg := ⟨maxLB s.l t.l, minUB s.u t.u⟩

/-- Modelled from the spec: IntervalSet intersection pairwise-intersects
every segment pair.  Empty results are kept; they contain no point, so
the represented set is unchanged. -/
def segsInter (a b : List ISeg) : List ISeg :=
  a.flatMap fun s => b.map fun t => segInter s t

/-- A lower bound negated becomes an upper bound with the flag
flipped at the cut point. -/
def flipLB (b : LB) : UB := ⟨b.v, !b.strict⟩

/-- An upper bound negated becomes a lower bound with the flag
flipped. -/
def flipUB (b : UB) : LB := ⟨b.v, !b.strict⟩

/-- The whole closed range of a domain as one segment. -/
def fullSeg (dlo dhi : ℚ) : ISeg := ⟨⟨dlo, false⟩, ⟨dhi, false⟩⟩

/-- Modelled from the spec: complement of one segment within the domain
range, inverting the gaps before and after it with flags flipped at the
cut points. -/
def segCompl (dlo dhi : ℚ) (s : ISeg) : List ISeg :=
  [⟨⟨dlo, false⟩, flipLB s.l⟩, ⟨flipUB s.u, ⟨dhi, false⟩⟩]

/-- Modelled from the spec: complement of a segment list within the
domain range, as the intersection of the per-segment complements. -/
def segsCompl (dlo dhi : ℚ) : List ISeg → List ISeg
  | [] => [fullSeg dlo dhi]
  | s :: rest => segsInter (segCompl dlo dhi s) (segsCompl dlo dhi rest)

/-- A segment is empty when its bounds cross, or touch with a strict
side. -/
def segEmpty (s : ISeg) : Bool :=
  decide (s.u.v < s.l.v) || (decide (s.l.v = s.u.v) && (s.l.strict || s.u.strict))

/-- Modelled from the spec: a symbolic value set, discrete or
interval.  The interval form is a list of boundary-tagged segments; the
operations below are faithful to the set semantics of the spec's
algebra (the normalized-representation maintenance the spec describes
does not change the represented set and no claim depends on it). -/
inductive VSet where
  | d (s : Finset Val)
  | i (segs : List ISeg)
deriving DecidableEq

/-- True when the set is a discrete set. -/
def VSet.kind : VSet → Bool
  | .d _ => true
  | .i _ => false

/-- Value-set membership. -/
def memV (v : Val) : VSet → Bool
  | .d s => decide (v ∈ s)
  | .i segs =>
      match v with
      | .num q => segs.any fun s => s.memq q
      | _ => false

/-- Modelled from the spec: value-set union (set union for discrete;
for intervals the segment lists are concatenated, which represents the
same set as the spec's merge).  Mismatched kinds do not arise. -/
def unionV : VSet → VSet → VSet
  | .d a, .d b => .d (a ∪ b)
  | .i a, .i b => .i (a ++ b)
  | a, _ => a

/-- Modelled from the spec: value-set intersection. -/
def interV : VSet → VSet → VSet
  | .d a, .d b => .d (a ∩ b)
  | .i a, .i b => .i (segsInter a b)
  | a, _ => a

/-- Modelled from the spec: complement within the domain universe. -/
def complV (dom : Domain) : VSet → VSet
  | .d s =>
      match dom with
      | .discrete vals => .d (vals \ s)
      | .interval _ _ => .d ∅
  | .i segs =>
      match dom with
      | .interval dlo dhi => .i (segsCompl dlo dhi segs)
      | .discrete _ => .i []

/-- Modelled from the spec: set difference, used by the analyzer's
claim/subtract cycle. -/
def diffV (dom : Domain) : VSet → VSet → VSet
  | .d a, .d b => .d (a \ b)
  | .i a, .i b =>
      match dom with
      | .interval dlo dhi => .i (segsInter a (segsCompl dlo dhi b))
      | .discrete _ => .i a
  | a, _ => a

/-- The universe of a domain as a value set. -/
def univV : Domain → VSet
  | .discrete vals => .d vals
  | .interval lo hi => .i [fullSeg lo hi]

/-- The empty value set of a domain's kind. -/
def emptyV : Domain → VSet
  | .discrete _ => .d ∅
  | .interval _ _ => .i []

/-- Membership in a domain universe. -/
def memUniv (dom : Domain) (v : Val) : Bool := memV v (univV dom)

/-- Decidable emptiness of a value set. -/
def isEmptyV : VSet → Bool
  | .d s => decide (s = ∅)
  | .i segs => segs.all segEmpty

/-- Rule payloads, opaque to the engine. -/
abbrev Payload := String

/-- Modelled from the spec: resolution policy of a RuleSet. -/
inductive Policy where
  | firstMatch
  | priority
deriving DecidableEq, Repr

/-! Modelled from the spec: the rule tree.  A Rule is a leaf payload or
a nested RuleSet, each with condition, name and priority; a RuleSet is
an ordered rule sequence with an optional always-selected fallback and
a policy. -/
mutual
inductive Rule where
  | value (cond : Cond) (name : String) (priority : Int) (payload : Payload)
  | tree (cond : Cond) (name : String) (priority : Int) (sub : RuleSet)
inductive Fb where
  | value (name : String) (payload : Payload)
  | tree (name : String) (sub : RuleSet)
inductive RuleSet where
  | mk (rules : List Rule) (fallback : Option Fb) (policy : Policy)
end

/-- The ordered rule sequence of a RuleSet. -/
def RuleSet.rules : RuleSet → List Rule
  | .mk rs _ _ => rs

/-- The optional fallback of a RuleSet. -/
def RuleSet.fallback : RuleSet → Option Fb
  | .mk _ fb _ => fb

/-- The policy of a RuleSet. -/
def RuleSet.policy : RuleSet → Policy
  | .mk _ _ p => p

/-- The condition of a rule. -/
def Rule.cond : Rule → Cond
  | .value c _ _ _ => c
  | .tree c _ _ _ => c

/-- The name of a rule. -/
def Rule.name : Rule → String
  | .value _ n _ _ => n
  | .tree _ n _ _ => n

/-- The priority of a rule. -/
def Rule.priorityOf : Rule → Int
  | .value _ _ p _ => p
  | .tree _ _ p _ => p

/-! Sizes of rules and rule sets, the termination measure of the
engines. -/
mutual
def ruleSize : Rule → ℕ
  | .value _ _ _ _ => 1
  | .tree _ _ _ sub => 1 + rsSize sub
def fbSizeAux : Fb → ℕ
  | .value _ _ => 1
  | .tree _ sub => 1 + rsSize sub
def rulesSize : List Rule → ℕ
  | [] => 0
  | r :: rest => ruleSize r + rulesSize rest
def rsSize : RuleSet → ℕ
  | .mk rules fb _ =>
      1 + rulesSize rules +
        (match fb with
         | Option.none => 0
         | some f => fbSizeAux f)
end

/-- Size of an optional fallback. -/
def fbSize : Option Fb → ℕ
  | Option.none => 0
  | some f => fbSizeAux f

/-- Size of an indexed candidate list. -/
def pairsSize : List (ℕ × Rule) → ℕ
  | [] => 0
  | (_, r) :: rest => ruleSize r + pairsSize rest

/-- Pair each rule with its declaration index. -/
def enumFrom (i : ℕ) : List Rule → List (ℕ × Rule)
  | [] => []
  | r :: rest => (i, r) :: enumFrom (i + 1) rest

/-- Stable insertion for the descending-priority order: the new
element goes before the first element whose priority does not exceed
it, so earlier-declared rules keep their place among equals. -/
def insertPrio (x : ℕ × Rule) : List (ℕ × Rule) → List (ℕ × Rule)
  | [] => [x]
  | y :: ys =>
      if Rule.priorityOf y.2 ≤ Rule.priorityOf x.2 then x :: y :: ys
      else y :: insertPrio x ys

/-- Modelled from the spec: stable sort by descending priority, ties
keeping declaration order. -/
def sortPrio : List (ℕ × Rule) → List (ℕ × Rule)
  | [] => []
  | x :: xs => insertPrio x (sortPrio xs)

/-- Modelled from the spec: the candidate order a resolver walks —
declaration order under FIRST_MATCH, stable descending-priority order
under PRIORITY.  Each candidate keeps its declaration index. -/
def orderIdx (rs : RuleSet) : List (ℕ × Rule) :=
  match rs.policy with
  | .firstMatch => enumFrom 0 rs.rules
  | .priority => sortPrio (enumFrom 0 rs.rules)

/-- Field refs of a condition, in first-seen order.  The engine
deduplicates lazily by identity; duplicates are harmless here because
every use below looks for the first ref with a given name. -/
def condRefs : Cond → List FieldRef
  | .eq f _ => [f]
  | .isin f _ => [f]
  | .notin f _ => [f]
  | .between f _ _ _ => [f]
  | .gt f _ => [f]
  | .ge f _ => [f]
  | .lt f _ => [f]
  | .le f _ => [f]
  | .and a b => condRefs a ++ condRefs b
  | .or a b => condRefs a ++ condRefs b
  | .not a => condRefs a

/-! Modelled from the spec: iter_field_refs of a rule tree, collecting
every referenced FieldRef recursively in first-seen order. -/
mutual
def ruleRefs : Rule → List FieldRef
  | .value c _ _ _ => condRefs c
  | .tree c _ _ sub => condRefs c ++ rsRefs sub
def fbRefsAux : Fb → List FieldRef
  | .value _ _ => []
  | .tree _ sub => rsRefs sub
def rulesRefs : List Rule → List FieldRef
  | [] => []
  | r :: rest => ruleRefs r ++ rulesRefs rest
def rsRefs : RuleSet → List FieldRef
  | .mk rules fb _ =>
      rulesRefs rules ++
        (match fb with
         | Option.none => []
         | some f => fbRefsAux f)
end

/-- The first field ref of a ruleset bearing a given name; the first
ref wins, matching the seen_names dedup of validate_context. -/
def refFor (rs : RuleSet) (name : String) : Option FieldRef :=
  (rsRefs rs).find? (fun f => decide (f.name = name))

/-- One entry of the normalization pass of validate_context: an entry
whose key names a referenced field is normalized through the first such
field; any other entry is kept untouched. -/
def normEntry (rs : RuleSet) (kv : String × CtxVal) : Except Err (String × CtxVal) :=
  match refFor rs kv.1 with
  | some f => (normalizeValue f kv.2).map (fun v => (kv.1, v))
  | Option.none => .ok kv

/-- validate_context from the source: an empty context is returned
as-is; otherwise a copy of the context is made and every entry whose
key names a referenced field is normalized through that field, failing
on the first invalid value.  The boolean records whether a fresh map
was allocated (true exactly on the copying branch). -/
def validate_context (rs : RuleSet) (ctx : Ctx) : Except Err (Bool × Ctx) :=
  match ctx with
  | [] => .ok (false, ctx)
  | _ => (mapExcept (normEntry rs) ctx).map (fun out => (true, out))

/-- Between construction from the source: reject an unknown closed
tag, coerce both bounds through the field (failing on a bound outside
the domain), then reject crossed bounds. -/
def mkBetween (f : FieldRef) (lo hi : CtxVal) (closed : String) : Except Err Cond :=
  match parseClosed closed with
  | Option.none => .error (.invalidCondition f.name)
  | some tag =>
      match f.domain with
      | .interval dlo dhi =>
          (coerceInterval dlo dhi f.name lo).bind fun lo2 =>
            (coerceInterval dlo dhi f.name hi).bind fun hi2 =>
              if hi2 < lo2 then .error (.invalidCondition f.name)
              else .ok (.between f lo2 hi2 tag)
      | .discrete _ => .error (.invalidCondition f.name)

/-- Gt construction from the source: the comparison literal is coerced
through the field at construction. -/
def mkGt (f : FieldRef) (value : CtxVal) : Except Err Cond :=
  match f.domain with
  | .interval dlo dhi => (coerceInterval dlo dhi f.name value).map fun q => .gt f q
  | .discrete _ => .error (.invalidCondition f.name)

/-- Ge construction from the source. -/
def mkGe (f : FieldRef) (value : CtxVal) : Except Err Cond :=
  match f.domain with
  | .interval dlo dhi => (coerceInterval dlo dhi f.name value).map fun q => .ge f q
  | .discrete _ => .error (.invalidCondition f.name)

/-- Lt construction from the source. -/
def mkLt (f : FieldRef) (value : CtxVal) : Except Err Cond :=
  match f.domain with
  | .interval dlo dhi => (coerceInterval dlo dhi f.name value).map fun q => .lt f q
  | .discrete _ => .error (.invalidCondition f.name)

/-- Le construction from the source. -/
def mkLe (f : FieldRef) (value : CtxVal) : Except Err Cond :=
  match f.domain with
  | .interval dlo dhi => (coerceInterval dlo dhi f.name value).map fun q => .le f q
  | .discrete _ => .error (.invalidCondition f.name)

/-- Modelled from the spec: discrete equality construction validates
the literal against the field domain and fails fast on a value outside
it. -/
def mkEq (f : FieldRef) (lit : CtxVal) : Except Err Cond :=
  match f.domain, lit with
  | .discrete vals, .val v =>
      if v ∈ vals then .ok (.eq f v) else .error (.invalidValue f.name)
  | .discrete _, _ => .error (.invalidValue f.name)
  | .interval _ _, _ => .error (.invalidCondition f.name)

/-- Modelled from the spec: validation of one membership literal
against a discrete field domain. -/
def validateLit (vals : Finset Val) (fieldName : String) (l : CtxVal) : Except Err Val :=
  match l with
  | .val v => if v ∈ vals then .ok v else .error (.invalidValue fieldName)
  | _ => .error (.invalidValue fieldName)

/-- Modelled from the spec: membership construction validates every
candidate literal against the field domain at construction. -/
def mkIsin (f : FieldRef) (lits : List CtxVal) : Except Err Cond :=
  match f.domain with
  | .discrete vals =>
      (mapExcept (validateLit vals f.name) lits).map fun vs => .isin f vs.toFinset
  | .interval _ _ => .error (.invalidCondition f.name)

/-- Modelled from the spec: negated membership construction, validated
like membership. -/
def mkNotin (f : FieldRef) (lits : List CtxVal) : Except Err Cond :=
  match f.domain with
  | .discrete vals =>
      (mapExcept (validateLit vals f.name) lits).map fun vs => .notin f vs.toFinset
  | .interval _ _ => .error (.invalidCondition f.name)

/-- Every rule has positive size. -/
theorem ruleSize_pos (r : Rule) : 1 ≤ ruleSize r := by
  cases r <;> simp [ruleSize]

/-- Unfolding lemma for the size of an indexed candidate list. -/
theorem pairsSize_cons (p : ℕ × Rule) (l : List (ℕ × Rule)) :
    pairsSize (p :: l) = ruleSize p.2 + pairsSize l := by
  obtain ⟨i, r⟩ := p
  rfl

/-- Size of a rule set in terms of its parts. -/
theorem rsSize_eq (rs : RuleSet) :
    rsSize rs = 1 + rulesSize rs.rules + fbSize rs.fallback := by
  cases rs with
  | mk rules fb p => cases fb <;> simp [rsSize, fbSize, RuleSet.rules, RuleSet.fallback]

/-- Stable insertion preserves total candidate size. -/
theorem pairsSize_insertPrio (x : ℕ × Rule) (l : List (ℕ × Rule)) :
    pairsSize (insertPrio x l) = ruleSize x.2 + pairsSize l := by
  induction l with
  | nil => simp [insertPrio, pairsSize_cons, pairsSize]
  | cons y ys ih =>
      rw [insertPrio]
      split
      · rw [pairsSize_cons]
      · rw [pairsSize_cons, ih, pairsSize_cons]
        omega

/-- Sorting preserves total candidate size. -/
theorem pairsSize_sortPrio (l : List (ℕ × Rule)) :
    pairsSize (sortPrio l) = pairsSize l := by
  induction l with
  | nil => rfl
  | cons x xs ih => rw [sortPrio, pairsSize_insertPrio, ih, pairsSize_cons]

/-- Indexing preserves total candidate size. -/
theorem pairsSize_enumFrom (i : ℕ) (l : List Rule) :
    pairsSize (enumFrom i l) = rulesSize l := by
  induction l generalizing i with
  | nil => rfl
  | cons r rest ih => rw [enumFrom, pairsSize_cons, rulesSize, ih]

/-- The ordered candidate list has the size of the declared rules. -/
theorem pairsSize_orderIdx (rs : RuleSet) :
    pairsSize (orderIdx rs) = rulesSize rs.rules := by
  rw [orderIdx]
  cases rs.policy
  · rw [pairsSize_enumFrom]
  · rw [pairsSize_sortPrio, pairsSize_enumFrom]

/-! Modelled from the spec: the resolver.  Each level walks the
candidates in policy order; the first candidate whose condition
evaluates true is the match — a value rule yields its payload, a tree
rule recurses into its subtree with the same context.  If none match,
the fallback (if present) is selected unconditionally; otherwise the
level fails NoMatch, which propagates to the caller. -/
mutual
def resolveRS (ctx : Ctx) (rs : RuleSet) : Except Err Payload :=
  resolveList ctx rs.fallback (orderIdx rs)
termination_by rsSize rs
decreasing_by
  rw [rsSize_eq rs, pairsSize_orderIdx]
  omega
def resolveList (ctx : Ctx) (fb : Option Fb) : List (ℕ × Rule) → Except Err Payload
  | [] =>
      match fb with
      | Option.none => .error .noMatch
      | some (.value _ p) => .ok p
      | some (.tree _ sub) => resolveRS ctx sub
  | (_, r) :: rest =>
      if evalCond (Rule.cond r) ctx then
        match r with
        | .value _ _ _ p => .ok p
        | .tree _ _ _ sub => resolveRS ctx sub
      else resolveList ctx fb rest
termination_by cands => pairsSize cands + fbSize fb
decreasing_by
  · simp [pairsSize, fbSize, fbSizeAux]
  · simp only [pairsSize_cons, ruleSize]
    omega
  · have := ruleSize_pos r
    simp only [pairsSize_cons]
    omega
end

/-- Modelled from the spec and the explain tests: a resolution trace.
matched_rule is the name of the matched candidate at the top level;
path accumulates matched names root to leaf; tested records one entry
per candidate tested at the top level, true for the match; result is
the resolved payload when one was reached. -/
structure Explanation where
  matched_rule : Option String
  path : List String
  tested : List (String × Bool)
  result : Option Payload
deriving DecidableEq, Repr

/-! Modelled from the spec and the explain tests: identical walk to the
resolver, recording a tested line per candidate tried at the current
level (rejected candidates get false, the match true); the path
accumulates only matched names across recursion levels; a level that
fails to match contributes nothing to the path and leaves matched_rule
and result absent. -/
mutual
def explainRS (ctx : Ctx) (rs : RuleSet) : Explanation :=
  explainList ctx rs.fallback (orderIdx rs) []
termination_by rsSize rs
decreasing_by
  rw [rsSize_eq rs, pairsSize_orderIdx]
  omega
def explainList (ctx : Ctx) (fb : Option Fb) :
    List (ℕ × Rule) → List (String × Bool) → Explanation
  | [], acc =>
      match fb with
      | Option.none => ⟨Option.none, [], acc, Option.none⟩
      | some (.value nm p) => ⟨some nm, [nm], acc ++ [(nm, true)], some p⟩
      | some (.tree nm sub) =>
          let inner := explainRS ctx sub
          ⟨some nm, nm :: inner.path, acc ++ [(nm, true)], inner.result⟩
  | (_, r) :: rest, acc =>
      if evalCond (Rule.cond r) ctx then
        match r with
        | .value _ nm _ p => ⟨some nm, [nm], acc ++ [(nm, true)], some p⟩
        | .tree _ nm _ sub =>
            let inner := explainRS ctx sub
            ⟨some nm, nm :: inner.path, acc ++ [(nm, true)], inner.result⟩
      else explainList ctx fb rest (acc ++ [(Rule.name r, false)])
termination_by cands => pairsSize cands + fbSize fb
decreasing_by
  · simp [pairsSize, fbSize, fbSizeAux]
  · simp only [pairsSize_cons, ruleSize]
    omega
  · have := ruleSize_pos r
    simp only [pairsSize_cons]
    omega
end

/-- Modelled from the spec: one emitted analysis entry — the index
path of a leaf, the value set it retains, and its payload. -/
structure Entry where
  path : List ℕ
  vs : VSet
  payload : Payload
deriving DecidableEq

/-- Modelled from the spec: projection of a condition for the analyzer
onto the target field — a boolean, a value set over the target domain,
or unresolved for a leaf on a field that is neither the target nor
present in the context. -/
inductive Proj where
  | pb (b : Bool)
  | vs (s : VSet)
  | unresolved

/-- The lower domain edge of an interval field (0 for discrete fields,
which never reach the interval constructors). -/
def domLo (f : FieldRef) : ℚ :=
  match f.domain with
  | .interval lo _ => lo
  | .discrete _ => 0

/-- The upper domain edge of an interval field. -/
def domHi (f : FieldRef) : ℚ :=
  match f.domain with
  | .interval _ hi => hi
  | .discrete _ => 0

/-- Modelled from the spec: the literal value set of a leaf on the
target field — equality gives a singleton, membership the literal set,
negated membership its complement in the field domain, between its
segment verbatim, and the four comparisons half-bounded segments using
the same inverted strictness convention as evaluation. -/
def litSet : Cond → VSet
  | .eq _ lit => .d {lit}
  | .isin _ lits => .d lits
  | .notin f lits =>
      match f.domain with
      | .discrete vals => .d (vals \ lits)
      | .interval _ _ => .d ∅
  | .between _ lo hi closed => .i [⟨⟨lo, leftClosed closed⟩, ⟨hi, rightClosed closed⟩⟩]
  | .gt f value => .i [⟨⟨value, true⟩, ⟨domHi f, false⟩⟩]
  | .ge f value => .i [⟨⟨value, false⟩, ⟨domHi f, false⟩⟩]
  | .lt f value => .i [⟨⟨domLo f, false⟩, ⟨value, true⟩⟩]
  | .le f value => .i [⟨⟨domLo f, false⟩, ⟨value, false⟩⟩]
  | _ => .d ∅

/-- Modelled from the spec: projection conjunction — False
short-circuits, True is the identity, two value sets intersect. -/
def projAnd : Proj → Proj → Proj
  | .pb false, _ => .pb false
  | _, .pb false => .pb false
  | .unresolved, _ => .unresolved
  | _, .unresolved => .unresolved
  | .pb true, x => x
  | x, .pb true => x
  | .vs a, .vs b => .vs (interV a b)

/-- Modelled from the spec: projection disjunction — True
short-circuits, False is the identity, two value sets unite. -/
def projOr : Proj → Proj → Proj
  | .pb true, _ => .pb true
  | _, .pb true => .pb true
  | .unresolved, _ => .unresolved
  | _, .unresolved => .unresolved
  | .pb false, x => x
  | x, .pb false => x
  | .vs a, .vs b => .vs (unionV a b)

/-- Modelled from the spec: projection negation — negate a boolean,
complement a value set within the target domain universe. -/
def projNot (dom : Domain) : Proj → Proj
  | .pb b => .pb !b
  | .vs s => .vs (complV dom s)
  | .unresolved => .unresolved

/-- The field referenced by a leaf (a dummy for combinators, which
never use it). -/
def leafField : Cond → FieldRef
  | .eq f _ => f
  | .isin f _ => f
  | .notin f _ => f
  | .between f _ _ _ => f
  | .gt f _ => f
  | .ge f _ => f
  | .lt f _ => f
  | .le f _ => f
  | _ => ⟨"", .discrete ∅⟩

/-- Whether a condition is a leaf. -/
def isLeaf : Cond → Bool
  | .and _ _ => false
  | .or _ _ => false
  | .not _ => false
  | _ => true

/-- Modelled from the spec: project a condition onto the target field
under a fixed context — a leaf on the target contributes its literal
value set, a leaf on a context-present field contributes its boolean
evaluation, any other leaf is unresolved, and combinators compose. -/
def project (target : FieldRef) (ctx : Ctx) : Cond → Proj
  | .and a b => projAnd (project target ctx a) (project target ctx b)
  | .or a b => projOr (project target ctx a) (project target ctx b)
  | .not a => projNot target.domain (project target ctx a)
  | c =>
      if (leafField c).name = target.name then .vs (litSet c)
      else
        match ctxGet ctx (leafField c).name with
        | some _ => .pb (evalCond c ctx)
        | Option.none => .unresolved

/-- Modelled from the spec: a rule's raw outcome as a value set —
boolean outcomes map to the empty set or the full universe; an
unresolved projection is conservatively treated as an unreachable
branch (the spec leaves this case open). -/
def projToSet (dom : Domain) : Proj → VSet
  | .pb true => univV dom
  | .pb false => emptyV dom
  | .vs s => s
  | .unresolved => emptyV dom

/-! Modelled from the spec: the analyzer.  Each level walks the
candidates in the same order the resolver would use, keeping a running
claimed set that starts empty at the level; each candidate's raw
outcome is intersected with the constraint inherited from the outer
levels, the claimed set is subtracted, and a candidate retaining a
non-empty remainder either emits an entry (value rule) or recurses
with the remainder as the subtree constraint (tree rule), after which
the remainder is added to the claimed set.  The fallback is processed
last with the full universe as its raw outcome.  Candidates whose
remainder is empty emit nothing. -/
mutual
def analyzeRS (target : FieldRef) (ctx : Ctx) (rs : RuleSet) (constraint : VSet)
    (pre : List ℕ) : List Entry :=
  analyzeList target ctx rs.fallback rs.rules.length constraint pre (orderIdx rs)
    (emptyV target.domain)
termination_by rsSize rs
decreasing_by
  rw [rsSize_eq rs, pairsSize_orderIdx]
  omega
def analyzeList (target : FieldRef) (ctx : Ctx) (fb : Option Fb) (fbIdx : ℕ)
    (constraint : VSet) (pre : List ℕ) :
    List (ℕ × Rule) → VSet → List Entry
  | [], claimed =>
      match fb with
      | Option.none => []
      | some f =>
          let raw := interV (univV target.domain) constraint
          let rem := diffV target.domain raw claimed
          if isEmptyV rem then []
          else
            match f with
            | .value _ p => [⟨pre ++ [fbIdx], rem, p⟩]
            | .tree _ sub => analyzeRS target ctx sub rem (pre ++ [fbIdx])
  | (i, r) :: rest, claimed =>
      let raw := interV (projToSet target.domain (project target ctx (Rule.cond r)))
        constraint
      let rem := diffV target.domain raw claimed
      if isEmptyV rem then analyzeList target ctx fb fbIdx constraint pre rest claimed
      else
        (match r with
         | .value _ _ _ p => [⟨pre ++ [i], rem, p⟩]
         | .tree _ _ _ sub => analyzeRS target ctx sub rem (pre ++ [i])) ++
        analyzeList target ctx fb fbIdx constraint pre rest (unionV claimed rem)
termination_by cands => pairsSize cands + fbSize fb
decreasing_by
  · simp [pairsSize, fbSize, fbSizeAux]
  · have := ruleSize_pos r
    simp only [pairsSize_cons]
    omega
  · simp only [pairsSize_cons, ruleSize]
    omega
  · have := ruleSize_pos r
    simp only [pairsSize_cons]
    omega
end

/-- Modelled from the spec: the analyzer entry point — the target's own
context entry is ignored, and the walk starts from the whole tree with
the full universe as constraint. -/
def analyze (rs : RuleSet) (target : FieldRef) (ctx : Ctx) : List Entry :=
  analyzeRS target (ctx.filter fun kv => decide (kv.1 ≠ target.name)) rs
    (univV target.domain) []

/-- Modelled from the spec: covered() — the union of every emitted
value set across the whole tree. -/
def covered (rs : RuleSet) (target : FieldRef) (ctx : Ctx) : VSet :=
  (analyze rs target ctx).foldl (fun acc e => unionV acc e.vs) (emptyV target.domain)

/-- Modelled from the spec: uncovered() — the target universe minus
covered(). -/
def uncovered (rs : RuleSet) (target : FieldRef) (ctx : Ctx) : VSet :=
  diffV target.domain (univV target.domain) (covered rs target ctx)

/-- resolve of the source engine: validate the context, then walk. -/
def resolve (rs : RuleSet) (ctx : Ctx) : Except Err Payload :=
  (validate_context rs ctx).bind fun p => resolveRS p.2 rs

/-- explain of the source engine: validate the context identically to
resolve, then trace; a failed match is reported in the Explanation, not
as an error. -/
def explain (rs : RuleSet) (ctx : Ctx) : Except Err Explanation :=
  (validate_context rs ctx).map fun p => explainRS p.2 rs

/-- A lower bound holds exactly when the point is beyond it, or on it
with a non-strict flag. -/
theorem lb_holds_iff (b : LB) (q : ℚ) :
    b.holds q = true ↔ (b.v < q ∨ (b.v = q ∧ b.strict = false)) := by
  cases hb : b.strict <;> simp [LB.holds, hb, le_iff_lt_or_eq]

/-- An upper bound holds exactly when the point is below it, or on it
with a non-strict flag. -/
theorem ub_holds_iff (b : UB) (q : ℚ) :
    b.holds q = true ↔ (q < b.v ∨ (q = b.v ∧ b.strict = false)) := by
  cases hb : b.strict <;> simp [UB.holds, hb, le_iff_lt_or_eq]

/-- The combined lower bound holds exactly when both do. -/
theorem maxLB_holds (a b : LB) (q : ℚ) :
    (maxLB a b).holds q = true ↔ (a.holds q = true ∧ b.holds q = true) := by
  simp only [lb_holds_iff, maxLB]
  split_ifs with h1 h2
  · constructor
    · rintro (h | ⟨h, hs⟩)
      · exact ⟨Or.inl (by linarith), Or.inl h⟩
      · exact ⟨Or.inl (by linarith), Or.inr ⟨h, hs⟩⟩
    · rintro ⟨_, h⟩
      exact h
  · constructor
    · rintro (h | ⟨h, hs⟩)
      · exact ⟨Or.inl h, Or.inl (by linarith)⟩
      · exact ⟨Or.inr ⟨h, hs⟩, Or.inl (by linarith)⟩
    · rintro ⟨h, _⟩
      exact h
  · have hv : a.v = b.v := le_antisymm (not_lt.mp h2) (not_lt.mp h1)
    constructor
    · rintro (h | ⟨h, hs⟩)
      · exact ⟨Or.inl h, Or.inl (hv ▸ h)⟩
      · rcases Bool.or_eq_false_iff.mp hs with ⟨hsa, hsb⟩
        exact ⟨Or.inr ⟨h, hsa⟩, Or.inr ⟨hv ▸ h, hsb⟩⟩
    · rintro ⟨ha | ⟨ha, hsa⟩, hb2 | ⟨hb2, hsb⟩⟩
      · exact Or.inl ha
      · exact Or.inl ha
      · exact Or.inl (hv ▸ hb2)
      · exact Or.inr ⟨ha, by rw [hsa, hsb]; rfl⟩

/-- The combined upper bound holds exactly when both do. -/
theorem minUB_holds (a b : UB) (q : ℚ) :
    (minUB a b).holds q = true ↔ (a.holds q = true ∧ b.holds q = true) := by
  simp only [ub_holds_iff, minUB]
  split_ifs with h1 h2
  · constructor
    · rintro (h | ⟨h, hs⟩)
      · exact ⟨Or.inl h, Or.inl (by linarith)⟩
      · exact ⟨Or.inr ⟨h, hs⟩, Or.inl (by linarith)⟩
    · rintro ⟨h, _⟩
      exact h
  · constructor
    · rintro (h | ⟨h, hs⟩)
      · exact ⟨Or.inl (by linarith), Or.inl h⟩
      · exact ⟨Or.inl (by linarith), Or.inr ⟨h, hs⟩⟩
    · rintro ⟨_, h⟩
      exact h
  · have hv : a.v = b.v := le_antisymm (not_lt.mp h2) (not_lt.mp h1)
    constructor
    · rintro (h | ⟨h, hs⟩)
      · exact ⟨Or.inl h, Or.inl (hv ▸ h)⟩
      · rcases Bool.or_eq_false_iff.mp hs with ⟨hsa, hsb⟩
        exact ⟨Or.inr ⟨h, hsa⟩, Or.inr ⟨hv ▸ h, hsb⟩⟩
    · rintro ⟨ha | ⟨ha, hsa⟩, hb2 | ⟨hb2, hsb⟩⟩
      · exact Or.inl ha
      · exact Or.inl ha
      · exact Or.inl (hv ▸ hb2)
      · exact Or.inr ⟨ha, by rw [hsa, hsb]; rfl⟩

/-- Segment intersection membership. -/
theorem segInter_memq (s t : ISeg) (q : ℚ) :
    (segInter s t).memq q = true ↔ (s.memq q = true ∧ t.memq q = true) := by
  simp only [ISeg.memq, segInter, Bool.and_eq_true, maxLB_holds, minUB_holds]
  tauto

/-- Whether any segment of a list contains the point. -/
def anySeg (l : List ISeg) (q : ℚ) : Bool := l.any fun s => s.memq q

/-- Pairwise intersection of segment lists is intersection of the
represented sets. -/
theorem anySeg_segsInter (a b : List ISeg) (q : ℚ) :
    anySeg (segsInter a b) q = true ↔ (anySeg a q = true ∧ anySeg b q = true) := by
  simp only [anySeg, segsInter, List.any_eq_true, List.mem_flatMap, List.mem_map]
  constructor
  · rintro ⟨u, ⟨s, hs, t, ht, rfl⟩, hm⟩
    rcases (segInter_memq s t q).mp hm with ⟨h1, h2⟩
    exact ⟨⟨s, hs, h1⟩, ⟨t, ht, h2⟩⟩
  · rintro ⟨⟨s, hs, h1⟩, ⟨t, ht, h2⟩⟩
    exact ⟨segInter s t, ⟨s, hs, t, ht, rfl⟩, (segInter_memq s t q).mpr ⟨h1, h2⟩⟩

/-- Negating a lower bound flips satisfaction. -/
theorem flipLB_holds (b : LB) (q : ℚ) : (flipLB b).holds q = !(b.holds q) := by
  cases hb : b.strict <;>
    simp [flipLB, LB.holds, UB.holds, hb, ← decide_not, not_le, not_lt]

/-- Negating an upper bound flips satisfaction. -/
theorem flipUB_holds (b : UB) (q : ℚ) : (flipUB b).holds q = !(b.holds q) := by
  cases hb : b.strict <;>
    simp [flipUB, LB.holds, UB.holds, hb, ← decide_not, not_le, not_lt]

/-- Bool form of the pairwise-intersection lemma. -/
theorem anySeg_segsInter_bool (a b : List ISeg) (q : ℚ) :
    anySeg (segsInter a b) q = (anySeg a q && anySeg b q) := by
  have h := anySeg_segsInter a b q
  rcases h1 : anySeg a q <;> rcases h2 : anySeg b q <;>
    rcases h3 : anySeg (segsInter a b) q <;> simp_all

/-- Membership in segments of a cons cell. -/
theorem anySeg_cons (s : ISeg) (rest : List ISeg) (q : ℚ) :
    anySeg (s :: rest) q = (s.memq q || anySeg rest q) := by
  simp [anySeg]

/-- Complement of one segment within the domain range, at an in-range
point. -/
theorem anySeg_segCompl (dlo dhi : ℚ) (s : ISeg) (q : ℚ)
    (hlo : dlo ≤ q) (hhi : q ≤ dhi) :
    anySeg (segCompl dlo dhi s) q = !(s.memq q) := by
  have h1 : LB.holds ⟨dlo, false⟩ q = true := by simp [LB.holds, hlo]
  have h2 : UB.holds ⟨dhi, false⟩ q = true := by simp [UB.holds, hhi]
  simp only [anySeg, segCompl, List.any_cons, List.any_nil, Bool.or_false, ISeg.memq]
  rw [flipLB_holds, flipUB_holds, h1, h2]
  rcases hl : s.l.holds q <;> rcases hu : s.u.holds q <;> simp

/-- Complement of a segment list within the domain range represents the
in-range points missing from the list. -/
theorem anySeg_segsCompl (dlo dhi : ℚ) (l : List ISeg) (q : ℚ) :
    anySeg (segsCompl dlo dhi l) q =
      (decide (dlo ≤ q) && decide (q ≤ dhi) && !(anySeg l q)) := by
  induction l with
  | nil => simp [segsCompl, anySeg, fullSeg, ISeg.memq, LB.holds, UB.holds]
  | cons s rest ih =>
      rw [segsCompl, anySeg_segsInter_bool, ih, anySeg_cons]
      by_cases h1 : dlo ≤ q
      · by_cases h2 : q ≤ dhi
        · rw [anySeg_segCompl dlo dhi s q h1 h2]
          rcases hs : s.memq q <;> rcases hr : anySeg rest q <;> simp [h1, h2]
        · simp [h2]
      · simp [h1]

/-- An empty-tested segment contains no point, and conversely. -/
theorem segEmpty_iff (s : ISeg) : segEmpty s = true ↔ ∀ q, s.memq q = false := by
  constructor
  · intro h q
    rcases hm : s.memq q
    · rfl
    · exfalso
      simp only [ISeg.memq, Bool.and_eq_true] at hm
      obtain ⟨hl, hu⟩ := hm
      simp only [segEmpty, Bool.or_eq_true, Bool.and_eq_true,
        decide_eq_true_eq] at h
      rcases (lb_holds_iff s.l q).mp hl with hl2 | ⟨hl2, hls⟩ <;>
          rcases (ub_holds_iff s.u q).mp hu with hu2 | ⟨hu2, hus⟩ <;>
          rcases h with h | ⟨h, hflag⟩ <;>
          try linarith
      rcases hflag with hf | hf
      · rw [hls] at hf
        exact Bool.false_ne_true hf
      · rw [hus] at hf
        exact Bool.false_ne_true hf
  · intro h
    by_contra hne
    have hfalse : segEmpty s = false := Bool.eq_false_iff.mpr hne
    simp only [segEmpty, Bool.or_eq_false_iff, Bool.and_eq_false_iff,
      decide_eq_false_iff_not, not_lt] at hfalse
    obtain ⟨hle, hrest⟩ := hfalse
    rcases lt_or_eq_of_le hle with hlt | heq2
    · have hmid : s.memq ((s.l.v + s.u.v) / 2) = true := by
        simp only [ISeg.memq, Bool.and_eq_true]
        exact ⟨(lb_holds_iff _ _).mpr (Or.inl (by linarith)),
          (ub_holds_iff _ _).mpr (Or.inl (by linarith))⟩
      rw [h _] at hmid
      exact Bool.false_ne_true hmid
    · rcases hrest with hne2 | hflags
      · exact hne2 heq2
      · rcases hflags with ⟨hls, hus⟩
        have hpt : s.memq s.l.v = true := by
          simp only [ISeg.memq, Bool.and_eq_true]
          exact ⟨(lb_holds_iff _ _).mpr (Or.inr ⟨rfl, hls⟩),
            (ub_holds_iff _ _).mpr (Or.inr ⟨heq2, hus⟩)⟩
        rw [h _] at hpt
        exact Bool.false_ne_true hpt

/-- Union keeps the kind of its left operand. -/
theorem kind_unionV (a b : VSet) : (unionV a b).kind = a.kind := by
  cases a <;> cases b <;> rfl

/-- Intersection keeps the kind of its left operand. -/
theorem kind_interV (a b : VSet) : (interV a b).kind = a.kind := by
  cases a <;> cases b <;> rfl

/-- Difference keeps the kind of its left operand. -/
theorem kind_diffV (dom : Domain) (a b : VSet) : (diffV dom a b).kind = a.kind := by
  cases a <;> cases b <;> cases dom <;> rfl

/-- Complement has the kind of the domain. -/
theorem kind_complV (dom : Domain) (s : VSet) (h : s.kind = dom.kind) :
    (complV dom s).kind = dom.kind := by
  cases s <;> cases dom <;> simp_all [VSet.kind, Domain.kind, complV]

/-- The universe has the kind of its domain. -/
theorem kind_univV (dom : Domain) : (univV dom).kind = dom.kind := by
  cases dom <;> rfl

/-- The empty set has the kind of its domain. -/
theorem kind_emptyV (dom : Domain) : (emptyV dom).kind = dom.kind := by
  cases dom <;> rfl

/-- Nothing belongs to the empty set. -/
theorem memV_emptyV (dom : Domain) (v : Val) : memV v (emptyV dom) = false := by
  cases dom <;> cases v <;> simp [emptyV, memV]

/-- Membership in a discrete universe. -/
theorem memUniv_discrete (vals : Finset Val) (v : Val) :
    memUniv (.discrete vals) v = true ↔ v ∈ vals := by
  simp [memUniv, univV, memV]

/-- Membership in an interval universe. -/
theorem memUniv_interval (lo hi : ℚ) (v : Val) :
    memUniv (.interval lo hi) v = true ↔ ∃ q, v = .num q ∧ lo ≤ q ∧ q ≤ hi := by
  cases v <;>
    simp [memUniv, univV, memV, fullSeg, ISeg.memq, LB.holds, UB.holds]

/-- Union membership, for like-kinded sets. -/
theorem memV_unionV (a b : VSet) (h : a.kind = b.kind) (v : Val) :
    memV v (unionV a b) = true ↔ (memV v a = true ∨ memV v b = true) := by
  cases a with
  | d sa =>
      cases b with
      | d sb => simp [unionV, memV, Finset.mem_union]
      | i _ => simp [VSet.kind] at h
  | i la =>
      cases b with
      | d _ => simp [VSet.kind] at h
      | i lb =>
          cases v with
          | str s2 => simp [unionV, memV]
          | num q => simp [unionV, memV, List.any_append]

/-- Intersection membership, for like-kinded sets. -/
theorem memV_interV (a b : VSet) (h : a.kind = b.kind) (v : Val) :
    memV v (interV a b) = true ↔ (memV v a = true ∧ memV v b = true) := by
  cases a with
  | d sa =>
      cases b with
      | d sb => simp [interV, memV, Finset.mem_inter]
      | i _ => simp [VSet.kind] at h
  | i la =>
      cases b with
      | d _ => simp [VSet.kind] at h
      | i lb =>
          cases v with
          | str s2 => simp [interV, memV]
          | num q =>
              have := anySeg_segsInter la lb q
              simpa [interV, memV, anySeg] using this

/-- Complement membership, for a set of the domain kind. -/
theorem memV_complV (dom : Domain) (s : VSet) (h : s.kind = dom.kind) (v : Val) :
    memV v (complV dom s) = true ↔ (memUniv dom v = true ∧ memV v s = false) := by
  cases s with
  | d fs =>
      cases dom with
      | discrete vals =>
          simp [complV, memV, Finset.mem_sdiff, memUniv_discrete]
      | interval _ _ => simp [VSet.kind, Domain.kind] at h
  | i segs =>
      cases dom with
      | discrete _ => simp [VSet.kind, Domain.kind] at h
      | interval dlo dhi =>
          cases v with
          | str s2 => simp [complV, memV, memUniv_interval]
          | num q =>
              have hc := anySeg_segsCompl dlo dhi segs q
              simp only [anySeg] at hc
              simp [complV, memV, hc, memUniv_interval, Bool.and_eq_true,
                decide_eq_true_eq, and_assoc]

/-- Difference membership: the left set minus the right, provided the
left set lies within the domain universe (automatic for discrete
sets). -/
theorem memV_diffV (dom : Domain) (a b : VSet) (h1 : a.kind = b.kind)
    (h2 : a.kind = dom.kind) (v : Val)
    (hsub : memV v a = true → memUniv dom v = true) :
    memV v (diffV dom a b) = true ↔ (memV v a = true ∧ memV v b = false) := by
  cases a with
  | d sa =>
      cases b with
      | d sb => simp [diffV, memV, Finset.mem_sdiff]
      | i _ => simp [VSet.kind] at h1
  | i la =>
      cases b with
      | d _ => simp [VSet.kind] at h1
      | i lb =>
          cases dom with
          | discrete _ => simp [VSet.kind, Domain.kind] at h2
          | interval dlo dhi =>
              cases v with
              | str s2 => simp [diffV, memV]
              | num q =>
                  have hi2 := anySeg_segsInter la (segsCompl dlo dhi lb) q
                  have hc := anySeg_segsCompl dlo dhi lb q
                  simp only [anySeg] at hi2 hc
                  simp only [diffV, memV, hi2, hc]
                  constructor
                  · rintro ⟨hA, hB⟩
                    simp only [Bool.and_eq_true, Bool.not_eq_true'] at hB
                    exact ⟨hA, hB.2⟩
                  · rintro ⟨hA, hB⟩
                    have hu := hsub (by simpa [memV] using hA)
                    rw [memUniv_interval] at hu
                    obtain ⟨q2, hq2, hlo2, hhi2⟩ := hu
                    cases hq2
                    simp [hA, hB, hlo2, hhi2]

/-- A value set is empty exactly when it has no member. -/
theorem isEmptyV_iff (s : VSet) : isEmptyV s = true ↔ ∀ v, memV v s = false := by
  cases s with
  | d fs =>
      constructor
      · intro h v
        simp only [isEmptyV, decide_eq_true_eq] at h
        simp [memV, h]
      · intro h
        simp only [isEmptyV, decide_eq_true_eq]
        rw [Finset.eq_empty_iff_forall_not_mem]
        intro v hv
        have := h v
        simp [memV, hv] at this
  | i segs =>
      simp only [isEmptyV, List.all_eq_true]
      constructor
      · intro h v
        cases v with
        | str s2 => rfl
        | num q =>
            simp only [memV, List.any_eq_false]
            intro sg hsg
            have := (segEmpty_iff sg).mp (h sg hsg) q
            simp [this]
      · intro h sg hsg
        rw [segEmpty_iff]
        intro q
        have h2 := h (.num q)
        simp only [memV, List.any_eq_false] at h2
        have := h2 sg hsg
        simpa using this

/-- Context lookup at a just-added binding. -/
theorem ctxGet_cons_self (k : String) (v : CtxVal) (rest : Ctx) :
    ctxGet ((k, v) :: rest) k = some v := by
  simp [ctxGet]

/-- Context lookup skips a binding with a different key. -/
theorem ctxGet_cons_ne (k k2 : String) (v : CtxVal) (rest : Ctx) (h : k2 ≠ k) :
    ctxGet ((k2, v) :: rest) k = ctxGet rest k := by
  simp [ctxGet, h]

/-- Whether an engine call succeeded. -/
def isOkE {α : Type} : Except Err α → Bool
  | .ok _ => true
  | .error _ => false

/-- C2: Between evaluation follows the inverted boundary semantics of
the source: with the field bound to a numeric value, the condition
matches exactly when both sides hold, where a side whose tag says
closed is evaluated with the strict comparison and an open side with
the non-strict one. -/
theorem claim_C2_between_eval (f : FieldRef) (lo hi : ℚ) (closed : ClosedTag)
    (ctx : Ctx) (v : ℚ) (_hlohi : lo ≤ hi)
    (hctx : ctxGet ctx f.name = some (.val (.num v))) :
    evalCond (.between f lo hi closed) ctx = true ↔
      ((if leftClosed closed = true then lo < v else lo ≤ v) ∧
       (if rightClosed closed = true then v < hi else v ≤ hi)) := by
  simp only [evalCond, hctx, Bool.and_eq_true]
  rcases hL : leftClosed closed <;> rcases hR : rightClosed closed <;> simp [hL, hR]

/-- Witness for C2 at a concrete input: a closed-both Between with the
value strictly inside matches. -/
theorem claim_C2_witness :
    evalCond (.between ⟨"credit_score", .interval 300 850⟩ 700 850 .both)
      [("credit_score", .val (.num 750))] = true := by
  refine (claim_C2_between_eval ⟨"credit_score", .interval 300 850⟩ 700 850 .both
    [("credit_score", .val (.num 750))] 750 (by norm_num) (by decide)).mpr ?_
  refine ⟨?_, ?_⟩ <;> simp [leftClosed, rightClosed] <;> norm_num

/-- C7: discrete validation accepts exactly the domain members (an
input whose containment check raises counts as not a member and yields
the same invalid-value failure), and interval coercion accepts exactly
the finite numerics inside the closed range, returning the canonical
numeric form that normalization stores for later comparisons. -/
theorem claim_C7_validate_and_coerce (vals : Finset Val) (dlo dhi : ℚ)
    (fieldName : String) (x : CtxVal) :
    (validateDiscrete vals fieldName x = .ok () ↔ ∃ v, x = .val v ∧ v ∈ vals) ∧
    (validateDiscrete vals fieldName x = .ok () ∨
      validateDiscrete vals fieldName x = .error (.invalidValue fieldName)) ∧
    (∀ q, coerceInterval dlo dhi fieldName x = .ok q ↔
      (pyFloat x = .ok q ∧ dlo ≤ q ∧ q ≤ dhi)) ∧
    (isOkE (coerceInterval dlo dhi fieldName x) = false →
      coerceInterval dlo dhi fieldName x = .error (.invalidValue fieldName)) ∧
    (∀ q, normalizeValue ⟨fieldName, .interval dlo dhi⟩ x = .ok (.val (.num q)) ↔
      coerceInterval dlo dhi fieldName x = .ok q) := by
  refine ⟨?_, ?_, ?_, ?_, ?_⟩
  · cases x with
    | val v =>
        by_cases hv : v ∈ vals <;> simp [validateDiscrete, hv]
    | nan => simp [validateDiscrete]
    | infinite => simp [validateDiscrete]
    | nonNumeric => simp [validateDiscrete]
    | unhashable => simp [validateDiscrete]
  · cases x with
    | val v => by_cases hv : v ∈ vals <;> simp [validateDiscrete, hv]
    | nan => simp [validateDiscrete]
    | infinite => simp [validateDiscrete]
    | nonNumeric => simp [validateDiscrete]
    | unhashable => simp [validateDiscrete]
  · intro q
    rcases hf : pyFloat x with q2 | _ | _
    · simp only [coerceInterval, hf]
      split_ifs with hrange
      · constructor
        · intro h
          exact absurd h (by simp)
        · rintro ⟨hq, h1, h2⟩
          injection hq with hq
          subst hq
          rcases hrange with h | h <;> linarith
      · push_neg at hrange
        constructor
        · intro h
          injection h with h
          subst h
          exact ⟨rfl, hrange.1, hrange.2⟩
        · rintro ⟨hq, _, _⟩
          injection hq with hq
          subst hq
          rfl
    · simp [coerceInterval, hf]
    · simp [coerceInterval, hf]
  · rcases hf : pyFloat x with q2 | _ | _
    · simp only [coerceInterval, hf]
      split_ifs with hrange
      · intro _
        rfl
      · simp [isOkE]
    · simp [coerceInterval, hf]
    · simp [coerceInterval, hf]
  · intro q
    rcases hc : coerceInterval dlo dhi fieldName x with e | q2
    · simp [normalizeValue, hc, Except.map]
    · simp [normalizeValue, hc, Except.map]

/-- C8: a condition leaf over a field absent from the context
evaluates to false and never fails, so an incomplete context falls
through to other rules. -/
theorem claim_C8_missing_field (c : Cond) (ctx : Ctx)
    (hleaf : isLeaf c = true)
    (habsent : ctxGet ctx (leafField c).name = Option.none) :
    evalCond c ctx = false := by
  cases c <;> simp_all [isLeaf, leafField, evalCond]

/-- Witness for C8 at a concrete input: a Between leaf over an empty
context evaluates false. -/
theorem claim_C8_witness :
    evalCond (.between ⟨"credit_score", .interval 300 850⟩ 700 850 .both) [] = false :=
  claim_C8_missing_field _ [] (by decide) (by decide)

/-- A successfully coerced value lies inside the domain range. -/
theorem coerceInterval_ok_range (dlo dhi : ℚ) (name : String) (x : CtxVal) (q : ℚ)
    (h : coerceInterval dlo dhi name x = .ok q) : dlo ≤ q ∧ q ≤ dhi := by
  rcases hf : pyFloat x with q2 | _ | _ <;> simp only [coerceInterval, hf] at h
  · split_ifs at h with hrange
    injection h with h
    subst h
    push_neg at hrange
    exact hrange
  · exact absurd h (by simp)
  · exact absurd h (by simp)

/-- C6: comparison literals are validated against the field domain at
construction.  Between succeeds exactly when its tag parses, both
bounds coerce (finite numerics inside the domain), and the coerced
bounds are ordered; the four comparisons succeed exactly when the
literal coerces; discrete equality and membership succeed exactly when
every literal is a domain member.  A successfully constructed Between
carries in-domain ordered bounds, so evaluation never needs literal
validation. -/
theorem claim_C6_construction (name : String) (dlo dhi : ℚ) (vals : Finset Val)
    (lo hi value lit : CtxVal) (closed : String) (lits : List CtxVal) :
    (isOkE (mkBetween ⟨name, .interval dlo dhi⟩ lo hi closed) = true ↔
      ((∃ tag, parseClosed closed = some tag) ∧
       ∃ ql qh, coerceInterval dlo dhi name lo = .ok ql ∧
         coerceInterval dlo dhi name hi = .ok qh ∧ ql ≤ qh)) ∧
    (∀ c, mkBetween ⟨name, .interval dlo dhi⟩ lo hi closed = .ok c →
      ∃ ql qh tag, c = .between ⟨name, .interval dlo dhi⟩ ql qh tag ∧
        dlo ≤ ql ∧ ql ≤ qh ∧ qh ≤ dhi) ∧
    (isOkE (mkGt ⟨name, .interval dlo dhi⟩ value) = true ↔
      isOkE (coerceInterval dlo dhi name value) = true) ∧
    (isOkE (mkGe ⟨name, .interval dlo dhi⟩ value) = true ↔
      isOkE (coerceInterval dlo dhi name value) = true) ∧
    (isOkE (mkLt ⟨name, .interval dlo dhi⟩ value) = true ↔
      isOkE (coerceInterval dlo dhi name value) = true) ∧
    (isOkE (mkLe ⟨name, .interval dlo dhi⟩ value) = true ↔
      isOkE (coerceInterval dlo dhi name value) = true) ∧
    (isOkE (mkEq ⟨name, .discrete vals⟩ lit) = true ↔
      ∃ v, lit = .val v ∧ v ∈ vals) ∧
    (isOkE (mkIsin ⟨name, .discrete vals⟩ lits) = true ↔
      ∀ l ∈ lits, ∃ v, l = .val v ∧ v ∈ vals) ∧
    (isOkE (mkNotin ⟨name, .discrete vals⟩ lits) = true ↔
      ∀ l ∈ lits, ∃ v, l = .val v ∧ v ∈ vals) := by
  have hmap : ∀ l2 : List CtxVal,
      isOkE (mapExcept (validateLit vals name) l2) = true ↔
        ∀ l ∈ l2, ∃ v, l = CtxVal.val v ∧ v ∈ vals := by
    intro l2
    induction l2 with
    | nil => simp [mapExcept, isOkE]
    | cons hd tl ih =>
        rcases hd with v | _ | _ | _ | _
        · by_cases hv : v ∈ vals
          · rcases htl : mapExcept (validateLit vals name) tl with e | rest
            · rw [htl] at ih
              simp only [mapExcept, validateLit, if_pos hv, htl, Except.bind,
                Except.map, isOkE] at ih ⊢
              simp_all
            · rw [htl] at ih
              simp only [mapExcept, validateLit, if_pos hv, htl, Except.bind,
                Except.map, isOkE] at ih ⊢
              simp_all
          · simp only [mapExcept, validateLit, if_neg hv, Except.bind, isOkE]
            constructor
            · intro h
              exact absurd h (by simp)
            · intro h
              rcases h _ (List.mem_cons_self _ _) with ⟨v2, hv2, hmem⟩
              injection hv2 with hv2
              subst hv2
              exact absurd hmem hv
        all_goals
          simp only [mapExcept, validateLit, Except.bind, isOkE]
          constructor
          · intro h
            exact absurd h (by simp)
          · intro h
            rcases h _ (List.mem_cons_self _ _) with ⟨v, hv, _⟩
            exact absurd hv (by simp)
  have hlit : ∀ l2 : List CtxVal,
      isOkE ((mapExcept (validateLit vals name) l2).map
        (fun vs => Cond.isin ⟨name, .discrete vals⟩ vs.toFinset)) = true ↔
        ∀ l ∈ l2, ∃ v, l = CtxVal.val v ∧ v ∈ vals := by
    intro l2
    rw [← hmap l2]
    rcases htl : mapExcept (validateLit vals name) l2 with e | rest <;>
      simp [isOkE, Except.map]
  have hlitn : ∀ l2 : List CtxVal,
      isOkE ((mapExcept (validateLit vals name) l2).map
        (fun vs => Cond.notin ⟨name, .discrete vals⟩ vs.toFinset)) = true ↔
        ∀ l ∈ l2, ∃ v, l = CtxVal.val v ∧ v ∈ vals := by
    intro l2
    rw [← hmap l2]
    rcases htl : mapExcept (validateLit vals name) l2 with e | rest <;>
      simp [isOkE, Except.map]
  refine ⟨?_, ?_, ?_, ?_, ?_, ?_, ?_, by simpa [mkIsin] using hlit lits,
    by simpa [mkNotin] using hlitn lits⟩
  · rcases hp : parseClosed closed with _ | tag
    · simp [mkBetween, hp, isOkE]
    · simp only [mkBetween, hp]
      rcases h1 : coerceInterval dlo dhi name lo with e | ql
      · simp [h1, isOkE, Except.bind, hp]
      · rcases h2 : coerceInterval dlo dhi name hi with e | qh
        · simp [h1, h2, isOkE, Except.bind, hp]
        · simp only [h1, h2, Except.bind, hp]
          split_ifs with hord
          · constructor
            · intro h
              exact absurd h (by simp [isOkE])
            · rintro ⟨_, ql2, qh2, hq1, hq2, hle⟩
              injection hq1 with hq1
              injection hq2 with hq2
              subst hq1
              subst hq2
              exact absurd hle (not_le.mpr hord)
          · constructor
            · intro _
              exact ⟨⟨tag, rfl⟩, ql, qh, rfl, rfl, by linarith⟩
            · intro _
              rfl
  · intro c hc
    rcases hp : parseClosed closed with _ | tag
    · rw [mkBetween, hp] at hc
      exact absurd hc (by simp)
    · simp only [mkBetween, hp] at hc
      rcases h1 : coerceInterval dlo dhi name lo with e | ql
      · rw [h1] at hc
        exact absurd hc (by simp [Except.bind])
      · rcases h2 : coerceInterval dlo dhi name hi with e | qh
        · rw [h1, h2] at hc
          simp only [Except.bind] at hc
          exact absurd hc (by simp)
        · rw [h1, h2] at hc
          simp only [Except.bind] at hc
          split_ifs at hc with hord
          injection hc with hc
          have hq1 : dlo ≤ ql ∧ ql ≤ dhi := coerceInterval_ok_range dlo dhi name lo ql h1
          have hq2 : dlo ≤ qh ∧ qh ≤ dhi := coerceInterval_ok_range dlo dhi name hi qh h2
          exact ⟨ql, qh, tag, hc.symm, hq1.1, by linarith, hq2.2⟩
  · rcases h1 : coerceInterval dlo dhi name value with e | q <;>
      simp [mkGt, h1, isOkE, Except.map]
  · rcases h1 : coerceInterval dlo dhi name value with e | q <;>
      simp [mkGe, h1, isOkE, Except.map]
  · rcases h1 : coerceInterval dlo dhi name value with e | q <;>
      simp [mkLt, h1, isOkE, Except.map]
  · rcases h1 : coerceInterval dlo dhi name value with e | q <;>
      simp [mkLe, h1, isOkE, Except.map]
  · rcases lit with v | _ | _ | _ | _
    · by_cases hv : v ∈ vals <;> simp [mkEq, hv, isOkE]
    all_goals simp [mkEq, isOkE]

/-- Success characterization of the error-propagating map. -/
theorem mapExcept_ok_iff {α β : Type} (f : α → Except Err β) :
    ∀ (l : List α) (out : List β),
      mapExcept f l = .ok out ↔ List.Forall₂ (fun a b => f a = .ok b) l out := by
  intro l
  induction l with
  | nil =>
      intro out
      cases out with
      | nil => simp [mapExcept]
      | cons b bs => simp [mapExcept]
  | cons a rest ih =>
      intro out
      rcases hf : f a with e | b
      · simp only [mapExcept, hf, Except.bind]
        cases out with
        | nil =>
            simp only [List.forall₂_nil_right_iff]
            constructor
            · intro h
              exact absurd h (by simp)
            · intro h
              simp at h
        | cons b2 bs =>
            constructor
            · intro h
              exact absurd h (by simp)
            · intro h
              rcases List.forall₂_cons.mp h with ⟨h1, _⟩
              rw [hf] at h1
              exact absurd h1 (by simp)
      · simp only [mapExcept, hf, Except.bind]
        rcases hrest : mapExcept f rest with e2 | out2
        · simp only [Except.map]
          cases out with
          | nil =>
              simp only [List.forall₂_nil_right_iff]
              constructor
              · intro h
                exact absurd h (by simp)
              · intro h
                simp at h
          | cons b2 bs =>
              constructor
              · intro h
                exact absurd h (by simp)
              · intro h
                rcases List.forall₂_cons.mp h with ⟨_, h2⟩
                rw [← ih bs] at h2
                rw [hrest] at h2
                exact absurd h2 (by simp)
        · simp only [Except.map]
          cases out with
          | nil =>
              simp only [List.forall₂_nil_right_iff]
              constructor
              · intro h
                exact absurd h (by simp)
              · intro h
                simp at h
          | cons b2 bs =>
              rw [List.forall₂_cons]
              constructor
              · intro h
                injection h with h
                injection h with h1 h2
                subst h1
                subst h2
                exact ⟨hf, (ih _).mp hrest⟩
              · rintro ⟨h1, h2⟩
                rw [hf] at h1
                injection h1 with h1
                subst h1
                rw [(ih _).mpr h2] at hrest
                injection hrest with h3
                subst h3
                rfl

/-- Failure characterization of the error-propagating map. -/
theorem mapExcept_error_iff {α β : Type} (f : α → Except Err β) :
    ∀ (l : List α),
      (∃ e, mapExcept f l = .error e) ↔ ∃ a ∈ l, ∃ e, f a = .error e := by
  intro l
  induction l with
  | nil => simp [mapExcept]
  | cons a rest ih =>
      rcases hf : f a with e | b
      · simp only [mapExcept, hf, Except.bind]
        constructor
        · intro _
          exact ⟨a, by simp, e, hf⟩
        · intro _
          exact ⟨e, rfl⟩
      · simp only [mapExcept, hf, Except.bind]
        rcases hrest : mapExcept f rest with e2 | out2
        · simp only [Except.map]
          constructor
          · intro _
            rcases ih.mp ⟨e2, hrest⟩ with ⟨a2, ha2, e3, he3⟩
            exact ⟨a2, by simp [ha2], e3, he3⟩
          · intro _
            exact ⟨e2, rfl⟩
        · simp only [Except.map]
          constructor
          · rintro ⟨e3, he3⟩
            exact absurd he3 (by simp)
          · rintro ⟨a2, ha2, e3, he3⟩
            rcases List.mem_cons.mp ha2 with rfl | ha2
            · rw [hf] at he3
              exact absurd he3 (by simp)
            · rcases ih.mpr ⟨a2, ha2, e3, he3⟩ with ⟨e4, he4⟩
              rw [hrest] at he4
              exact absurd he4 (by simp)

/-- Membership after stable insertion. -/
theorem mem_insertPrio (x y : ℕ × Rule) :
    ∀ l, y ∈ insertPrio x l ↔ y = x ∨ y ∈ l := by
  intro l
  induction l with
  | nil => simp [insertPrio]
  | cons z zs ih =>
      rw [insertPrio]
      split_ifs
      · simp [List.mem_cons]
      · simp only [List.mem_cons, ih]
        tauto

/-- Membership after the stable priority sort. -/
theorem mem_sortPrio (y : ℕ × Rule) :
    ∀ l, y ∈ sortPrio l ↔ y ∈ l := by
  intro l
  induction l with
  | nil => simp [sortPrio]
  | cons x xs ih => simp [sortPrio, mem_insertPrio, ih]

/-- A candidate produced by indexing comes from the rule list. -/
theorem mem_enumFrom_snd (p : ℕ × Rule) :
    ∀ (i : ℕ) (l : List Rule), p ∈ enumFrom i l → p.2 ∈ l := by
  intro i l
  induction l generalizing i with
  | nil => simp [enumFrom]
  | cons r rest ih =>
      rw [enumFrom]
      intro h
      rcases List.mem_cons.mp h with rfl | h
      · simp
      · exact List.mem_cons_of_mem _ (ih _ h)

/-- A candidate in the policy order comes from the declared rules. -/
theorem mem_orderIdx_snd (rs : RuleSet) (p : ℕ × Rule) (h : p ∈ orderIdx rs) :
    p.2 ∈ rs.rules := by
  rw [orderIdx] at h
  cases hp : rs.policy <;> rw [hp] at h
  · exact mem_enumFrom_snd p 0 rs.rules h
  · exact mem_enumFrom_snd p 0 rs.rules ((mem_sortPrio p _).mp h)

/-- Success characterization of validate_context: the empty context is
returned as-is without allocation; a non-empty context is normalized
entrywise into a fresh map. -/
theorem validate_context_ok_iff (rs : RuleSet) (ctx : Ctx) (fresh : Bool) (out : Ctx) :
    validate_context rs ctx = .ok (fresh, out) ↔
      ((ctx = [] ∧ fresh = false ∧ out = []) ∨
       (ctx ≠ [] ∧ fresh = true ∧
        List.Forall₂ (fun a b => normEntry rs a = .ok b) ctx out)) := by
  cases ctx with
  | nil =>
      simp only [validate_context]
      constructor
      · intro h
        injection h with h
        injection h with h1 h2
        exact Or.inl ⟨by trivial, h1.symm, h2.symm⟩
      · rintro (⟨_, rfl, rfl⟩ | ⟨hne, _⟩)
        · rfl
        · exact absurd rfl hne
  | cons kv rest =>
      simp only [validate_context]
      rcases hm : mapExcept (normEntry rs) (kv :: rest) with e | out2
      · simp only [Except.map]
        constructor
        · intro h
          exact absurd h (by simp)
        · rintro (⟨h, _⟩ | ⟨_, _, hf⟩)
          · exact absurd h (by simp)
          · rw [(mapExcept_ok_iff (normEntry rs) _ _).mpr hf] at hm
            exact absurd hm (by simp)
      · simp only [Except.map]
        constructor
        · intro h
          injection h with h
          injection h with h1 h2
          subst h2
          exact Or.inr ⟨by simp, h1.symm, (mapExcept_ok_iff (normEntry rs) _ _).mp hm⟩
        · rintro (⟨h, _⟩ | ⟨_, rfl, hf⟩)
          · exact absurd h (by simp)
          · rw [(mapExcept_ok_iff (normEntry rs) _ _).mpr hf] at hm
            injection hm with hm
            subst hm
            rfl

/-- Failure characterization of validate_context: it fails exactly when
some entry whose key names a referenced field has a value the field
rejects. -/
theorem validate_context_error_iff (rs : RuleSet) (ctx : Ctx) :
    (∃ e, validate_context rs ctx = .error e) ↔
      ∃ kv ∈ ctx, ∃ f, refFor rs kv.1 = some f ∧
        ∃ e, normalizeValue f kv.2 = .error e := by
  have hentry : ∀ kv : String × CtxVal,
      (∃ e, normEntry rs kv = .error e) ↔
        ∃ f, refFor rs kv.1 = some f ∧ ∃ e, normalizeValue f kv.2 = .error e := by
    intro kv
    rcases hr : refFor rs kv.1 with _ | f
    · simp [normEntry, hr]
    · simp only [normEntry, hr]
      rcases hn : normalizeValue f kv.2 with e2 | v2
      · simp only [Except.map]
        constructor
        · intro _
          exact ⟨f, rfl, e2, hn⟩
        · intro _
          exact ⟨e2, rfl⟩
      · simp only [Except.map]
        constructor
        · rintro ⟨e3, he3⟩
          exact absurd he3 (by simp)
        · rintro ⟨f2, hf2, e3, he3⟩
          injection hf2 with hf2
          subst hf2
          rw [hn] at he3
          exact absurd he3 (by simp)
  cases ctx with
  | nil =>
      simp only [validate_context]
      constructor
      · rintro ⟨e, he⟩
        exact absurd he (by simp)
      · rintro ⟨kv, hkv, _⟩
        exact absurd hkv (by simp)
  | cons kv rest =>
      simp only [validate_context]
      constructor
      · rintro ⟨e, he⟩
        rcases hm : mapExcept (normEntry rs) (kv :: rest) with e2 | out2
        · rcases (mapExcept_error_iff (normEntry rs) _).mp ⟨e2, hm⟩ with
            ⟨a, ha, e3, he3⟩
          exact ⟨a, ha, (hentry a).mp ⟨e3, he3⟩⟩
        · rw [hm] at he
          exact absurd he (by simp [Except.map])
      · rintro ⟨a, ha, hstruct⟩
        rcases (mapExcept_error_iff (normEntry rs) (kv :: rest)).mpr
            ⟨a, ha, (hentry a).mpr hstruct⟩ with ⟨e, he⟩
        rw [he]
        exact ⟨e, by simp [Except.map]⟩

/-- A resolver walk can only fail NoMatch: invalid values are rejected
before the walk, and a failing nested level propagates NoMatch. -/
theorem resolveList_error_noMatch :
    ∀ (n : ℕ) (ctx : Ctx) (fb : Option Fb) (cands : List (ℕ × Rule)) (e : Err),
      pairsSize cands + fbSize fb ≤ n →
      resolveList ctx fb cands = .error e → e = .noMatch := by
  intro n
  induction n using Nat.strong_induction_on with
  | _ n ih =>
      intro ctx fb cands e hsz hres
      match cands with
      | [] =>
          match fb with
          | Option.none =>
              rw [resolveList] at hres
              injection hres with h
              exact h.symm
          | some (.value nm p) =>
              rw [resolveList] at hres
              exact absurd hres (by simp)
          | some (.tree nm sub) =>
              rw [resolveList, resolveRS] at hres
              refine ih (pairsSize (orderIdx sub) + fbSize sub.fallback) ?_ ctx
                sub.fallback (orderIdx sub) e le_rfl hres
              rw [pairsSize_orderIdx]
              have h1 := rsSize_eq sub
              have h2 : fbSize (some (Fb.tree nm sub)) = 1 + rsSize sub := by
                simp [fbSize, fbSizeAux]
              simp only [pairsSize] at hsz
              omega
      | (i, r) :: rest =>
          cases r with
          | value c nm2 pr p =>
              rw [resolveList] at hres
              by_cases heval : evalCond (Rule.value c nm2 pr p).cond ctx = true
              · rw [if_pos heval] at hres
                exact absurd hres (by simp)
              · rw [if_neg heval] at hres
                refine ih (pairsSize rest + fbSize fb) ?_ ctx fb rest e le_rfl hres
                have := ruleSize_pos (Rule.value c nm2 pr p)
                simp only [pairsSize_cons] at hsz
                omega
          | tree c nm2 pr sub =>
              rw [resolveList] at hres
              by_cases heval : evalCond (Rule.tree c nm2 pr sub).cond ctx = true
              · rw [if_pos heval, resolveRS] at hres
                refine ih (pairsSize (orderIdx sub) + fbSize sub.fallback) ?_ ctx
                  sub.fallback (orderIdx sub) e le_rfl hres
                rw [pairsSize_orderIdx]
                have h1 := rsSize_eq sub
                simp only [pairsSize_cons, ruleSize] at hsz
                omega
              · rw [if_neg heval] at hres
                refine ih (pairsSize rest + fbSize fb) ?_ ctx fb rest e le_rfl hres
                have := ruleSize_pos (Rule.tree c nm2 pr sub)
                simp only [pairsSize_cons] at hsz
                omega

/-- Any resolver error is NoMatch. -/
theorem resolveRS_error_noMatch (ctx : Ctx) (rs : RuleSet) (e : Err)
    (h : resolveRS ctx rs = .error e) : e = .noMatch := by
  rw [resolveRS] at h
  exact resolveList_error_noMatch (pairsSize (orderIdx rs) + fbSize rs.fallback)
    ctx rs.fallback (orderIdx rs) e le_rfl h

/-- One normalization entry succeeds either by leaving an unreferenced
entry untouched or by normalizing through the first referenced field
with the entry's name. -/
theorem normEntry_ok_iff (rs : RuleSet) (a b : String × CtxVal) :
    normEntry rs a = .ok b ↔
      ((refFor rs a.1 = Option.none ∧ b = a) ∨
       (∃ f, refFor rs a.1 = some f ∧ b.1 = a.1 ∧
          normalizeValue f a.2 = .ok b.2)) := by
  rcases b with ⟨b1, b2⟩
  rcases hr : refFor rs a.1 with _ | f
  · simp only [normEntry, hr]
    constructor
    · intro h
      injection h with h
      exact Or.inl ⟨by trivial, h.symm⟩
    · rintro (⟨_, rfl⟩ | ⟨f, hf, _⟩)
      · rfl
      · exact absurd hf (by simp)
  · simp only [normEntry, hr]
    rcases hn : normalizeValue f a.2 with e | v
    · simp only [Except.map]
      constructor
      · intro h
        exact absurd h (by simp)
      · rintro (⟨hnone, _⟩ | ⟨f2, hf2, _, hnv⟩)
        · exact absurd hnone (by simp)
        · injection hf2 with hf2
          subst hf2
          rw [hn] at hnv
          exact absurd hnv (by simp)
    · simp only [Except.map]
      constructor
      · intro h
        injection h with h
        injection h with h1 h2
        exact Or.inr ⟨f, rfl, h1.symm, by rw [hn, h2]⟩
      · rintro (⟨hnone, _⟩ | ⟨f2, hf2, hb1, hnv⟩)
        · exact absurd hnone (by simp)
        · injection hf2 with hf2
          subst hf2
          rw [hn] at hnv
          injection hnv with hnv
          have hb1' : b1 = a.1 := hb1
          rw [hb1', hnv]

/-- A resolve call reports an invalid value exactly when context
validation does: the walk itself can only fail NoMatch. -/
theorem resolve_invalid_iff (rs : RuleSet) (x : Ctx) (s2 : String) :
    resolve rs x = .error (.invalidValue s2) ↔
      validate_context rs x = .error (.invalidValue s2) := by
  rcases hv : validate_context rs x with e2 | p
  · simp [resolve, hv, Except.bind]
  · simp only [resolve, hv, Except.bind]
    constructor
    · intro h
      exact absurd (resolveRS_error_noMatch _ _ _ h) (by simp)
    · intro h
      exact absurd h (by simp)

/-- An explain call fails exactly when context validation does, with
the same error. -/
theorem explain_error_iff (rs : RuleSet) (x : Ctx) (e : Err) :
    explain rs x = .error e ↔ validate_context rs x = .error e := by
  rcases hv : validate_context rs x with e2 | p
  · simp [explain, hv, Except.map]
  · simp only [explain, hv, Except.map]
    constructor
    · intro h
      exact absurd h (by simp)
    · intro h
      exact absurd h (by simp)

/-- C9 (amended): for a non-empty context, validation allocates a
fresh map whose entries are the normalizations of the caller's entries
— each entry whose key names a referenced field is normalized through
the first such FieldRef, every other entry is kept as-is — and it
fails exactly when a referenced present value is invalid; the caller's
entries are only read, never replaced in place. -/
theorem claim_C9_normalization (rs : RuleSet) (ctx : Ctx) (hne : ctx ≠ []) :
    (∀ fresh out, validate_context rs ctx = .ok (fresh, out) →
       fresh = true ∧
       List.Forall₂ (fun a b =>
         (refFor rs a.1 = Option.none ∧ b = a) ∨
         (∃ f, refFor rs a.1 = some f ∧ b.1 = a.1 ∧
            normalizeValue f a.2 = .ok b.2)) ctx out) ∧
    ((∃ e, validate_context rs ctx = .error e) ↔
       ∃ kv ∈ ctx, ∃ f, refFor rs kv.1 = some f ∧
         ∃ e, normalizeValue f kv.2 = .error e) := by
  constructor
  · intro fresh out hok
    rcases (validate_context_ok_iff rs ctx fresh out).mp hok with ⟨h, _⟩ | ⟨_, hf, hfa⟩
    · exact absurd h hne
    · exact ⟨hf, hfa.imp fun a b hab => (normEntry_ok_iff rs a b).mp hab⟩
  · exact validate_context_error_iff rs ctx

/-- Counterexample to C9 as stated: an empty context is returned
as-is through the early-return branch — no fresh map is allocated, the
caller receives its own (empty) mapping back. -/
theorem claim_C9_counterexample :
    validate_context (RuleSet.mk [] Option.none .firstMatch) [] =
      .ok (false, ([] : Ctx)) := rfl

/-- A discrete status field used by concrete witnesses. -/
def wStatus : FieldRef := ⟨"status", .discrete {Val.str "VIP", Val.str "STD"}⟩

/-- A one-rule ruleset used by concrete witnesses. -/
def wRS : RuleSet :=
  .mk [.value (.eq wStatus (.str "VIP")) "vip" 0 "vip"] Option.none .firstMatch

/-- Witness for C9 at a concrete input: an invalid status value makes
validation fail. -/
theorem claim_C9_witness :
    ∃ e, validate_context wRS [("status", .val (.str "BAD"))] = .error e :=
  (claim_C9_normalization wRS [("status", .val (.str "BAD"))] (by decide)).2.mpr
    ⟨("status", .val (.str "BAD")), by simp, wStatus, by decide,
      .invalidValue "status", by rfl⟩

/-- C10: context entries whose key matches no referenced field are
never validated or coerced — they are copied into the normalized map
unchanged — and an arbitrarily invalid value under such a key never
makes resolve or explain fail with an invalid-value error. -/
theorem claim_C10_unknown_keys (rs : RuleSet) (ctx : Ctx) (k : String)
    (junk : CtxVal) (hk : ∀ f ∈ rsRefs rs, f.name ≠ k) :
    (∀ fresh out, validate_context rs ctx = .ok (fresh, out) →
       List.Forall₂ (fun (a b : String × CtxVal) =>
         (∀ f ∈ rsRefs rs, f.name ≠ a.1) → b = a) ctx out) ∧
    (normEntry rs (k, junk) = .ok (k, junk)) ∧
    (∀ e, validate_context rs ((k, junk) :: ctx) = .error e ↔
       validate_context rs ctx = .error e) ∧
    (∀ s, resolve rs ((k, junk) :: ctx) = .error (.invalidValue s) ↔
       resolve rs ctx = .error (.invalidValue s)) ∧
    (∀ s, explain rs ((k, junk) :: ctx) = .error (.invalidValue s) ↔
       explain rs ctx = .error (.invalidValue s)) := by
  have hrefk : refFor rs k = Option.none := by
    rw [refFor, List.find?_eq_none]
    intro f hf
    simp [hk f hf]
  have hnormk : normEntry rs (k, junk) = .ok (k, junk) := by
    simp [normEntry, hrefk]
  have herriff : ∀ e, validate_context rs ((k, junk) :: ctx) = .error e ↔
      validate_context rs ctx = .error e := by
    intro e
    cases ctx with
    | nil =>
        simp [validate_context, mapExcept, hnormk, Except.bind, Except.map]
    | cons kv rest =>
        have hstep : mapExcept (normEntry rs) ((k, junk) :: kv :: rest) =
            (mapExcept (normEntry rs) (kv :: rest)).map
              (fun ys => (k, junk) :: ys) := by
          conv_lhs => rw [mapExcept]
          rw [hnormk]
          rfl
        simp only [validate_context, hstep]
        rcases hm : mapExcept (normEntry rs) (kv :: rest) with e2 | out2
        · simp [Except.map]
        · simp [Except.map]
  refine ⟨?_, hnormk, herriff, ?_, ?_⟩
  · intro fresh out hok
    rcases (validate_context_ok_iff rs ctx fresh out).mp hok with ⟨hnil, _, hout⟩ | ⟨_, _, hfa⟩
    · subst hnil
      subst hout
      exact List.Forall₂.nil
    · refine hfa.imp ?_
      intro a b hab ha
      have hrefa : refFor rs a.1 = Option.none := by
        rw [refFor, List.find?_eq_none]
        intro f hf
        simp [ha f hf]
      rcases (normEntry_ok_iff rs a b).mp hab with ⟨_, hb⟩ | ⟨f, hf, _⟩
      · exact hb
      · rw [hrefa] at hf
        exact absurd hf (by simp)
  · intro s2
    rw [resolve_invalid_iff, resolve_invalid_iff, herriff]
  · intro s2
    rw [explain_error_iff, explain_error_iff, herriff]

/-- Witness for C10 at a concrete input: an unhashable value under an
unknown key passes normalization untouched. -/
theorem claim_C10_witness :
    normEntry wRS ("timezone", CtxVal.unhashable) =
      .ok ("timezone", CtxVal.unhashable) :=
  (claim_C10_unknown_keys wRS [("status", .val (.str "VIP"))] "timezone"
    .unhashable (by decide)).2.1

/-- Dropping indices from the indexed list recovers the rules. -/
theorem map_snd_enumFrom : ∀ (i : ℕ) (l : List Rule),
    (enumFrom i l).map Prod.snd = l := by
  intro i l
  induction l generalizing i with
  | nil => rfl
  | cons r rest ih => simp [enumFrom, ih]

/-- Stable insertion permutes a cons. -/
theorem insertPrio_perm (x : ℕ × Rule) :
    ∀ l, (insertPrio x l).Perm (x :: l) := by
  intro l
  induction l with
  | nil => simp [insertPrio]
  | cons y ys ih =>
      rw [insertPrio]
      split_ifs
      · exact List.Perm.refl _
      · exact (List.Perm.cons y ih).trans (List.Perm.swap x y ys)

/-- The stable priority sort is a permutation of its input. -/
theorem sortPrio_perm : ∀ l, (sortPrio l).Perm l := by
  intro l
  induction l with
  | nil => simp [sortPrio]
  | cons x xs ih =>
      rw [sortPrio]
      exact (insertPrio_perm x (sortPrio xs)).trans (List.Perm.cons x ih)

/-- Stable insertion preserves the descending-priority order. -/
theorem insertPrio_pairwise (x : ℕ × Rule) :
    ∀ l, List.Pairwise (fun a b => Rule.priorityOf b.2 ≤ Rule.priorityOf a.2) l →
      List.Pairwise (fun a b => Rule.priorityOf b.2 ≤ Rule.priorityOf a.2)
        (insertPrio x l) := by
  intro l
  induction l with
  | nil =>
      intro _
      simp [insertPrio]
  | cons y ys ih =>
      intro hp
      rcases List.pairwise_cons.mp hp with ⟨hy, hys⟩
      rw [insertPrio]
      split_ifs with hle
      · refine List.pairwise_cons.mpr ⟨?_, hp⟩
        intro z hz
        rcases List.mem_cons.mp hz with rfl | hz
        · exact hle
        · exact le_trans (hy z hz) hle
      · refine List.pairwise_cons.mpr ⟨?_, ih hys⟩
        intro z hz
        rcases (mem_insertPrio x z ys).mp hz with rfl | hz
        · exact le_of_lt (lt_of_not_le hle)
        · exact hy z hz

/-- The priority sort is descending. -/
theorem sortPrio_pairwise : ∀ l,
    List.Pairwise (fun a b => Rule.priorityOf b.2 ≤ Rule.priorityOf a.2)
      (sortPrio l) := by
  intro l
  induction l with
  | nil => simp [sortPrio]
  | cons x xs ih =>
      rw [sortPrio]
      exact insertPrio_pairwise x (sortPrio xs) ih

/-- Stable insertion keeps each equal-priority class in order: the new
element lands in front of its class. -/
theorem insertPrio_filter (x : ℕ × Rule) (p : Int) :
    ∀ l, (insertPrio x l).filter (fun y => decide (Rule.priorityOf y.2 = p)) =
      if Rule.priorityOf x.2 = p then
        x :: l.filter (fun y => decide (Rule.priorityOf y.2 = p))
      else l.filter (fun y => decide (Rule.priorityOf y.2 = p)) := by
  intro l
  induction l with
  | nil =>
      rw [insertPrio]
      split_ifs with hx <;> simp [List.filter, hx]
  | cons y ys ih =>
      rw [insertPrio]
      split_ifs with hle hx hx
      · simp [List.filter_cons, hx]
      · simp [List.filter_cons, hx]
      · by_cases hy : Rule.priorityOf y.2 = p
        · exact absurd (le_of_eq (by rw [hy, hx])) hle
        · simp only [List.filter_cons, ih]
          simp [hy, hx]
      · by_cases hy : Rule.priorityOf y.2 = p
        · simp only [List.filter_cons, ih]
          simp [hy, hx]
        · simp only [List.filter_cons, ih]
          simp [hy, hx]

/-- Stability of the priority sort: every equal-priority class keeps
its declaration order. -/
theorem sortPrio_filter (p : Int) : ∀ l,
    (sortPrio l).filter (fun y => decide (Rule.priorityOf y.2 = p)) =
      l.filter (fun y => decide (Rule.priorityOf y.2 = p)) := by
  intro l
  induction l with
  | nil => rfl
  | cons x xs ih =>
      rw [sortPrio, insertPrio_filter, ih]
      by_cases hx : Rule.priorityOf x.2 = p
      · simp [List.filter_cons, hx]
      · simp [List.filter_cons, hx]

/-- The resolver walk returns the outcome of the first candidate whose
condition holds. -/
theorem resolveList_find_some (ctx : Ctx) (fb : Option Fb) :
    ∀ (cands : List (ℕ × Rule)) (i : ℕ) (r : Rule),
      cands.find? (fun x => evalCond (Rule.cond x.2) ctx) = some (i, r) →
      resolveList ctx fb cands =
        (match r with
         | .value _ _ _ p => .ok p
         | .tree _ _ _ sub => resolveRS ctx sub) := by
  intro cands
  induction cands with
  | nil =>
      intro i r hf
      simp [List.find?] at hf
  | cons hd rest ih =>
      intro i r hf
      rcases hd with ⟨i2, r2⟩
      by_cases he : evalCond (Rule.cond r2) ctx = true
      · rw [List.find?_cons_of_pos _ (by simpa using he)] at hf
        injection hf with hf
        injection hf with hf1 hf2
        subst hf1
        subst hf2
        cases r2 with
        | value c nm pr p =>
            rw [resolveList, if_pos (by simpa [Rule.cond] using he)]
        | tree c nm pr sub =>
            rw [resolveList, if_pos (by simpa [Rule.cond] using he)]
      · rw [List.find?_cons_of_neg _ (by simpa using he)] at hf
        cases r2 with
        | value c nm pr p =>
            rw [resolveList, if_neg (by simpa [Rule.cond] using he)]
            exact ih i r hf
        | tree c nm pr sub =>
            rw [resolveList, if_neg (by simpa [Rule.cond] using he)]
            exact ih i r hf

/-- When no candidate matches, the walk falls to the fallback: selected
unconditionally when present, NoMatch otherwise. -/
theorem resolveList_find_none (ctx : Ctx) (fb : Option Fb) :
    ∀ (cands : List (ℕ × Rule)),
      cands.find? (fun x => evalCond (Rule.cond x.2) ctx) = Option.none →
      resolveList ctx fb cands =
        (match fb with
         | Option.none => .error .noMatch
         | some (.value _ p) => .ok p
         | some (.tree _ sub) => resolveRS ctx sub) := by
  intro cands
  induction cands with
  | nil =>
      intro _
      match fb with
      | Option.none => rw [resolveList]
      | some (.value nm p) => rw [resolveList]
      | some (.tree nm sub) => rw [resolveList]
  | cons hd rest ih =>
      intro hf
      rcases hd with ⟨i2, r2⟩
      by_cases he : evalCond (Rule.cond r2) ctx = true
      · rw [List.find?_cons_of_pos _ (by simpa using he)] at hf
        exact absurd hf (by simp)
      · rw [List.find?_cons_of_neg _ (by simpa using he)] at hf
        cases r2 with
        | value c nm pr p =>
            rw [resolveList, if_neg (by simpa [Rule.cond] using he)]
            exact ih hf
        | tree c nm pr sub =>
            rw [resolveList, if_neg (by simpa [Rule.cond] using he)]
            exact ih hf

/-- C3: the resolver tests candidates in the policy order — the
declared order under FIRST_MATCH; under PRIORITY a permutation of the
declared rules that is descending in priority and keeps declaration
order inside every equal-priority class — and selects the first
candidate whose condition evaluates true: a value rule yields its
payload, a tree rule recurses into its subtree with the same
context. -/
theorem claim_C3_policy_order (rs : RuleSet) (ctx : Ctx) :
    (rs.policy = .firstMatch → (orderIdx rs).map Prod.snd = rs.rules) ∧
    (rs.policy = .priority →
       ((orderIdx rs).map Prod.snd).Perm rs.rules ∧
       List.Pairwise (fun a b => Rule.priorityOf b.2 ≤ Rule.priorityOf a.2)
         (orderIdx rs) ∧
       (∀ p : Int,
          (orderIdx rs).filter (fun y => decide (Rule.priorityOf y.2 = p)) =
            (enumFrom 0 rs.rules).filter
              (fun y => decide (Rule.priorityOf y.2 = p)))) ∧
    (∀ i r, (orderIdx rs).find? (fun x => evalCond (Rule.cond x.2) ctx) =
        some (i, r) →
       resolveRS ctx rs =
         (match r with
          | .value _ _ _ p => .ok p
          | .tree _ _ _ sub => resolveRS ctx sub)) ∧
    ((orderIdx rs).find? (fun x => evalCond (Rule.cond x.2) ctx) = Option.none →
       resolveRS ctx rs =
         (match rs.fallback with
          | Option.none => .error .noMatch
          | some (.value _ p) => .ok p
          | some (.tree _ sub) => resolveRS ctx sub)) := by
  refine ⟨?_, ?_, ?_, ?_⟩
  · intro hp
    rw [orderIdx, hp, map_snd_enumFrom]
  · intro hp
    rw [orderIdx, hp]
    refine ⟨?_, sortPrio_pairwise _, fun p => sortPrio_filter p _⟩
    have h1 := (sortPrio_perm (enumFrom 0 rs.rules)).map Prod.snd
    rw [map_snd_enumFrom] at h1
    exact h1
  · intro i r hf
    rw [resolveRS]
    exact resolveList_find_some ctx rs.fallback (orderIdx rs) i r hf
  · intro hf
    rw [resolveRS]
    exact resolveList_find_none ctx rs.fallback (orderIdx rs) hf

/-- A walk in which every candidate fails and no fallback exists
reports only crosses: no match, no path, no result. -/
theorem explainList_all_false (ctx : Ctx) :
    ∀ (cands : List (ℕ × Rule)) (acc : List (String × Bool)),
      (∀ x ∈ cands, evalCond (Rule.cond x.2) ctx = false) →
      explainList ctx Option.none cands acc =
        ⟨Option.none, [], acc ++ cands.map (fun x => (Rule.name x.2, false)),
          Option.none⟩ := by
  intro cands
  induction cands with
  | nil =>
      intro acc _
      rw [explainList]
      simp
  | cons hd rest ih =>
      intro acc hall
      rcases hd with ⟨i, r⟩
      have hr : evalCond (Rule.cond r) ctx = false := hall (i, r) (by simp)
      cases r with
      | value c nm pr p =>
          rw [explainList, if_neg (by simp [Rule.cond] at hr ⊢; exact hr)]
          rw [ih (acc ++ [(Rule.name (Rule.value c nm pr p), false)])
            (fun x hx => hall x (by simp [hx]))]
          simp [Rule.name]
      | tree c nm pr sub =>
          rw [explainList, if_neg (by simp [Rule.cond] at hr ⊢; exact hr)]
          rw [ih (acc ++ [(Rule.name (Rule.tree c nm pr sub), false)])
            (fun x hx => hall x (by simp [hx]))]
          simp [Rule.name]

/-- A second discrete field used by the nested counterexample. -/
def wSeg : FieldRef := ⟨"segment", .discrete {Val.str "core", Val.str "edge"}⟩

/-- Inner ruleset of the counterexample: one rule, no fallback. -/
def wInner : RuleSet :=
  .mk [.value (.eq wStatus (.str "VIP")) "inner" 0 "inner"] Option.none .firstMatch

/-- Outer ruleset of the counterexample: a tree rule guarding the
inner ruleset, no fallback. -/
def wOuter : RuleSet :=
  .mk [.tree (.eq wSeg (.str "core")) "outer" 0 wInner] Option.none .firstMatch

/-- The context driving the counterexample: the outer guard holds, the
inner rule does not. -/
def wCtx5 : Ctx := [("segment", .val (.str "core")), ("status", .val (.str "STD"))]

/-- Counterexample to C5 as stated: the top-level rule matches, yet
resolve fails NoMatch because the matched subtree has no matching rule
and no fallback — NoMatch propagates instead of being confined to the
top level. -/
theorem claim_C5_counterexample :
    resolve wOuter wCtx5 = .error .noMatch ∧
    (∃ x ∈ wOuter.rules, evalCond (Rule.cond x) wCtx5 = true) := by
  constructor
  · have hv : validate_context wOuter wCtx5 = .ok (true, wCtx5) := by rfl
    rw [resolve, hv]
    simp only [Except.bind]
    have h1 : (orderIdx wOuter).find?
        (fun x => evalCond (Rule.cond x.2) wCtx5) =
        some (0, .tree (.eq wSeg (.str "core")) "outer" 0 wInner) := by rfl
    rw [resolveRS]
    rw [resolveList_find_some wCtx5 wOuter.fallback (orderIdx wOuter) 0
      (.tree (.eq wSeg (.str "core")) "outer" 0 wInner) h1]
    have h2 : (orderIdx wInner).find?
        (fun x => evalCond (Rule.cond x.2) wCtx5) = Option.none := by rfl
    show resolveRS wCtx5 wInner = .error .noMatch
    rw [resolveRS]
    rw [resolveList_find_none wCtx5 wInner.fallback (orderIdx wInner) h2]
    rfl
  · exact ⟨.tree (.eq wSeg (.str "core")) "outer" 0 wInner, by simp [wOuter, RuleSet.rules],
      by rfl⟩

/-- C5 (amended): with a context that validates, resolve either
returns a payload or fails NoMatch (never an invalid-value error); when
no top-level candidate matches and no fallback exists, resolve fails
NoMatch while explain succeeds with matched_rule and result absent, an
empty path, and one recorded cross per tested candidate; an invalid
context value makes resolve and explain fail with the same error. -/
theorem claim_C5_resolution_outcomes (rs : RuleSet) (ctx : Ctx) :
    (∀ b nctx, validate_context rs ctx = .ok (b, nctx) →
       ((∃ p, resolve rs ctx = .ok p) ∨ resolve rs ctx = .error .noMatch) ∧
       (((∀ x ∈ orderIdx rs, evalCond (Rule.cond x.2) nctx = false) ∧
         rs.fallback = Option.none) →
          resolve rs ctx = .error .noMatch ∧
          explain rs ctx = .ok ⟨Option.none, [],
            (orderIdx rs).map (fun x => (Rule.name x.2, false)), Option.none⟩)) ∧
    (∀ e, validate_context rs ctx = .error e →
       resolve rs ctx = .error e ∧ explain rs ctx = .error e) := by
  constructor
  · intro b nctx hval
    constructor
    · rcases hres : resolveRS nctx rs with e | p
      · right
        rw [resolve, hval]
        simp only [Except.bind]
        rw [hres, resolveRS_error_noMatch nctx rs e hres]
      · left
        exact ⟨p, by rw [resolve, hval]; simp only [Except.bind]; exact hres⟩
    · rintro ⟨hall, hfb⟩
      have hfind : (orderIdx rs).find?
          (fun x => evalCond (Rule.cond x.2) nctx) = Option.none := by
        rw [List.find?_eq_none]
        intro x hx
        simp [hall x hx]
      constructor
      · rw [resolve, hval]
        simp only [Except.bind]
        rw [resolveRS]
        rw [resolveList_find_none nctx rs.fallback (orderIdx rs) hfind, hfb]
      · rw [explain, hval]
        simp only [Except.map]
        rw [explainRS, hfb]
        rw [explainList_all_false nctx (orderIdx rs) [] hall]
        simp
  · intro e he
    constructor
    · rw [resolve, he]
      simp [Except.bind]
    · rw [explain, he]
      simp [Except.map]

/-- A condition pairs each leaf constructor with a field of the
matching domain kind: discrete leaves on discrete fields, interval
leaves on interval fields (the only pairings the builder can
produce). -/
def condKindOk : Cond → Bool
  | .eq f _ => f.domain.kind
  | .isin f _ => f.domain.kind
  | .notin f _ => f.domain.kind
  | .between f _ _ _ => !f.domain.kind
  | .gt f _ => !f.domain.kind
  | .ge f _ => !f.domain.kind
  | .lt f _ => !f.domain.kind
  | .le f _ => !f.domain.kind
  | .and a b => condKindOk a && condKindOk b
  | .or a b => condKindOk a && condKindOk b
  | .not a => condKindOk a

/-! Kind discipline lifted over rule trees. -/
mutual
def ruleKindOk : Rule → Bool
  | .value c _ _ _ => condKindOk c
  | .tree c _ _ sub => condKindOk c && rsKindOk sub
def fbKindOk : Fb → Bool
  | .value _ _ => true
  | .tree _ sub => rsKindOk sub
def rulesKindOk : List Rule → Bool
  | [] => true
  | r :: rest => ruleKindOk r && rulesKindOk rest
def rsKindOk : RuleSet → Bool
  | .mk rules fb _ =>
      rulesKindOk rules &&
        (match fb with
         | Option.none => true
         | some f => fbKindOk f)
end

/-- Field refs sharing the target's name carry the target's domain. -/
def CohRefs (l : List FieldRef) (target : FieldRef) : Prop :=
  ∀ f ∈ l, f.name = target.name → f.domain = target.domain

/-- A context value already in the canonical form its domain
produces. -/
def NormalVal : Domain → CtxVal → Prop
  | .discrete vals, .val v => v ∈ vals
  | .interval lo hi, .val (.num q) => lo ≤ q ∧ q ≤ hi
  | _, _ => False

/-- Every non-target field of the list is bound in the context to a
normal value of its domain. -/
def FixedRefs (l : List FieldRef) (target : FieldRef) (ctx : Ctx) : Prop :=
  ∀ f ∈ l, f.name ≠ target.name →
    ∃ x, ctxGet ctx f.name = some x ∧ NormalVal f.domain x

/-- Decidability of NormalVal, for concrete witnesses. -/
instance (d : Domain) (x : CtxVal) : Decidable (NormalVal d x) := by
  cases d with
  | discrete vals =>
      cases x with
      | val v => exact inferInstanceAs (Decidable (v ∈ vals))
      | nan => exact inferInstanceAs (Decidable False)
      | infinite => exact inferInstanceAs (Decidable False)
      | nonNumeric => exact inferInstanceAs (Decidable False)
      | unhashable => exact inferInstanceAs (Decidable False)
  | interval lo hi =>
      cases x with
      | val v =>
          cases v with
          | str s2 => exact inferInstanceAs (Decidable False)
          | num q => exact inferInstanceAs (Decidable (lo ≤ q ∧ q ≤ hi))
      | nan => exact inferInstanceAs (Decidable False)
      | infinite => exact inferInstanceAs (Decidable False)
      | nonNumeric => exact inferInstanceAs (Decidable False)
      | unhashable => exact inferInstanceAs (Decidable False)

/-- Kind discipline of a rule set descends to its rules. -/
theorem rsKindOk_rules (rs : RuleSet) (h : rsKindOk rs = true) :
    ∀ r ∈ rs.rules, ruleKindOk r = true := by
  cases rs with
  | mk rules fb p =>
      simp only [rsKindOk.eq_def, Bool.and_eq_true] at h
      have h1 := h.1
      simp only [RuleSet.rules]
      clear h
      induction rules with
      | nil => simp
      | cons r rest ih =>
          simp only [rulesKindOk, Bool.and_eq_true] at h1
          intro r2 hr2
          rcases List.mem_cons.mp hr2 with rfl | hr2
          · exact h1.1
          · exact ih h1.2 r2 hr2

/-- Kind discipline of a rule set covers its fallback. -/
theorem rsKindOk_fb (rs : RuleSet) (h : rsKindOk rs = true) :
    ∀ f, rs.fallback = some f → fbKindOk f = true := by
  cases rs with
  | mk rules fb p =>
      simp only [rsKindOk.eq_def, Bool.and_eq_true] at h
      intro f hf
      simp only [RuleSet.fallback] at hf
      subst hf
      exact h.2

/-- Refs of a rule inside a rule set are refs of the rule set. -/
theorem ruleRefs_sub_rsRefs (rs : RuleSet) (r : Rule) (hr : r ∈ rs.rules) :
    ∀ f ∈ ruleRefs r, f ∈ rsRefs rs := by
  cases rs with
  | mk rules fb p =>
      simp only [RuleSet.rules] at hr
      intro f hf
      simp only [rsRefs.eq_def]
      apply List.mem_append_left
      induction rules with
      | nil => simp at hr
      | cons r2 rest ih =>
          rw [rulesRefs]
          rcases List.mem_cons.mp hr with rfl | hr
          · exact List.mem_append_left _ hf
          · exact List.mem_append_right _ (ih hr)

/-- Refs of the fallback are refs of the rule set. -/
theorem fbRefs_sub_rsRefs (rs : RuleSet) (f2 : Fb) (hf2 : rs.fallback = some f2) :
    ∀ f ∈ fbRefsAux f2, f ∈ rsRefs rs := by
  cases rs with
  | mk rules fb p =>
      simp only [RuleSet.fallback] at hf2
      subst hf2
      intro f hf
      simp only [rsRefs.eq_def]
      exact List.mem_append_right _ hf

/-- The raw outcome of a condition for the analyzer, as a value set of
the target domain. -/
def rawOf (target : FieldRef) (ctx : Ctx) (c : Cond) : VSet :=
  projToSet target.domain (project target ctx c)

/-- Uniform unfolding of the projection at a leaf. -/
theorem project_leaf (target : FieldRef) (ctx : Ctx) (c : Cond)
    (hleaf : isLeaf c = true) :
    project target ctx c =
      (if (leafField c).name = target.name then .vs (litSet c)
       else
         match ctxGet ctx (leafField c).name with
         | some _ => .pb (evalCond c ctx)
         | Option.none => .unresolved) := by
  cases c <;> simp_all [isLeaf, project, leafField]

/-- The literal value set of a kind-disciplined leaf has the kind of
its field's domain. -/
theorem litSet_kind (c : Cond) (hleaf : isLeaf c = true)
    (hk : condKindOk c = true) :
    (litSet c).kind = (leafField c).domain.kind := by
  cases c <;>
    simp_all [isLeaf, condKindOk, litSet, leafField, VSet.kind,
      Bool.not_eq_true']
  next f lits =>
    rcases hd : f.domain with ⟨vals⟩ | ⟨lo, hi⟩ <;> simp

/-- A leaf of a kind-disciplined condition references its field. -/
theorem leafField_mem_condRefs (c : Cond) (hleaf : isLeaf c = true) :
    leafField c ∈ condRefs c := by
  cases c <;> simp_all [isLeaf, condRefs, leafField]

/-- Kind of the projection of a conjunction. -/
theorem projAnd_kind (dom : Domain) (p1 p2 : Proj)
    (h1 : (projToSet dom p1).kind = dom.kind)
    (h2 : (projToSet dom p2).kind = dom.kind) :
    (projToSet dom (projAnd p1 p2)).kind = dom.kind := by
  cases p1 with
  | pb b1 =>
      cases b1
      · simp [projAnd, projToSet, kind_emptyV]
      · cases p2 with
        | pb b2 => cases b2 <;> simp [projAnd, projToSet, kind_emptyV, kind_univV]
        | vs s => simpa [projAnd, projToSet] using h2
        | unresolved => simp [projAnd, projToSet, kind_emptyV]
  | vs a =>
      cases p2 with
      | pb b2 =>
          cases b2
          · simp [projAnd, projToSet, kind_emptyV]
          · simpa [projAnd, projToSet] using h1
      | vs b =>
          simp only [projAnd, projToSet]
          rw [kind_interV]
          simpa [projToSet] using h1
      | unresolved => simp [projAnd, projToSet, kind_emptyV]
  | unresolved =>
      cases p2 with
      | pb b2 => cases b2 <;> simp [projAnd, projToSet, kind_emptyV]
      | vs b => simp [projAnd, projToSet, kind_emptyV]
      | unresolved => simp [projAnd, projToSet, kind_emptyV]

/-- Kind of the projection of a disjunction. -/
theorem projOr_kind (dom : Domain) (p1 p2 : Proj)
    (h1 : (projToSet dom p1).kind = dom.kind)
    (h2 : (projToSet dom p2).kind = dom.kind) :
    (projToSet dom (projOr p1 p2)).kind = dom.kind := by
  cases p1 with
  | pb b1 =>
      cases b1
      · cases p2 with
        | pb b2 => cases b2 <;> simp [projOr, projToSet, kind_emptyV, kind_univV]
        | vs s => simpa [projOr, projToSet] using h2
        | unresolved => simp [projOr, projToSet, kind_emptyV]
      · simp [projOr, projToSet, kind_univV]
  | vs a =>
      cases p2 with
      | pb b2 =>
          cases b2
          · simpa [projOr, projToSet] using h1
          · simp [projOr, projToSet, kind_univV]
      | vs b =>
          simp only [projOr, projToSet]
          rw [kind_unionV]
          simpa [projToSet] using h1
      | unresolved => simp [projOr, projToSet, kind_emptyV]
  | unresolved =>
      cases p2 with
      | pb b2 => cases b2 <;> simp [projOr, projToSet, kind_emptyV, kind_univV]
      | vs b => simp [projOr, projToSet, kind_emptyV]
      | unresolved => simp [projOr, projToSet, kind_emptyV]

/-- Kind of the projection of a negation. -/
theorem projNot_kind (dom : Domain) (p : Proj)
    (h : (projToSet dom p).kind = dom.kind) :
    (projToSet dom (projNot dom p)).kind = dom.kind := by
  cases p with
  | pb b => cases b <;> simp [projNot, projToSet, kind_emptyV, kind_univV]
  | vs s =>
      simp only [projNot, projToSet]
      exact kind_complV dom s (by simpa [projToSet] using h)
  | unresolved => simp [projNot, projToSet, kind_emptyV]

/-- Kind of the raw outcome at a leaf. -/
theorem rawOf_kind_leaf (target : FieldRef) (ctx : Ctx) (c : Cond)
    (hleaf : isLeaf c = true) (hk : condKindOk c = true)
    (hcoh : CohRefs (condRefs c) target) :
    (rawOf target ctx c).kind = target.domain.kind := by
  rw [rawOf, project_leaf target ctx c hleaf]
  by_cases hname : (leafField c).name = target.name
  · rw [if_pos hname]
    have hdom := hcoh _ (leafField_mem_condRefs c hleaf) hname
    simp only [projToSet]
    rw [litSet_kind c hleaf hk, hdom]
  · rw [if_neg hname]
    rcases ctxGet ctx (leafField c).name with _ | x
    · simp [projToSet, kind_emptyV]
    · rcases evalCond c ctx <;> simp [projToSet, kind_univV, kind_emptyV]

/-- The raw outcome of a kind-disciplined, name-coherent condition has
the target domain's kind. -/
theorem rawOf_kind (target : FieldRef) (ctx : Ctx) :
    ∀ c : Cond, condKindOk c = true → CohRefs (condRefs c) target →
      (rawOf target ctx c).kind = target.domain.kind := by
  intro c
  induction c
  case and a b iha ihb =>
      intro hk hcoh
      rw [condKindOk, Bool.and_eq_true] at hk
      have hca : CohRefs (condRefs a) target := fun f hf =>
        hcoh f (by rw [condRefs]; exact List.mem_append_left _ hf)
      have hcb : CohRefs (condRefs b) target := fun f hf =>
        hcoh f (by rw [condRefs]; exact List.mem_append_right _ hf)
      rw [rawOf, project]
      exact projAnd_kind target.domain _ _ (iha hk.1 hca) (ihb hk.2 hcb)
  case or a b iha ihb =>
      intro hk hcoh
      rw [condKindOk, Bool.and_eq_true] at hk
      have hca : CohRefs (condRefs a) target := fun f hf =>
        hcoh f (by rw [condRefs]; exact List.mem_append_left _ hf)
      have hcb : CohRefs (condRefs b) target := fun f hf =>
        hcoh f (by rw [condRefs]; exact List.mem_append_right _ hf)
      rw [rawOf, project]
      exact projOr_kind target.domain _ _ (iha hk.1 hca) (ihb hk.2 hcb)
  case not a iha =>
      intro hk hcoh
      rw [condKindOk] at hk
      have hca : CohRefs (condRefs a) target := fun f hf =>
        hcoh f (by rw [condRefs]; exact hf)
      rw [rawOf, project]
      exact projNot_kind target.domain _ (iha hk hca)
  all_goals
    intro hk hcoh
    exact rawOf_kind_leaf target ctx _ rfl hk hcoh

/-- Bool form of intersection membership. -/
theorem memV_interV_bool (a b : VSet) (h : a.kind = b.kind) (v : Val) :
    memV v (interV a b) = (memV v a && memV v b) := by
  rw [Bool.eq_iff_iff, Bool.and_eq_true]
  exact memV_interV a b h v

/-- Bool form of union membership. -/
theorem memV_unionV_bool (a b : VSet) (h : a.kind = b.kind) (v : Val) :
    memV v (unionV a b) = (memV v a || memV v b) := by
  rw [Bool.eq_iff_iff, Bool.or_eq_true]
  exact memV_unionV a b h v

/-- Bool form of complement membership, at an in-universe point. -/
theorem memV_complV_bool (dom : Domain) (s : VSet) (h : s.kind = dom.kind)
    (v : Val) (hv : memUniv dom v = true) :
    memV v (complV dom s) = !memV v s := by
  rw [Bool.eq_iff_iff, Bool.not_eq_true']
  rw [memV_complV dom s h v]
  simp [hv]

/-- Membership in the projection of a conjunction. -/
theorem projAnd_mem (dom : Domain) (v : Val) (hv : memUniv dom v = true)
    (p1 p2 : Proj)
    (h1 : (projToSet dom p1).kind = dom.kind)
    (h2 : (projToSet dom p2).kind = dom.kind) :
    memV v (projToSet dom (projAnd p1 p2)) =
      (memV v (projToSet dom p1) && memV v (projToSet dom p2)) := by
  have hv2 : memV v (univV dom) = true := hv
  cases p1 with
  | pb b1 =>
      cases b1
      · simp [projAnd, projToSet, memV_emptyV]
      · cases p2 with
        | pb b2 =>
            cases b2 <;>
              simp only [projAnd, projToSet] <;> simp [memV_emptyV, hv2]
        | vs s => simp only [projAnd, projToSet]; simp [hv2]
        | unresolved => simp [projAnd, projToSet, memV_emptyV]
  | vs a =>
      cases p2 with
      | pb b2 =>
          cases b2
          · simp [projAnd, projToSet, memV_emptyV]
          · simp only [projAnd, projToSet]; simp [hv2]
      | vs b =>
          simp only [projAnd, projToSet]
          exact memV_interV_bool a b (by simpa [projToSet] using h1.trans h2.symm) v
      | unresolved => simp [projAnd, projToSet, memV_emptyV]
  | unresolved =>
      cases p2 with
      | pb b2 => cases b2 <;> simp [projAnd, projToSet, memV_emptyV]
      | vs b => simp [projAnd, projToSet, memV_emptyV]
      | unresolved => simp [projAnd, projToSet, memV_emptyV]

/-- Membership in the projection of a disjunction of resolved
projections. -/
theorem projOr_mem (dom : Domain) (v : Val) (hv : memUniv dom v = true)
    (p1 p2 : Proj) (hp1 : p1 ≠ .unresolved) (hp2 : p2 ≠ .unresolved)
    (h1 : (projToSet dom p1).kind = dom.kind)
    (h2 : (projToSet dom p2).kind = dom.kind) :
    memV v (projToSet dom (projOr p1 p2)) =
      (memV v (projToSet dom p1) || memV v (projToSet dom p2)) := by
  have hv2 : memV v (univV dom) = true := hv
  cases p1 with
  | pb b1 =>
      cases b1
      · cases p2 with
        | pb b2 =>
            cases b2 <;>
              simp only [projOr, projToSet] <;> simp [memV_emptyV, hv2]
        | vs s => simp only [projOr, projToSet]; simp [memV_emptyV]
        | unresolved => exact absurd rfl hp2
      · simp only [projOr, projToSet]; simp [hv2]
  | vs a =>
      cases p2 with
      | pb b2 =>
          cases b2
          · simp only [projOr, projToSet]; simp [memV_emptyV]
          · simp only [projOr, projToSet]; simp [hv2]
      | vs b =>
          simp only [projOr, projToSet]
          exact memV_unionV_bool a b (by simpa [projToSet] using h1.trans h2.symm) v
      | unresolved => exact absurd rfl hp2
  | unresolved => exact absurd rfl hp1

/-- Membership in the projection of a negation of a resolved
projection, at an in-universe point. -/
theorem projNot_mem (dom : Domain) (v : Val) (hv : memUniv dom v = true)
    (p : Proj) (hp : p ≠ .unresolved)
    (h : (projToSet dom p).kind = dom.kind) :
    memV v (projToSet dom (projNot dom p)) = !memV v (projToSet dom p) := by
  have hv2 : memV v (univV dom) = true := hv
  cases p with
  | pb b =>
      cases b <;> simp only [projNot, projToSet] <;>
        simp [memV_emptyV, hv2]
  | vs s =>
      simp only [projNot, projToSet]
      exact memV_complV_bool dom s (by simpa [projToSet] using h) v hv
  | unresolved => exact absurd rfl hp

/-- Conjunction of resolved projections is resolved. -/
theorem projAnd_ne (p1 p2 : Proj) (h1 : p1 ≠ .unresolved) (h2 : p2 ≠ .unresolved) :
    projAnd p1 p2 ≠ .unresolved := by
  cases p1 with
  | pb b1 => cases b1 <;> cases p2 with
    | pb b2 => cases b2 <;> simp [projAnd]
    | vs s => simp [projAnd]
    | unresolved => exact absurd rfl h2
  | vs a => cases p2 with
    | pb b2 => cases b2 <;> simp [projAnd]
    | vs b => simp [projAnd]
    | unresolved => exact absurd rfl h2
  | unresolved => exact absurd rfl h1

/-- Disjunction of resolved projections is resolved. -/
theorem projOr_ne (p1 p2 : Proj) (h1 : p1 ≠ .unresolved) (h2 : p2 ≠ .unresolved) :
    projOr p1 p2 ≠ .unresolved := by
  cases p1 with
  | pb b1 => cases b1 <;> cases p2 with
    | pb b2 => cases b2 <;> simp [projOr]
    | vs s => simp [projOr]
    | unresolved => exact absurd rfl h2
  | vs a => cases p2 with
    | pb b2 => cases b2 <;> simp [projOr]
    | vs b => simp [projOr]
    | unresolved => exact absurd rfl h2
  | unresolved => exact absurd rfl h1

/-- Negation of a resolved projection is resolved. -/
theorem projNot_ne (dom : Domain) (p : Proj) (h : p ≠ .unresolved) :
    projNot dom p ≠ .unresolved := by
  cases p with
  | pb b => cases b <;> simp [projNot]
  | vs s => simp [projNot]
  | unresolved => exact absurd rfl h

/-- Evaluation of a leaf ignores a context binding under another
name. -/
theorem evalCond_leaf_ext (c : Cond) (hleaf : isLeaf c = true) (k : String)
    (x : CtxVal) (ctx : Ctx) (hne : ¬(leafField c).name = k) :
    evalCond c ((k, x) :: ctx) = evalCond c ctx := by
  have hget : ctxGet ((k, x) :: ctx) (leafField c).name =
      ctxGet ctx (leafField c).name :=
    ctxGet_cons_ne _ _ _ _ (fun h => hne h.symm)
  cases c <;> simp_all [isLeaf, evalCond, leafField]

/-- Soundness of the projection at a leaf over a context-bound
non-target field. -/
theorem project_sound_ne (target : FieldRef) (ctx : Ctx) (v : Val)
    (hv : memUniv target.domain v = true) (c : Cond) (hleaf : isLeaf c = true)
    (hname : ¬(leafField c).name = target.name) (x : CtxVal)
    (hx : ctxGet ctx (leafField c).name = some x) :
    project target ctx c ≠ .unresolved ∧
    memV v (rawOf target ctx c) =
      evalCond c ((target.name, .val v) :: ctx) := by
  have hv2 : memV v (univV target.domain) = true := hv
  have hproj : project target ctx c = .pb (evalCond c ctx) := by
    rw [project_leaf target ctx c hleaf, if_neg hname, hx]
  constructor
  · rw [hproj]
    simp
  · rw [rawOf, hproj, evalCond_leaf_ext c hleaf target.name (.val v) ctx hname]
    rcases heval : evalCond c ctx
    · simp [projToSet, memV_emptyV]
    · simp [projToSet, hv2]

/-- Soundness of the projection: on a kind-disciplined, name-coherent
condition whose non-target fields are all bound to normal context
values, the projection is resolved and its raw outcome contains an
in-universe target value exactly when the evaluator accepts the
context extended with that value. -/
theorem project_sound (target : FieldRef) (ctx : Ctx) (v : Val)
    (hv : memUniv target.domain v = true) :
    ∀ c : Cond, condKindOk c = true → CohRefs (condRefs c) target →
      FixedRefs (condRefs c) target ctx →
      (project target ctx c ≠ .unresolved ∧
       memV v (rawOf target ctx c) =
         evalCond c ((target.name, .val v) :: ctx)) := by
  intro c
  induction c
  case and a b iha ihb =>
    intro hk hcoh hfix
    rw [condKindOk, Bool.and_eq_true] at hk
    have hca : CohRefs (condRefs a) target := fun f hf =>
      hcoh f (by rw [condRefs]; exact List.mem_append_left _ hf)
    have hcb : CohRefs (condRefs b) target := fun f hf =>
      hcoh f (by rw [condRefs]; exact List.mem_append_right _ hf)
    have hfa : FixedRefs (condRefs a) target ctx := fun f hf =>
      hfix f (by rw [condRefs]; exact List.mem_append_left _ hf)
    have hfb : FixedRefs (condRefs b) target ctx := fun f hf =>
      hfix f (by rw [condRefs]; exact List.mem_append_right _ hf)
    obtain ⟨hna, hma⟩ := iha hk.1 hca hfa
    obtain ⟨hnb, hmb⟩ := ihb hk.2 hcb hfb
    have hka := rawOf_kind target ctx a hk.1 hca
    have hkb := rawOf_kind target ctx b hk.2 hcb
    rw [rawOf] at hma hmb hka hkb
    constructor
    · rw [project]
      exact projAnd_ne _ _ hna hnb
    · rw [rawOf, project]
      rw [projAnd_mem target.domain v hv _ _ hka hkb, hma, hmb, evalCond]
  case or a b iha ihb =>
    intro hk hcoh hfix
    rw [condKindOk, Bool.and_eq_true] at hk
    have hca : CohRefs (condRefs a) target := fun f hf =>
      hcoh f (by rw [condRefs]; exact List.mem_append_left _ hf)
    have hcb : CohRefs (condRefs b) target := fun f hf =>
      hcoh f (by rw [condRefs]; exact List.mem_append_right _ hf)
    have hfa : FixedRefs (condRefs a) target ctx := fun f hf =>
      hfix f (by rw [condRefs]; exact List.mem_append_left _ hf)
    have hfb : FixedRefs (condRefs b) target ctx := fun f hf =>
      hfix f (by rw [condRefs]; exact List.mem_append_right _ hf)
    obtain ⟨hna, hma⟩ := iha hk.1 hca hfa
    obtain ⟨hnb, hmb⟩ := ihb hk.2 hcb hfb
    have hka := rawOf_kind target ctx a hk.1 hca
    have hkb := rawOf_kind target ctx b hk.2 hcb
    rw [rawOf] at hma hmb hka hkb
    constructor
    · rw [project]
      exact projOr_ne _ _ hna hnb
    · rw [rawOf, project]
      rw [projOr_mem target.domain v hv _ _ hna hnb hka hkb, hma, hmb, evalCond]
  case not a iha =>
    intro hk hcoh hfix
    rw [condKindOk] at hk
    have hca : CohRefs (condRefs a) target := fun f hf =>
      hcoh f (by rw [condRefs]; exact hf)
    have hfa : FixedRefs (condRefs a) target ctx := fun f hf =>
      hfix f (by rw [condRefs]; exact hf)
    obtain ⟨hna, hma⟩ := iha hk hca hfa
    have hka := rawOf_kind target ctx a hk hca
    rw [rawOf] at hma hka
    constructor
    · rw [project]
      exact projNot_ne _ _ hna
    · rw [rawOf, project]
      rw [projNot_mem target.domain v hv _ hna hka, hma, evalCond]
  case eq f lit =>
    intro hk hcoh hfix
    rw [condKindOk] at hk
    by_cases hname : f.name = target.name
    · have hproj : project target ctx (Cond.eq f lit) =
          .vs (litSet (Cond.eq f lit)) := by
        rw [project_leaf target ctx (Cond.eq f lit) rfl, if_pos (by simpa [leafField] using hname)]
      refine ⟨by rw [hproj]; simp, ?_⟩
      rw [rawOf, hproj]
      simp only [projToSet, litSet]
      have hget : ctxGet ((target.name, CtxVal.val v) :: ctx) f.name =
          some (.val v) := by
        rw [hname, ctxGet_cons_self]
      simp only [evalCond, hget]
      rw [Bool.eq_iff_iff]
      simp [memV]
    · rcases hfix f (by simp [condRefs]) hname with ⟨x, hx, _⟩
      exact project_sound_ne target ctx v hv _ rfl
        (by simpa [leafField] using hname) x (by simpa [leafField] using hx)
  case isin f lits =>
    intro hk hcoh hfix
    rw [condKindOk] at hk
    by_cases hname : f.name = target.name
    · have hproj : project target ctx (Cond.isin f lits) =
          .vs (litSet (Cond.isin f lits)) := by
        rw [project_leaf target ctx (Cond.isin f lits) rfl, if_pos (by simpa [leafField] using hname)]
      refine ⟨by rw [hproj]; simp, ?_⟩
      rw [rawOf, hproj]
      simp only [projToSet, litSet]
      have hget : ctxGet ((target.name, CtxVal.val v) :: ctx) f.name =
          some (.val v) := by
        rw [hname, ctxGet_cons_self]
      simp only [evalCond, hget, memV]
    · rcases hfix f (by simp [condRefs]) hname with ⟨x, hx, _⟩
      exact project_sound_ne target ctx v hv _ rfl
        (by simpa [leafField] using hname) x (by simpa [leafField] using hx)
  case notin f lits =>
    intro hk hcoh hfix
    rw [condKindOk] at hk
    by_cases hname : f.name = target.name
    · have hdom : f.domain = target.domain :=
        hcoh f (by simp [condRefs]) hname
      rcases hfd : f.domain with ⟨vals⟩ | ⟨dlo, dhi⟩
      swap
      · rw [hfd] at hk
        simp [Domain.kind] at hk
      · have htd : target.domain = .discrete vals := by rw [← hdom, hfd]
        have hvv : v ∈ vals := (memUniv_discrete vals v).mp (by rw [← htd]; exact hv)
        have hproj : project target ctx (Cond.notin f lits) =
            .vs (litSet (Cond.notin f lits)) := by
          rw [project_leaf target ctx (Cond.notin f lits) rfl, if_pos (by simpa [leafField] using hname)]
        refine ⟨by rw [hproj]; simp, ?_⟩
        rw [rawOf, hproj]
        simp only [projToSet, litSet, hfd]
        have hget : ctxGet ((target.name, CtxVal.val v) :: ctx) f.name =
            some (.val v) := by
          rw [hname, ctxGet_cons_self]
        simp only [evalCond, hget, memV]
        rw [Bool.eq_iff_iff]
        simp [Finset.mem_sdiff, hvv]
    · rcases hfix f (by simp [condRefs]) hname with ⟨x, hx, _⟩
      exact project_sound_ne target ctx v hv _ rfl
        (by simpa [leafField] using hname) x (by simpa [leafField] using hx)
  case between f lo hi closed =>
    intro hk hcoh hfix
    rw [condKindOk] at hk
    by_cases hname : f.name = target.name
    · have hdom : f.domain = target.domain :=
        hcoh f (by simp [condRefs]) hname
      rcases hfd : f.domain with ⟨vals⟩ | ⟨dlo, dhi⟩
      · rw [hfd] at hk
        simp [Domain.kind] at hk
      · have htd : target.domain = .interval dlo dhi := by rw [← hdom, hfd]
        rcases (memUniv_interval dlo dhi v).mp (by rw [← htd]; exact hv) with
          ⟨q, rfl, hq1, hq2⟩
        have hproj : project target ctx (Cond.between f lo hi closed) =
            .vs (litSet (Cond.between f lo hi closed)) := by
          rw [project_leaf target ctx (Cond.between f lo hi closed) rfl, if_pos (by simpa [leafField] using hname)]
        refine ⟨by rw [hproj]; simp, ?_⟩
        rw [rawOf, hproj]
        simp only [projToSet, litSet]
        have hget : ctxGet ((target.name, CtxVal.val (Val.num q)) :: ctx) f.name =
            some (.val (.num q)) := by
          rw [hname, ctxGet_cons_self]
        simp only [evalCond, hget, memV, List.any_cons, List.any_nil,
          Bool.or_false, ISeg.memq, LB.holds, UB.holds]
    · rcases hfix f (by simp [condRefs]) hname with ⟨x, hx, _⟩
      exact project_sound_ne target ctx v hv _ rfl
        (by simpa [leafField] using hname) x (by simpa [leafField] using hx)
  case gt f value =>
    intro hk hcoh hfix
    rw [condKindOk] at hk
    by_cases hname : f.name = target.name
    · have hdom : f.domain = target.domain :=
        hcoh f (by simp [condRefs]) hname
      rcases hfd : f.domain with ⟨vals⟩ | ⟨dlo, dhi⟩
      · rw [hfd] at hk
        simp [Domain.kind] at hk
      · have htd : target.domain = .interval dlo dhi := by rw [← hdom, hfd]
        rcases (memUniv_interval dlo dhi v).mp (by rw [← htd]; exact hv) with
          ⟨q, rfl, hq1, hq2⟩
        have hproj : project target ctx (Cond.gt f value) =
            .vs (litSet (Cond.gt f value)) := by
          rw [project_leaf target ctx (Cond.gt f value) rfl, if_pos (by simpa [leafField] using hname)]
        refine ⟨by rw [hproj]; simp, ?_⟩
        rw [rawOf, hproj]
        simp only [projToSet, litSet]
        have hget : ctxGet ((target.name, CtxVal.val (Val.num q)) :: ctx) f.name =
            some (.val (.num q)) := by
          rw [hname, ctxGet_cons_self]
        have hdomHi : domHi f = dhi := by rw [domHi, hfd]
        simp only [evalCond, hget, memV, List.any_cons, List.any_nil,
          Bool.or_false, ISeg.memq, LB.holds, UB.holds, hdomHi]
        rw [Bool.eq_iff_iff]
        simp [hq2]
    · rcases hfix f (by simp [condRefs]) hname with ⟨x, hx, _⟩
      exact project_sound_ne target ctx v hv _ rfl
        (by simpa [leafField] using hname) x (by simpa [leafField] using hx)
  case ge f value =>
    intro hk hcoh hfix
    rw [condKindOk] at hk
    by_cases hname : f.name = target.name
    · have hdom : f.domain = target.domain :=
        hcoh f (by simp [condRefs]) hname
      rcases hfd : f.domain with ⟨vals⟩ | ⟨dlo, dhi⟩
      · rw [hfd] at hk
        simp [Domain.kind] at hk
      · have htd : target.domain = .interval dlo dhi := by rw [← hdom, hfd]
        rcases (memUniv_interval dlo dhi v).mp (by rw [← htd]; exact hv) with
          ⟨q, rfl, hq1, hq2⟩
        have hproj : project target ctx (Cond.ge f value) =
            .vs (litSet (Cond.ge f value)) := by
          rw [project_leaf target ctx (Cond.ge f value) rfl, if_pos (by simpa [leafField] using hname)]
        refine ⟨by rw [hproj]; simp, ?_⟩
        rw [rawOf, hproj]
        simp only [projToSet, litSet]
        have hget : ctxGet ((target.name, CtxVal.val (Val.num q)) :: ctx) f.name =
            some (.val (.num q)) := by
          rw [hname, ctxGet_cons_self]
        have hdomHi : domHi f = dhi := by rw [domHi, hfd]
        simp only [evalCond, hget, memV, List.any_cons, List.any_nil,
          Bool.or_false, ISeg.memq, LB.holds, UB.holds, hdomHi]
        rw [Bool.eq_iff_iff]
        simp [hq2]
    · rcases hfix f (by simp [condRefs]) hname with ⟨x, hx, _⟩
      exact project_sound_ne target ctx v hv _ rfl
        (by simpa [leafField] using hname) x (by simpa [leafField] using hx)
  case lt f value =>
    intro hk hcoh hfix
    rw [condKindOk] at hk
    by_cases hname : f.name = target.name
    · have hdom : f.domain = target.domain :=
        hcoh f (by simp [condRefs]) hname
      rcases hfd : f.domain with ⟨vals⟩ | ⟨dlo, dhi⟩
      · rw [hfd] at hk
        simp [Domain.kind] at hk
      · have htd : target.domain = .interval dlo dhi := by rw [← hdom, hfd]
        rcases (memUniv_interval dlo dhi v).mp (by rw [← htd]; exact hv) with
          ⟨q, rfl, hq1, hq2⟩
        have hproj : project target ctx (Cond.lt f value) =
            .vs (litSet (Cond.lt f value)) := by
          rw [project_leaf target ctx (Cond.lt f value) rfl, if_pos (by simpa [leafField] using hname)]
        refine ⟨by rw [hproj]; simp, ?_⟩
        rw [rawOf, hproj]
        simp only [projToSet, litSet]
        have hget : ctxGet ((target.name, CtxVal.val (Val.num q)) :: ctx) f.name =
            some (.val (.num q)) := by
          rw [hname, ctxGet_cons_self]
        have hdomLo : domLo f = dlo := by rw [domLo, hfd]
        simp only [evalCond, hget, memV, List.any_cons, List.any_nil,
          Bool.or_false, ISeg.memq, LB.holds, UB.holds, hdomLo]
        rw [Bool.eq_iff_iff]
        simp [hq1]
    · rcases hfix f (by simp [condRefs]) hname with ⟨x, hx, _⟩
      exact project_sound_ne target ctx v hv _ rfl
        (by simpa [leafField] using hname) x (by simpa [leafField] using hx)
  case le f value =>
    intro hk hcoh hfix
    rw [condKindOk] at hk
    by_cases hname : f.name = target.name
    · have hdom : f.domain = target.domain :=
        hcoh f (by simp [condRefs]) hname
      rcases hfd : f.domain with ⟨vals⟩ | ⟨dlo, dhi⟩
      · rw [hfd] at hk
        simp [Domain.kind] at hk
      · have htd : target.domain = .interval dlo dhi := by rw [← hdom, hfd]
        rcases (memUniv_interval dlo dhi v).mp (by rw [← htd]; exact hv) with
          ⟨q, rfl, hq1, hq2⟩
        have hproj : project target ctx (Cond.le f value) =
            .vs (litSet (Cond.le f value)) := by
          rw [project_leaf target ctx (Cond.le f value) rfl, if_pos (by simpa [leafField] using hname)]
        refine ⟨by rw [hproj]; simp, ?_⟩
        rw [rawOf, hproj]
        simp only [projToSet, litSet]
        have hget : ctxGet ((target.name, CtxVal.val (Val.num q)) :: ctx) f.name =
            some (.val (.num q)) := by
          rw [hname, ctxGet_cons_self]
        have hdomLo : domLo f = dlo := by rw [domLo, hfd]
        simp only [evalCond, hget, memV, List.any_cons, List.any_nil,
          Bool.or_false, ISeg.memq, LB.holds, UB.holds, hdomLo]
        rw [Bool.eq_iff_iff]
        simp [hq1]
    · rcases hfix f (by simp [condRefs]) hname with ⟨x, hx, _⟩
      exact project_sound_ne target ctx v hv _ rfl
        (by simpa [leafField] using hname) x (by simpa [leafField] using hx)

/-- Bool form of difference membership. -/
theorem memV_diffV_bool (dom : Domain) (a b : VSet) (h1 : a.kind = b.kind)
    (h2 : a.kind = dom.kind) (v : Val)
    (hsub : memV v a = true → memUniv dom v = true) :
    memV v (diffV dom a b) = (memV v a && !memV v b) := by
  rw [Bool.eq_iff_iff, Bool.and_eq_true, Bool.not_eq_true']
  exact memV_diffV dom a b h1 h2 v hsub

/-- Membership in a difference forces membership in the left set and
absence from the right, with no universe side condition. -/
theorem memV_diffV_mp (dom : Domain) (a b : VSet) (h1 : a.kind = b.kind)
    (h2 : a.kind = dom.kind) (v : Val) (h : memV v (diffV dom a b) = true) :
    memV v a = true ∧ memV v b = false := by
  cases a with
  | d sa =>
      cases b with
      | d sb =>
          simp only [diffV, memV, decide_eq_true_eq, Finset.mem_sdiff] at h
          simp only [memV, decide_eq_true_eq, decide_eq_false_iff_not]
          exact h
      | i _ => simp [VSet.kind] at h1
  | i la =>
      cases b with
      | d _ => simp [VSet.kind] at h1
      | i lb =>
          cases dom with
          | discrete _ => simp [VSet.kind, Domain.kind] at h2
          | interval dlo dhi =>
              cases v with
              | str s2 => simp [diffV, memV] at h
              | num q =>
                  have hi2 := anySeg_segsInter la (segsCompl dlo dhi lb) q
                  have hc := anySeg_segsCompl dlo dhi lb q
                  simp only [anySeg] at hi2 hc
                  simp only [diffV, memV, hi2, hc, Bool.and_eq_true] at h
                  obtain ⟨hA, hB⟩ := h
                  simp only [memV]
                  exact ⟨hA, by simpa using hB.2⟩

/-- Filtering out one key leaves lookups of every other key
unchanged. -/
theorem ctxGet_filter_ne (bad : String) (ctx : Ctx) (name : String)
    (h : name ≠ bad) :
    ctxGet (ctx.filter fun kv => decide (kv.1 ≠ bad)) name = ctxGet ctx name := by
  induction ctx with
  | nil => rfl
  | cons kv rest ih =>
      by_cases hk : kv.1 = bad
      · rw [List.filter_cons_of_neg (by simp [hk])]
        rw [ih, ctxGet_cons_ne _ _ _ _ (by rw [hk]; exact fun h2 => h h2.symm)]
      · rw [List.filter_cons_of_pos (by simp [hk])]
        by_cases hn : kv.1 = name
        · rcases kv with ⟨k1, x1⟩
          simp only at hn
          rw [hn, ctxGet_cons_self, ctxGet_cons_self]
        · rcases kv with ⟨k1, x1⟩
          simp only at hn
          rw [ctxGet_cons_ne _ _ _ _ hn, ctxGet_cons_ne _ _ _ _ hn, ih]

/-- Condition evaluation only reads the context through lookups. -/
theorem evalCond_ctx_congr (ctx1 ctx2 : Ctx)
    (h : ∀ nm, ctxGet ctx1 nm = ctxGet ctx2 nm) :
    ∀ c, evalCond c ctx1 = evalCond c ctx2 := by
  intro c
  induction c
  case and a b iha ihb => rw [evalCond, evalCond, iha, ihb]
  case or a b iha ihb => rw [evalCond, evalCond, iha, ihb]
  case not a iha => rw [evalCond, evalCond, iha]
  all_goals simp only [evalCond, h]

/-- The resolver walk only reads the context through lookups. -/
theorem resolveList_ctx_congr :
    ∀ (n : ℕ) (ctx1 ctx2 : Ctx) (fb : Option Fb) (cands : List (ℕ × Rule)),
      pairsSize cands + fbSize fb ≤ n →
      (∀ nm, ctxGet ctx1 nm = ctxGet ctx2 nm) →
      resolveList ctx1 fb cands = resolveList ctx2 fb cands := by
  intro n
  induction n using Nat.strong_induction_on with
  | _ n ih =>
      intro ctx1 ctx2 fb cands hsz h
      match cands with
      | [] =>
          match fb with
          | Option.none => rw [resolveList, resolveList]
          | some (.value nm p) => rw [resolveList, resolveList]
          | some (.tree nm sub) =>
              rw [resolveList, resolveList]
              show resolveRS ctx1 sub = resolveRS ctx2 sub
              rw [resolveRS, resolveRS]
              refine ih (pairsSize (orderIdx sub) + fbSize sub.fallback) ?_ ctx1
                ctx2 sub.fallback (orderIdx sub) le_rfl h
              rw [pairsSize_orderIdx]
              have h1 := rsSize_eq sub
              have h2 : fbSize (some (Fb.tree nm sub)) = 1 + rsSize sub := by
                simp [fbSize, fbSizeAux]
              simp only [pairsSize] at hsz
              omega
      | (i, r) :: rest =>
          cases r with
          | value c nm2 pr p =>
              rw [resolveList, resolveList,
                evalCond_ctx_congr ctx1 ctx2 h (Rule.value c nm2 pr p).cond]
              by_cases heval : evalCond (Rule.value c nm2 pr p).cond ctx2 = true
              · rw [if_pos heval, if_pos heval]
              · rw [if_neg heval, if_neg heval]
                refine ih (pairsSize rest + fbSize fb) ?_ ctx1 ctx2 fb rest le_rfl h
                have := ruleSize_pos (Rule.value c nm2 pr p)
                simp only [pairsSize_cons] at hsz
                omega
          | tree c nm2 pr sub =>
              rw [resolveList, resolveList,
                evalCond_ctx_congr ctx1 ctx2 h (Rule.tree c nm2 pr sub).cond]
              by_cases heval : evalCond (Rule.tree c nm2 pr sub).cond ctx2 = true
              · rw [if_pos heval, if_pos heval]
                show resolveRS ctx1 sub = resolveRS ctx2 sub
                rw [resolveRS, resolveRS]
                refine ih (pairsSize (orderIdx sub) + fbSize sub.fallback) ?_ ctx1
                  ctx2 sub.fallback (orderIdx sub) le_rfl h
                rw [pairsSize_orderIdx]
                have h1 := rsSize_eq sub
                simp only [pairsSize_cons, ruleSize] at hsz
                omega
              · rw [if_neg heval, if_neg heval]
                refine ih (pairsSize rest + fbSize fb) ?_ ctx1 ctx2 fb rest le_rfl h
                have := ruleSize_pos (Rule.tree c nm2 pr sub)
                simp only [pairsSize_cons] at hsz
                omega

/-- Context congruence of the whole resolver walk. -/
theorem resolveRS_ctx_congr (ctx1 ctx2 : Ctx) (rs : RuleSet)
    (h : ∀ nm, ctxGet ctx1 nm = ctxGet ctx2 nm) :
    resolveRS ctx1 rs = resolveRS ctx2 rs := by
  rw [resolveRS, resolveRS]
  exact resolveList_ctx_congr (pairsSize (orderIdx rs) + fbSize rs.fallback)
    ctx1 ctx2 rs.fallback (orderIdx rs) le_rfl h

/-- Side conditions for one condition: kind discipline, name
coherence with the target, and fixed non-target fields. -/
def CondOk (target : FieldRef) (ctx : Ctx) (c : Cond) : Prop :=
  condKindOk c = true ∧ CohRefs (condRefs c) target ∧
    FixedRefs (condRefs c) target ctx

/-- Side conditions for every candidate of a walk. -/
def CandsOk (target : FieldRef) (ctx : Ctx) (cands : List (ℕ × Rule)) : Prop :=
  ∀ p ∈ cands, ruleKindOk p.2 = true ∧ CohRefs (ruleRefs p.2) target ∧
    FixedRefs (ruleRefs p.2) target ctx

/-- Side conditions for an optional fallback. -/
def FbOk (target : FieldRef) (ctx : Ctx) (fb : Option Fb) : Prop :=
  ∀ f, fb = some f → fbKindOk f = true ∧ CohRefs (fbRefsAux f) target ∧
    FixedRefs (fbRefsAux f) target ctx

/-- Side conditions for a whole rule set. -/
def RSOk (target : FieldRef) (ctx : Ctx) (rs : RuleSet) : Prop :=
  rsKindOk rs = true ∧ CohRefs (rsRefs rs) target ∧
    FixedRefs (rsRefs rs) target ctx

/-- Coherence restricts along list inclusion. -/
theorem CohRefs_mono (l1 l2 : List FieldRef) (target : FieldRef)
    (hsub : ∀ f ∈ l1, f ∈ l2) (h : CohRefs l2 target) : CohRefs l1 target :=
  fun f hf => h f (hsub f hf)

/-- Fixedness restricts along list inclusion. -/
theorem FixedRefs_mono (l1 l2 : List FieldRef) (target : FieldRef) (ctx : Ctx)
    (hsub : ∀ f ∈ l1, f ∈ l2) (h : FixedRefs l2 target ctx) :
    FixedRefs l1 target ctx :=
  fun f hf => h f (hsub f hf)

/-- A well-conditioned rule set yields well-conditioned candidates. -/
theorem RSOk_cands (target : FieldRef) (ctx : Ctx) (rs : RuleSet)
    (h : RSOk target ctx rs) : CandsOk target ctx (orderIdx rs) := by
  rintro p hp
  have hr := mem_orderIdx_snd rs p hp
  exact ⟨rsKindOk_rules rs h.1 _ hr,
    CohRefs_mono _ _ _ (ruleRefs_sub_rsRefs rs _ hr) h.2.1,
    FixedRefs_mono _ _ _ _ (ruleRefs_sub_rsRefs rs _ hr) h.2.2⟩

/-- A well-conditioned rule set yields a well-conditioned fallback. -/
theorem RSOk_fbOk (target : FieldRef) (ctx : Ctx) (rs : RuleSet)
    (h : RSOk target ctx rs) : FbOk target ctx rs.fallback := by
  rintro f hf
  exact ⟨rsKindOk_fb rs h.1 f hf,
    CohRefs_mono _ _ _ (fbRefs_sub_rsRefs rs f hf) h.2.1,
    FixedRefs_mono _ _ _ _ (fbRefs_sub_rsRefs rs f hf) h.2.2⟩

/-- Candidate conditions restrict to the tail. -/
theorem CandsOk_tail (target : FieldRef) (ctx : Ctx) (p : ℕ × Rule)
    (cands : List (ℕ × Rule)) (h : CandsOk target ctx (p :: cands)) :
    CandsOk target ctx cands :=
  fun q hq => h q (List.mem_cons_of_mem _ hq)

/-- The head candidate's condition is well-conditioned. -/
theorem CandsOk_head_cond (target : FieldRef) (ctx : Ctx) (i : ℕ) (r : Rule)
    (cands : List (ℕ × Rule)) (h : CandsOk target ctx ((i, r) :: cands)) :
    CondOk target ctx (Rule.cond r) := by
  have hh := h (i, r) (List.mem_cons_self _ _)
  cases r with
  | value c nm pr p =>
      simp only [ruleKindOk.eq_def, ruleRefs.eq_def, Rule.cond] at hh ⊢
      exact hh
  | tree c nm pr sub =>
      simp only [ruleKindOk.eq_def, Bool.and_eq_true, ruleRefs.eq_def,
        Rule.cond] at hh ⊢
      exact ⟨hh.1.1,
        CohRefs_mono _ _ _ (fun f hf => List.mem_append_left _ hf) hh.2.1,
        FixedRefs_mono _ _ _ _ (fun f hf => List.mem_append_left _ hf) hh.2.2⟩

/-- The subtree of a head tree candidate is well-conditioned. -/
theorem CandsOk_head_tree (target : FieldRef) (ctx : Ctx) (i : ℕ) (c : Cond)
    (nm : String) (pr : Int) (sub : RuleSet) (cands : List (ℕ × Rule))
    (h : CandsOk target ctx ((i, Rule.tree c nm pr sub) :: cands)) :
    RSOk target ctx sub := by
  have hh := h _ (List.mem_cons_self _ _)
  simp only [ruleKindOk.eq_def, Bool.and_eq_true, ruleRefs.eq_def] at hh
  exact ⟨hh.1.2,
    CohRefs_mono _ _ _ (fun f hf => List.mem_append_right _ hf) hh.2.1,
    FixedRefs_mono _ _ _ _ (fun f hf => List.mem_append_right _ hf) hh.2.2⟩

/-- The subtree of a tree fallback is well-conditioned. -/
theorem FbOk_tree (target : FieldRef) (ctx : Ctx) (nm : String) (sub : RuleSet)
    (h : FbOk target ctx (some (Fb.tree nm sub))) : RSOk target ctx sub := by
  have hh := h _ rfl
  simp only [fbKindOk.eq_def, fbRefsAux.eq_def] at hh
  exact hh

/-- The remainder a candidate's condition retains at a level of the
claim/subtract cycle. -/
def remOf (target : FieldRef) (ctx : Ctx) (c : Cond) (constraint claimed : VSet) :
    VSet :=
  diffV target.domain
    (interV (projToSet target.domain (project target ctx c)) constraint) claimed

/-- The remainder the fallback retains, its raw outcome being the full
universe. -/
def remUniv (target : FieldRef) (constraint claimed : VSet) : VSet :=
  diffV target.domain (interV (univV target.domain) constraint) claimed

/-- Unfolding of the analyzer walk at an exhausted level without a
fallback. -/
theorem analyzeList_nil_none (target : FieldRef) (ctx : Ctx) (fbIdx : ℕ)
    (constraint : VSet) (pre : List ℕ) (claimed : VSet) :
    analyzeList target ctx Option.none fbIdx constraint pre [] claimed = [] := by
  rw [analyzeList]

/-- Unfolding of the analyzer walk at a value fallback. -/
theorem analyzeList_nil_value (target : FieldRef) (ctx : Ctx) (nm : String)
    (p : Payload) (fbIdx : ℕ) (constraint : VSet) (pre : List ℕ)
    (claimed : VSet) :
    analyzeList target ctx (some (Fb.value nm p)) fbIdx constraint pre [] claimed =
      (if isEmptyV (remUniv target constraint claimed) then []
       else [⟨pre ++ [fbIdx], remUniv target constraint claimed, p⟩]) := by
  rw [analyzeList]
  rfl

/-- Unfolding of the analyzer walk at a tree fallback. -/
theorem analyzeList_nil_tree (target : FieldRef) (ctx : Ctx) (nm : String)
    (sub : RuleSet) (fbIdx : ℕ) (constraint : VSet) (pre : List ℕ)
    (claimed : VSet) :
    analyzeList target ctx (some (Fb.tree nm sub)) fbIdx constraint pre [] claimed =
      (if isEmptyV (remUniv target constraint claimed) then []
       else analyzeRS target ctx sub (remUniv target constraint claimed)
         (pre ++ [fbIdx])) := by
  rw [analyzeList]
  rfl

/-- Unfolding of the analyzer walk at a value rule. -/
theorem analyzeList_cons_value (target : FieldRef) (ctx : Ctx) (fb : Option Fb)
    (fbIdx : ℕ) (constraint : VSet) (pre : List ℕ) (i : ℕ) (c : Cond)
    (nm : String) (pr : Int) (p : Payload) (rest : List (ℕ × Rule))
    (claimed : VSet) :
    analyzeList target ctx fb fbIdx constraint pre
        ((i, Rule.value c nm pr p) :: rest) claimed =
      (if isEmptyV (remOf target ctx c constraint claimed) then
        analyzeList target ctx fb fbIdx constraint pre rest claimed
       else
        ⟨pre ++ [i], remOf target ctx c constraint claimed, p⟩ ::
          analyzeList target ctx fb fbIdx constraint pre rest
            (unionV claimed (remOf target ctx c constraint claimed))) := by
  rw [analyzeList]
  rfl

/-- Unfolding of the analyzer walk at a tree rule. -/
theorem analyzeList_cons_tree (target : FieldRef) (ctx : Ctx) (fb : Option Fb)
    (fbIdx : ℕ) (constraint : VSet) (pre : List ℕ) (i : ℕ) (c : Cond)
    (nm : String) (pr : Int) (sub : RuleSet) (rest : List (ℕ × Rule))
    (claimed : VSet) :
    analyzeList target ctx fb fbIdx constraint pre
        ((i, Rule.tree c nm pr sub) :: rest) claimed =
      (if isEmptyV (remOf target ctx c constraint claimed) then
        analyzeList target ctx fb fbIdx constraint pre rest claimed
       else
        analyzeRS target ctx sub (remOf target ctx c constraint claimed)
            (pre ++ [i]) ++
          analyzeList target ctx fb fbIdx constraint pre rest
            (unionV claimed (remOf target ctx c constraint claimed))) := by
  rw [analyzeList]
  rfl

/-- Unfolding of the analyzer at a rule set level. -/
theorem analyzeRS_eq (target : FieldRef) (ctx : Ctx) (rs : RuleSet)
    (constraint : VSet) (pre : List ℕ) :
    analyzeRS target ctx rs constraint pre =
      analyzeList target ctx rs.fallback rs.rules.length constraint pre
        (orderIdx rs) (emptyV target.domain) := by
  rw [analyzeRS]

/-- The kind of a candidate remainder. -/
theorem kind_remOf (target : FieldRef) (ctx : Ctx) (c : Cond)
    (constraint claimed : VSet) (hk : condKindOk c = true)
    (hcoh : CohRefs (condRefs c) target) :
    (remOf target ctx c constraint claimed).kind = target.domain.kind := by
  have hkraw := rawOf_kind target ctx c hk hcoh
  rw [rawOf] at hkraw
  rw [remOf, kind_diffV, kind_interV, hkraw]

/-- The kind of the fallback remainder. -/
theorem kind_remUniv (target : FieldRef) (constraint claimed : VSet) :
    (remUniv target constraint claimed).kind = target.domain.kind := by
  rw [remUniv, kind_diffV, kind_interV, kind_univV]

/-- Membership of an in-universe value in a candidate remainder: the
condition must accept the extended context, the constraint must hold
and the value must not be claimed yet. -/
theorem memV_remOf (target : FieldRef) (ctx : Ctx) (c : Cond)
    (constraint claimed : VSet) (v : Val)
    (hv : memUniv target.domain v = true) (hok : CondOk target ctx c)
    (hck : constraint.kind = target.domain.kind)
    (hclk : claimed.kind = target.domain.kind) :
    memV v (remOf target ctx c constraint claimed) =
      (evalCond c ((target.name, .val v) :: ctx) && memV v constraint &&
        !memV v claimed) := by
  have hkraw : (projToSet target.domain (project target ctx c)).kind =
      target.domain.kind := by
    have := rawOf_kind target ctx c hok.1 hok.2.1
    rwa [rawOf] at this
  have hmem := (project_sound target ctx v hv c hok.1 hok.2.1 hok.2.2).2
  rw [rawOf] at hmem
  rw [remOf, memV_diffV_bool target.domain _ claimed
      (by rw [kind_interV, hkraw, hclk]) (by rw [kind_interV, hkraw]) v
      (fun _ => hv),
    memV_interV_bool _ _ (by rw [hkraw, hck]) v, hmem]

/-- Membership of an in-universe value in the fallback remainder. -/
theorem memV_remUniv (target : FieldRef) (constraint claimed : VSet) (v : Val)
    (hv : memUniv target.domain v = true)
    (hck : constraint.kind = target.domain.kind)
    (hclk : claimed.kind = target.domain.kind) :
    memV v (remUniv target constraint claimed) =
      (memV v constraint && !memV v claimed) := by
  rw [remUniv, memV_diffV_bool target.domain _ claimed
      (by rw [kind_interV, kind_univV, hclk])
      (by rw [kind_interV, kind_univV]) v (fun _ => hv),
    memV_interV_bool _ _ (by rw [kind_univV, hck]) v]
  have hu : memV v (univV target.domain) = true := hv
  rw [hu, Bool.true_and]

/-- Membership in the fallback remainder forces the constraint and
excludes the claimed set. -/
theorem memV_remUniv_mp (target : FieldRef) (constraint claimed : VSet) (v : Val)
    (hck : constraint.kind = target.domain.kind)
    (hclk : claimed.kind = target.domain.kind)
    (h : memV v (remUniv target constraint claimed) = true) :
    memV v constraint = true ∧ memV v claimed = false := by
  rw [remUniv] at h
  have h1 := memV_diffV_mp target.domain _ claimed
    (by rw [kind_interV, kind_univV, hclk]) (by rw [kind_interV, kind_univV]) v h
  exact ⟨((memV_interV _ _ (by rw [kind_univV, hck]) v).mp h1.1).2, h1.2⟩

/-- Membership in a candidate remainder forces the constraint and
excludes the claimed set. -/
theorem memV_remOf_mp (target : FieldRef) (ctx : Ctx) (c : Cond)
    (constraint claimed : VSet) (v : Val) (hk : condKindOk c = true)
    (hcoh : CohRefs (condRefs c) target)
    (hck : constraint.kind = target.domain.kind)
    (hclk : claimed.kind = target.domain.kind)
    (h : memV v (remOf target ctx c constraint claimed) = true) :
    memV v constraint = true ∧ memV v claimed = false := by
  have hkraw : (projToSet target.domain (project target ctx c)).kind =
      target.domain.kind := by
    have := rawOf_kind target ctx c hk hcoh
    rwa [rawOf] at this
  rw [remOf] at h
  have h1 := memV_diffV_mp target.domain _ claimed
    (by rw [kind_interV, hkraw, hclk]) (by rw [kind_interV, hkraw]) v h
  exact ⟨((memV_interV _ _ (by rw [hkraw, hck]) v).mp h1.1).2, h1.2⟩

/-- Kind-and-coherence side conditions for the candidates alone,
independent of the context. -/
def CandsOkK (target : FieldRef) (cands : List (ℕ × Rule)) : Prop :=
  ∀ p ∈ cands, ruleKindOk p.2 = true ∧ CohRefs (ruleRefs p.2) target

/-- Kind-and-coherence side conditions for an optional fallback. -/
def FbOkK (target : FieldRef) (fb : Option Fb) : Prop :=
  ∀ f, fb = some f → fbKindOk f = true ∧ CohRefs (fbRefsAux f) target

/-- Kind-and-coherence side conditions for a whole rule set. -/
def RSOkK (target : FieldRef) (rs : RuleSet) : Prop :=
  rsKindOk rs = true ∧ CohRefs (rsRefs rs) target

/-- Full side conditions imply the kind-only ones for candidates. -/
theorem CandsOk_k (target : FieldRef) (ctx : Ctx) (cands : List (ℕ × Rule))
    (h : CandsOk target ctx cands) : CandsOkK target cands :=
  fun p hp => ⟨(h p hp).1, (h p hp).2.1⟩

/-- Full side conditions imply the kind-only ones for the fallback. -/
theorem FbOk_k (target : FieldRef) (ctx : Ctx) (fb : Option Fb)
    (h : FbOk target ctx fb) : FbOkK target fb :=
  fun f hf => ⟨(h f hf).1, (h f hf).2.1⟩

/-- A kind-disciplined coherent rule set yields such candidates. -/
theorem RSOkK_cands (target : FieldRef) (rs : RuleSet)
    (h : RSOkK target rs) : CandsOkK target (orderIdx rs) := by
  rintro p hp
  have hr := mem_orderIdx_snd rs p hp
  exact ⟨rsKindOk_rules rs h.1 _ hr,
    CohRefs_mono _ _ _ (ruleRefs_sub_rsRefs rs _ hr) h.2⟩

/-- A kind-disciplined coherent rule set yields such a fallback. -/
theorem RSOkK_fbOk (target : FieldRef) (rs : RuleSet)
    (h : RSOkK target rs) : FbOkK target rs.fallback := by
  rintro f hf
  exact ⟨rsKindOk_fb rs h.1 f hf,
    CohRefs_mono _ _ _ (fbRefs_sub_rsRefs rs f hf) h.2⟩

/-- Kind-only candidate conditions restrict to the tail. -/
theorem CandsOkK_tail (target : FieldRef) (p : ℕ × Rule)
    (cands : List (ℕ × Rule)) (h : CandsOkK target (p :: cands)) :
    CandsOkK target cands :=
  fun q hq => h q (List.mem_cons_of_mem _ hq)

/-- The head candidate's condition is kind-disciplined and coherent. -/
theorem CandsOkK_head_cond (target : FieldRef) (i : ℕ) (r : Rule)
    (cands : List (ℕ × Rule)) (h : CandsOkK target ((i, r) :: cands)) :
    condKindOk (Rule.cond r) = true ∧ CohRefs (condRefs (Rule.cond r)) target := by
  have hh := h (i, r) (List.mem_cons_self _ _)
  cases r with
  | value c nm pr p =>
      simp only [ruleKindOk.eq_def, ruleRefs.eq_def, Rule.cond] at hh ⊢
      exact hh
  | tree c nm pr sub =>
      simp only [ruleKindOk.eq_def, Bool.and_eq_true, ruleRefs.eq_def,
        Rule.cond] at hh ⊢
      exact ⟨hh.1.1,
        CohRefs_mono _ _ _ (fun f hf => List.mem_append_left _ hf) hh.2⟩

/-- The subtree of a head tree candidate is kind-disciplined and
coherent. -/
theorem CandsOkK_head_tree (target : FieldRef) (i : ℕ) (c : Cond)
    (nm : String) (pr : Int) (sub : RuleSet) (cands : List (ℕ × Rule))
    (h : CandsOkK target ((i, Rule.tree c nm pr sub) :: cands)) :
    RSOkK target sub := by
  have hh := h _ (List.mem_cons_self _ _)
  simp only [ruleKindOk.eq_def, Bool.and_eq_true, ruleRefs.eq_def] at hh
  exact ⟨hh.1.2,
    CohRefs_mono _ _ _ (fun f hf => List.mem_append_right _ hf) hh.2⟩

/-- The subtree of a tree fallback is kind-disciplined and coherent. -/
theorem FbOkK_tree (target : FieldRef) (nm : String) (sub : RuleSet)
    (h : FbOkK target (some (Fb.tree nm sub))) : RSOkK target sub := by
  have hh := h _ rfl
  simp only [fbKindOk.eq_def, fbRefsAux.eq_def] at hh
  exact hh

/-- Every entry the analyzer emits carries a value set of the target
kind, refining the level constraint and avoiding the claimed set. -/
theorem analyzeList_entries :
    ∀ (n : ℕ) (target : FieldRef) (ctx : Ctx) (v : Val) (fb : Option Fb)
      (fbIdx : ℕ) (constraint : VSet) (pre : List ℕ)
      (cands : List (ℕ × Rule)) (claimed : VSet),
      pairsSize cands + fbSize fb ≤ n →
      CandsOkK target cands → FbOkK target fb →
      constraint.kind = target.domain.kind →
      claimed.kind = target.domain.kind →
      ∀ e ∈ analyzeList target ctx fb fbIdx constraint pre cands claimed,
        e.vs.kind = target.domain.kind ∧
        (memV v e.vs = true →
          memV v constraint = true ∧ memV v claimed = false) := by
  intro n
  induction n using Nat.strong_induction_on with
  | _ n ih =>
      intro target ctx v fb fbIdx constraint pre cands claimed hsz hC hF hck hclk
      match cands with
      | [] =>
          match fb with
          | Option.none =>
              rw [analyzeList_nil_none]
              intro e he
              exact absurd he (by simp)
          | some (.value nm p) =>
              rw [analyzeList_nil_value]
              by_cases hemp : isEmptyV (remUniv target constraint claimed) = true
              · rw [if_pos hemp]
                intro e he
                exact absurd he (by simp)
              · rw [if_neg hemp]
                intro e he
                rw [List.mem_singleton] at he
                subst he
                exact ⟨kind_remUniv target constraint claimed,
                  fun hm => memV_remUniv_mp target constraint claimed v hck hclk hm⟩
          | some (.tree nm sub) =>
              rw [analyzeList_nil_tree]
              by_cases hemp : isEmptyV (remUniv target constraint claimed) = true
              · rw [if_pos hemp]
                intro e he
                exact absurd he (by simp)
              · rw [if_neg hemp]
                intro e he
                rw [analyzeRS_eq] at he
                have hsub := FbOkK_tree target nm sub hF
                have hrec := ih (pairsSize (orderIdx sub) + fbSize sub.fallback)
                  (by
                    rw [pairsSize_orderIdx]
                    have h1 := rsSize_eq sub
                    have h2 : fbSize (some (Fb.tree nm sub)) = 1 + rsSize sub := by
                      simp [fbSize, fbSizeAux]
                    simp only [pairsSize] at hsz
                    omega)
                  target ctx v sub.fallback sub.rules.length
                  (remUniv target constraint claimed) (pre ++ [fbIdx])
                  (orderIdx sub) (emptyV target.domain) le_rfl
                  (RSOkK_cands target sub hsub) (RSOkK_fbOk target sub hsub)
                  (kind_remUniv target constraint claimed)
                  (kind_emptyV target.domain) e he
                refine ⟨hrec.1, fun hm => ?_⟩
                exact memV_remUniv_mp target constraint claimed v hck hclk
                  (hrec.2 hm).1
      | (i, r) :: rest =>
          cases r with
          | value c nm pr p =>
              have hokc := CandsOkK_head_cond target i (Rule.value c nm pr p)
                rest hC
              rw [analyzeList_cons_value]
              by_cases hemp : isEmptyV (remOf target ctx c constraint claimed) = true
              · rw [if_pos hemp]
                refine ih (pairsSize rest + fbSize fb)
                  (by
                    have := ruleSize_pos (Rule.value c nm pr p)
                    simp only [pairsSize_cons] at hsz
                    omega)
                  target ctx v fb fbIdx constraint pre rest claimed le_rfl
                  (CandsOkK_tail target _ rest hC) hF hck hclk
              · rw [if_neg hemp]
                intro e he
                rcases List.mem_cons.mp he with rfl | he2
                · exact ⟨kind_remOf target ctx c constraint claimed hokc.1 hokc.2,
                    fun hm => memV_remOf_mp target ctx c constraint claimed v
                      hokc.1 hokc.2 hck hclk hm⟩
                · have hclk2 : (unionV claimed
                      (remOf target ctx c constraint claimed)).kind =
                        target.domain.kind := by
                    rw [kind_unionV, hclk]
                  have htail := ih (pairsSize rest + fbSize fb)
                    (by
                      have := ruleSize_pos (Rule.value c nm pr p)
                      simp only [pairsSize_cons] at hsz
                      omega)
                    target ctx v fb fbIdx constraint pre rest
                    (unionV claimed (remOf target ctx c constraint claimed))
                    le_rfl (CandsOkK_tail target _ rest hC) hF hck hclk2 e he2
                  refine ⟨htail.1, fun hm => ?_⟩
                  have h2 := htail.2 hm
                  refine ⟨h2.1, ?_⟩
                  have h3 := h2.2
                  rw [memV_unionV_bool claimed _
                    (by rw [hclk,
                      kind_remOf target ctx c constraint claimed hokc.1 hokc.2])
                    v] at h3
                  exact (Bool.or_eq_false_iff.mp h3).1
          | tree c nm pr sub =>
              have hokc := CandsOkK_head_cond target i (Rule.tree c nm pr sub)
                rest hC
              have hsub := CandsOkK_head_tree target i c nm pr sub rest hC
              rw [analyzeList_cons_tree]
              by_cases hemp : isEmptyV (remOf target ctx c constraint claimed) = true
              · rw [if_pos hemp]
                refine ih (pairsSize rest + fbSize fb)
                  (by
                    have := ruleSize_pos (Rule.tree c nm pr sub)
                    simp only [pairsSize_cons] at hsz
                    omega)
                  target ctx v fb fbIdx constraint pre rest claimed le_rfl
                  (CandsOkK_tail target _ rest hC) hF hck hclk
              · rw [if_neg hemp]
                intro e he
                rcases List.mem_append.mp he with hin | he2
                · rw [analyzeRS_eq] at hin
                  have hrec := ih (pairsSize (orderIdx sub) + fbSize sub.fallback)
                    (by
                      rw [pairsSize_orderIdx]
                      have h1 := rsSize_eq sub
                      simp only [pairsSize_cons, ruleSize] at hsz
                      omega)
                    target ctx v sub.fallback sub.rules.length
                    (remOf target ctx c constraint claimed) (pre ++ [i])
                    (orderIdx sub) (emptyV target.domain) le_rfl
                    (RSOkK_cands target sub hsub) (RSOkK_fbOk target sub hsub)
                    (kind_remOf target ctx c constraint claimed hokc.1 hokc.2)
                    (kind_emptyV target.domain) e hin
                  refine ⟨hrec.1, fun hm => ?_⟩
                  exact memV_remOf_mp target ctx c constraint claimed v hokc.1
                    hokc.2 hck hclk (hrec.2 hm).1
                · have hclk2 : (unionV claimed
                      (remOf target ctx c constraint claimed)).kind =
                        target.domain.kind := by
                    rw [kind_unionV, hclk]
                  have htail := ih (pairsSize rest + fbSize fb)
                    (by
                      have := ruleSize_pos (Rule.tree c nm pr sub)
                      simp only [pairsSize_cons] at hsz
                      omega)
                    target ctx v fb fbIdx constraint pre rest
                    (unionV claimed (remOf target ctx c constraint claimed))
                    le_rfl (CandsOkK_tail target _ rest hC) hF hck hclk2 e he2
                  refine ⟨htail.1, fun hm => ?_⟩
                  have h2 := htail.2 hm
                  refine ⟨h2.1, ?_⟩
                  have h3 := h2.2
                  rw [memV_unionV_bool claimed _
                    (by rw [hclk,
                      kind_remOf target ctx c constraint claimed hokc.1 hokc.2])
                    v] at h3
                  exact (Bool.or_eq_false_iff.mp h3).1

/-- Unfolding of the resolver walk at an exhausted level without a
fallback. -/
theorem resolveList_nil_none (ctx : Ctx) :
    resolveList ctx Option.none [] = .error .noMatch := by
  rw [resolveList]

/-- Unfolding of the resolver walk at a value fallback. -/
theorem resolveList_nil_value (ctx : Ctx) (nm : String) (p : Payload) :
    resolveList ctx (some (Fb.value nm p)) [] = .ok p := by
  rw [resolveList]

/-- Unfolding of the resolver walk at a tree fallback. -/
theorem resolveList_nil_tree (ctx : Ctx) (nm : String) (sub : RuleSet) :
    resolveList ctx (some (Fb.tree nm sub)) [] = resolveRS ctx sub := by
  rw [resolveList]

/-- Unfolding of the resolver walk at a value rule. -/
theorem resolveList_cons_value (ctx : Ctx) (fb : Option Fb) (i : ℕ) (c : Cond)
    (nm : String) (pr : Int) (p : Payload) (rest : List (ℕ × Rule)) :
    resolveList ctx fb ((i, Rule.value c nm pr p) :: rest) =
      (if evalCond c ctx then .ok p else resolveList ctx fb rest) := by
  rw [resolveList]
  rfl

/-- Unfolding of the resolver walk at a tree rule. -/
theorem resolveList_cons_tree (ctx : Ctx) (fb : Option Fb) (i : ℕ) (c : Cond)
    (nm : String) (pr : Int) (sub : RuleSet) (rest : List (ℕ × Rule)) :
    resolveList ctx fb ((i, Rule.tree c nm pr sub) :: rest) =
      (if evalCond c ctx then resolveRS ctx sub else resolveList ctx fb rest) := by
  rw [resolveList]
  rfl

/-- Unfolding of the resolver at a rule set level. -/
theorem resolveRS_eq (ctx : Ctx) (rs : RuleSet) :
    resolveRS ctx rs = resolveList ctx rs.fallback (orderIdx rs) := by
  rw [resolveRS]

/-- A set with a member is not empty. -/
theorem isEmptyV_false_of_mem (s : VSet) (v : Val) (h : memV v s = true) :
    isEmptyV s = false := by
  rcases he : isEmptyV s
  · rfl
  · rw [(isEmptyV_iff s).mp he v] at h
    exact absurd h (by simp)

/-- Drop a head that cannot satisfy the predicate from an existence
statement. -/
theorem exists_mem_cons_of_miss {α : Type} (x : α) (l : List α) (P : α → Prop)
    (hx : ¬ P x) : (∃ e ∈ x :: l, P e) ↔ ∃ e ∈ l, P e := by
  constructor
  · rintro ⟨e, he, hp⟩
    rcases List.mem_cons.mp he with rfl | he2
    · exact absurd hp hx
    · exact ⟨e, he2, hp⟩
  · rintro ⟨e, he, hp⟩
    exact ⟨e, List.mem_cons_of_mem _ he, hp⟩

/-- Drop a left segment that cannot satisfy the predicate from an
existence statement. -/
theorem exists_mem_append_left_miss {α : Type} (l1 l2 : List α) (P : α → Prop)
    (h1 : ∀ e ∈ l1, ¬ P e) : (∃ e ∈ l1 ++ l2, P e) ↔ ∃ e ∈ l2, P e := by
  constructor
  · rintro ⟨e, he, hp⟩
    rcases List.mem_append.mp he with he2 | he2
    · exact absurd hp (h1 e he2)
    · exact ⟨e, he2, hp⟩
  · rintro ⟨e, he, hp⟩
    exact ⟨e, List.mem_append_right _ he, hp⟩

/-- Drop a right segment that cannot satisfy the predicate from an
existence statement. -/
theorem exists_mem_append_right_miss {α : Type} (l1 l2 : List α) (P : α → Prop)
    (h2 : ∀ e ∈ l2, ¬ P e) : (∃ e ∈ l1 ++ l2, P e) ↔ ∃ e ∈ l1, P e := by
  constructor
  · rintro ⟨e, he, hp⟩
    rcases List.mem_append.mp he with he2 | he2
    · exact ⟨e, he2, hp⟩
    · exact absurd hp (h2 e he2)
  · rintro ⟨e, he, hp⟩
    exact ⟨e, List.mem_append_left _ he, hp⟩

/-- The heart of the refinement: at every level of the walk, under the
running invariants of the claim/subtract cycle, the resolver on the
context extended with the target value returns a payload exactly when
the analyzer emits an entry containing that value with that payload,
fails NoMatch exactly when no emitted entry contains the value, and at
most one emitted entry contains the value. -/
theorem resolveList_analyzeList_equiv :
    ∀ (n : ℕ) (target : FieldRef) (ctx : Ctx) (v : Val) (fb : Option Fb)
      (fbIdx : ℕ) (constraint : VSet) (pre : List ℕ)
      (cands : List (ℕ × Rule)) (claimed : VSet),
      pairsSize cands + fbSize fb ≤ n →
      CandsOk target ctx cands → FbOk target ctx fb →
      constraint.kind = target.domain.kind →
      claimed.kind = target.domain.kind →
      memUniv target.domain v = true →
      memV v constraint = true → memV v claimed = false →
      ((∀ p : Payload,
         resolveList ((target.name, .val v) :: ctx) fb cands = .ok p ↔
           ∃ e ∈ analyzeList target ctx fb fbIdx constraint pre cands claimed,
             memV v e.vs = true ∧ e.payload = p) ∧
       (resolveList ((target.name, .val v) :: ctx) fb cands =
           .error .noMatch ↔
         ∀ e ∈ analyzeList target ctx fb fbIdx constraint pre cands claimed,
           memV v e.vs = false) ∧
       (analyzeList target ctx fb fbIdx constraint pre cands claimed).countP
         (fun e => memV v e.vs) ≤ 1) := by
  intro n
  induction n using Nat.strong_induction_on with
  | _ n ih =>
      intro target ctx v fb fbIdx constraint pre cands claimed hsz hC hF hck hclk
        hv hvc hvcl
      match cands with
      | [] =>
          match fb with
          | Option.none =>
              rw [resolveList_nil_none, analyzeList_nil_none]
              refine ⟨fun p => by simp, by simp, by simp⟩
          | some (.value nm p0) =>
              have hmem : memV v (remUniv target constraint claimed) = true := by
                rw [memV_remUniv target constraint claimed v hv hck hclk, hvc,
                  hvcl]
                rfl
              have hempP : ¬ isEmptyV (remUniv target constraint claimed) = true := by
                rw [isEmptyV_false_of_mem _ v hmem]
                simp
              rw [resolveList_nil_value, analyzeList_nil_value, if_neg hempP]
              refine ⟨?_, ?_, ?_⟩
              · intro p
                constructor
                · intro h
                  injection h with h
                  exact ⟨_, List.mem_singleton_self _, hmem, h⟩
                · rintro ⟨e, he, hm, hp⟩
                  rw [List.mem_singleton] at he
                  subst he
                  exact congrArg Except.ok hp
              · constructor
                · intro h
                  exact absurd h (by simp)
                · intro hall
                  have h2 : memV v (remUniv target constraint claimed) = false :=
                    hall _ (List.mem_singleton_self _)
                  rw [hmem] at h2
                  exact absurd h2 (by simp)
              · exact le_trans (List.countP_le_length _) (by simp)
          | some (.tree nm sub) =>
              have hmem : memV v (remUniv target constraint claimed) = true := by
                rw [memV_remUniv target constraint claimed v hv hck hclk, hvc,
                  hvcl]
                rfl
              have hempP : ¬ isEmptyV (remUniv target constraint claimed) = true := by
                rw [isEmptyV_false_of_mem _ v hmem]
                simp
              have hsub := FbOk_tree target ctx nm sub hF
              have hrec := ih (pairsSize (orderIdx sub) + fbSize sub.fallback)
                (by
                  rw [pairsSize_orderIdx]
                  have h1 := rsSize_eq sub
                  have h2 : fbSize (some (Fb.tree nm sub)) = 1 + rsSize sub := by
                    simp [fbSize, fbSizeAux]
                  simp only [pairsSize] at hsz
                  omega)
                target ctx v sub.fallback sub.rules.length
                (remUniv target constraint claimed) (pre ++ [fbIdx])
                (orderIdx sub) (emptyV target.domain) le_rfl
                (RSOk_cands target ctx sub hsub) (RSOk_fbOk target ctx sub hsub)
                (kind_remUniv target constraint claimed)
                (kind_emptyV target.domain) hv hmem (memV_emptyV target.domain v)
              rw [resolveList_nil_tree, resolveRS_eq, analyzeList_nil_tree,
                if_neg hempP, analyzeRS_eq]
              exact hrec
      | (i, r) :: rest =>
          cases r with
          | value c nm pr p0 =>
              have hokc := CandsOk_head_cond target ctx i (Rule.value c nm pr p0)
                rest hC
              have hCt := CandsOk_tail target ctx _ rest hC
              have hszt : pairsSize rest + fbSize fb < n := by
                have := ruleSize_pos (Rule.value c nm pr p0)
                simp only [pairsSize_cons] at hsz
                omega
              have hremk := kind_remOf target ctx c constraint claimed hokc.1
                hokc.2.1
              have hrem : memV v (remOf target ctx c constraint claimed) =
                  evalCond c ((target.name, .val v) :: ctx) := by
                rw [memV_remOf target ctx c constraint claimed v hv hokc hck hclk,
                  hvc, hvcl]
                simp
              rw [resolveList_cons_value, analyzeList_cons_value]
              by_cases heval : evalCond c ((target.name, .val v) :: ctx) = true
              · have hmem : memV v (remOf target ctx c constraint claimed) = true := by
                  rw [hrem, heval]
                have hempP : ¬ isEmptyV (remOf target ctx c constraint claimed)
                    = true := by
                  rw [isEmptyV_false_of_mem _ v hmem]
                  simp
                have hclk2 : (unionV claimed
                    (remOf target ctx c constraint claimed)).kind =
                      target.domain.kind := by
                  rw [kind_unionV, hclk]
                have hclm : memV v (unionV claimed
                    (remOf target ctx c constraint claimed)) = true := by
                  rw [memV_unionV_bool claimed _ (by rw [hclk, hremk]) v, hmem,
                    Bool.or_true]
                have htailmiss : ∀ e ∈ analyzeList target ctx fb fbIdx constraint
                    pre rest (unionV claimed (remOf target ctx c constraint claimed)),
                    memV v e.vs = false := by
                  intro e he
                  rcases hm : memV v e.vs
                  · rfl
                  · have h2 := (analyzeList_entries (pairsSize rest + fbSize fb)
                      target ctx v fb fbIdx constraint pre rest _ le_rfl
                      (CandsOk_k target ctx rest hCt) (FbOk_k target ctx fb hF)
                      hck hclk2 e he).2 hm
                    rw [hclm] at h2
                    exact absurd h2.2 (by simp)
                rw [if_pos heval, if_neg hempP]
                refine ⟨?_, ?_, ?_⟩
                · intro p
                  constructor
                  · intro h
                    injection h with h
                    exact ⟨_, List.mem_cons_self _ _, hmem, h⟩
                  · rintro ⟨e, he, hm, hp⟩
                    rcases List.mem_cons.mp he with rfl | he2
                    · exact congrArg Except.ok hp
                    · rw [htailmiss e he2] at hm
                      exact absurd hm (by simp)
                · constructor
                  · intro h
                    exact absurd h (by simp)
                  · intro hall
                    have h2 : memV v (remOf target ctx c constraint claimed)
                        = false := hall _ (List.mem_cons_self _ _)
                    rw [hmem] at h2
                    exact absurd h2 (by simp)
                · rw [List.countP_cons]
                  have h0 : (analyzeList target ctx fb fbIdx constraint pre rest
                      (unionV claimed (remOf target ctx c constraint claimed))).countP
                        (fun e => memV v e.vs) = 0 := by
                    rw [List.countP_eq_zero]
                    intro e he
                    rw [htailmiss e he]
                    simp
                  rw [h0]
                  split <;> omega
              · have hmem : memV v (remOf target ctx c constraint claimed)
                    = false := by
                  rw [hrem]
                  exact Bool.eq_false_iff.mpr heval
                rw [if_neg heval]
                by_cases hemp : isEmptyV (remOf target ctx c constraint claimed)
                    = true
                · rw [if_pos hemp]
                  exact ih (pairsSize rest + fbSize fb) hszt target ctx v fb fbIdx
                    constraint pre rest claimed le_rfl hCt hF hck hclk hv hvc hvcl
                · rw [if_neg hemp]
                  have hclk2 : (unionV claimed
                      (remOf target ctx c constraint claimed)).kind =
                        target.domain.kind := by
                    rw [kind_unionV, hclk]
                  have hclm2 : memV v (unionV claimed
                      (remOf target ctx c constraint claimed)) = false := by
                    rw [memV_unionV_bool claimed _ (by rw [hclk, hremk]) v, hmem,
                      hvcl]
                    rfl
                  have hrec := ih (pairsSize rest + fbSize fb) hszt target ctx v
                    fb fbIdx constraint pre rest
                    (unionV claimed (remOf target ctx c constraint claimed))
                    le_rfl hCt hF hck hclk2 hv hvc hclm2
                  refine ⟨?_, ?_, ?_⟩
                  · intro p
                    rw [hrec.1 p]
                    exact (exists_mem_cons_of_miss _ _ _ (fun hp => by
                      have h2 : memV v (remOf target ctx c constraint claimed)
                          = true := hp.1
                      rw [hmem] at h2
                      exact absurd h2 (by simp))).symm
                  · rw [hrec.2.1, List.forall_mem_cons]
                    constructor
                    · intro h
                      exact ⟨hmem, h⟩
                    · rintro ⟨_, h⟩
                      exact h
                  · rw [List.countP_cons]
                    have h2 : memV v (remOf target ctx c constraint claimed)
                        = false := hmem
                    simp only [h2]
                    simpa using hrec.2.2
          | tree c nm pr sub =>
              have hokc := CandsOk_head_cond target ctx i (Rule.tree c nm pr sub)
                rest hC
              have hsubOk := CandsOk_head_tree target ctx i c nm pr sub rest hC
              have hCt := CandsOk_tail target ctx _ rest hC
              have hszt : pairsSize rest + fbSize fb < n := by
                have := ruleSize_pos (Rule.tree c nm pr sub)
                simp only [pairsSize_cons] at hsz
                omega
              have hszs : pairsSize (orderIdx sub) + fbSize sub.fallback < n := by
                rw [pairsSize_orderIdx]
                have h1 := rsSize_eq sub
                simp only [pairsSize_cons, ruleSize] at hsz
                omega
              have hremk := kind_remOf target ctx c constraint claimed hokc.1
                hokc.2.1
              have hrem : memV v (remOf target ctx c constraint claimed) =
                  evalCond c ((target.name, .val v) :: ctx) := by
                rw [memV_remOf target ctx c constraint claimed v hv hokc hck hclk,
                  hvc, hvcl]
                simp
              rw [resolveList_cons_tree, analyzeList_cons_tree]
              by_cases heval : evalCond c ((target.name, .val v) :: ctx) = true
              · have hmem : memV v (remOf target ctx c constraint claimed) = true := by
                  rw [hrem, heval]
                have hempP : ¬ isEmptyV (remOf target ctx c constraint claimed)
                    = true := by
                  rw [isEmptyV_false_of_mem _ v hmem]
                  simp
                have hclk2 : (unionV claimed
                    (remOf target ctx c constraint claimed)).kind =
                      target.domain.kind := by
                  rw [kind_unionV, hclk]
                have hclm : memV v (unionV claimed
                    (remOf target ctx c constraint claimed)) = true := by
                  rw [memV_unionV_bool claimed _ (by rw [hclk, hremk]) v, hmem,
                    Bool.or_true]
                have htailmiss : ∀ e ∈ analyzeList target ctx fb fbIdx constraint
                    pre rest (unionV claimed (remOf target ctx c constraint claimed)),
                    memV v e.vs = false := by
                  intro e he
                  rcases hm : memV v e.vs
                  · rfl
                  · have h2 := (analyzeList_entries (pairsSize rest + fbSize fb)
                      target ctx v fb fbIdx constraint pre rest _ le_rfl
                      (CandsOk_k target ctx rest hCt) (FbOk_k target ctx fb hF)
                      hck hclk2 e he).2 hm
                    rw [hclm] at h2
                    exact absurd h2.2 (by simp)
                have hrec := ih (pairsSize (orderIdx sub) + fbSize sub.fallback)
                  hszs target ctx v sub.fallback sub.rules.length
                  (remOf target ctx c constraint claimed) (pre ++ [i])
                  (orderIdx sub) (emptyV target.domain) le_rfl
                  (RSOk_cands target ctx sub hsubOk)
                  (RSOk_fbOk target ctx sub hsubOk) hremk
                  (kind_emptyV target.domain) hv hmem (memV_emptyV target.domain v)
                rw [if_pos heval, if_neg hempP, resolveRS_eq, analyzeRS_eq]
                refine ⟨?_, ?_, ?_⟩
                · intro p
                  rw [hrec.1 p]
                  exact (exists_mem_append_right_miss _ _ _ (fun e he hp =>
                    absurd hp.1 (by rw [htailmiss e he]; simp))).symm
                · rw [hrec.2.1, List.forall_mem_append]
                  constructor
                  · intro h
                    exact ⟨h, htailmiss⟩
                  · rintro ⟨h, _⟩
                    exact h
                · rw [List.countP_append]
                  have h0 : (analyzeList target ctx fb fbIdx constraint pre rest
                      (unionV claimed (remOf target ctx c constraint claimed))).countP
                        (fun e => memV v e.vs) = 0 := by
                    rw [List.countP_eq_zero]
                    intro e he
                    rw [htailmiss e he]
                    simp
                  rw [h0]
                  have := hrec.2.2
                  omega
              · have hmem : memV v (remOf target ctx c constraint claimed)
                    = false := by
                  rw [hrem]
                  exact Bool.eq_false_iff.mpr heval
                have hblockmiss : ∀ e ∈ analyzeRS target ctx sub
                    (remOf target ctx c constraint claimed) (pre ++ [i]),
                    memV v e.vs = false := by
                  intro e he
                  rw [analyzeRS_eq] at he
                  rcases hm : memV v e.vs
                  · rfl
                  · have h2 := (analyzeList_entries
                      (pairsSize (orderIdx sub) + fbSize sub.fallback) target ctx
                      v sub.fallback sub.rules.length
                      (remOf target ctx c constraint claimed) (pre ++ [i])
                      (orderIdx sub) (emptyV target.domain) le_rfl
                      (RSOkK_cands target sub ⟨hsubOk.1, hsubOk.2.1⟩)
                      (RSOkK_fbOk target sub ⟨hsubOk.1, hsubOk.2.1⟩) hremk
                      (kind_emptyV target.domain) e he).2 hm
                    rw [hmem] at h2
                    exact absurd h2.1 (by simp)
                rw [if_neg heval]
                by_cases hemp : isEmptyV (remOf target ctx c constraint claimed)
                    = true
                · rw [if_pos hemp]
                  exact ih (pairsSize rest + fbSize fb) hszt target ctx v fb fbIdx
                    constraint pre rest claimed le_rfl hCt hF hck hclk hv hvc hvcl
                · rw [if_neg hemp]
                  have hclk2 : (unionV claimed
                      (remOf target ctx c constraint claimed)).kind =
                        target.domain.kind := by
                    rw [kind_unionV, hclk]
                  have hclm2 : memV v (unionV claimed
                      (remOf target ctx c constraint claimed)) = false := by
                    rw [memV_unionV_bool claimed _ (by rw [hclk, hremk]) v, hmem,
                      hvcl]
                    rfl
                  have hrec := ih (pairsSize rest + fbSize fb) hszt target ctx v
                    fb fbIdx constraint pre rest
                    (unionV claimed (remOf target ctx c constraint claimed))
                    le_rfl hCt hF hck hclk2 hv hvc hclm2
                  refine ⟨?_, ?_, ?_⟩
                  · intro p
                    rw [hrec.1 p]
                    exact (exists_mem_append_left_miss _ _ _ (fun e he hp =>
                      absurd hp.1 (by rw [hblockmiss e he]; simp))).symm
                  · rw [hrec.2.1, List.forall_mem_append]
                    constructor
                    · intro h
                      exact ⟨hblockmiss, h⟩
                    · rintro ⟨_, h⟩
                      exact h
                  · rw [List.countP_append]
                    have h0 : (analyzeRS target ctx sub
                        (remOf target ctx c constraint claimed)
                        (pre ++ [i])).countP (fun e => memV v e.vs) = 0 := by
                      rw [List.countP_eq_zero]
                      intro e he
                      rw [hblockmiss e he]
                      simp
                    rw [h0]
                    have := hrec.2.2
                    omega

/-- Folding unions keeps the accumulator kind. -/
theorem kind_foldl_unionV :
    ∀ (l : List Entry) (acc : VSet),
      (l.foldl (fun acc e => unionV acc e.vs) acc).kind = acc.kind := by
  intro l
  induction l with
  | nil => intro acc; rfl
  | cons e rest ih =>
      intro acc
      rw [List.foldl_cons, ih (unionV acc e.vs), kind_unionV]

/-- Membership in a fold of unions over like-kinded sets. -/
theorem memV_foldl_unionV (v : Val) :
    ∀ (l : List Entry) (acc : VSet) (dom : Domain),
      acc.kind = dom.kind → (∀ e ∈ l, e.vs.kind = dom.kind) →
      memV v (l.foldl (fun acc e => unionV acc e.vs) acc) =
        (memV v acc || l.any (fun e => memV v e.vs)) := by
  intro l
  induction l with
  | nil =>
      intro acc dom h1 h2
      simp
  | cons e rest ih =>
      intro acc dom h1 h2
      rw [List.foldl_cons,
        ih (unionV acc e.vs) dom (by rw [kind_unionV, h1])
          (fun e2 he2 => h2 e2 (List.mem_cons_of_mem _ he2)),
        memV_unionV_bool acc _ (by rw [h1, h2 e (List.mem_cons_self _ _)]) v,
        List.any_cons, Bool.or_assoc]

/-- Every entry of an analysis has a value set of the target kind whose
members lie in the target universe. -/
theorem analyze_entries (rs : RuleSet) (target : FieldRef) (ctx : Ctx)
    (hk : rsKindOk rs = true) (hcoh : CohRefs (rsRefs rs) target) (v : Val) :
    ∀ e ∈ analyze rs target ctx,
      e.vs.kind = target.domain.kind ∧
      (memV v e.vs = true → memUniv target.domain v = true) := by
  intro e he
  rw [analyze, analyzeRS_eq] at he
  have h := analyzeList_entries
    (pairsSize (orderIdx rs) + fbSize rs.fallback) target
    (ctx.filter fun kv => decide (kv.1 ≠ target.name)) v rs.fallback
    rs.rules.length (univV target.domain) [] (orderIdx rs)
    (emptyV target.domain) le_rfl (RSOkK_cands target rs ⟨hk, hcoh⟩)
    (RSOkK_fbOk target rs ⟨hk, hcoh⟩) (kind_univV target.domain)
    (kind_emptyV target.domain) e he
  exact ⟨h.1, fun hm => (h.2 hm).1⟩

/-- The kind of the covered set. -/
theorem kind_covered (rs : RuleSet) (target : FieldRef) (ctx : Ctx) :
    (covered rs target ctx).kind = target.domain.kind := by
  rw [covered, kind_foldl_unionV, kind_emptyV]

/-- Membership in the covered set is membership in some emitted
entry. -/
theorem memV_covered (rs : RuleSet) (target : FieldRef) (ctx : Ctx)
    (hk : rsKindOk rs = true) (hcoh : CohRefs (rsRefs rs) target) (v : Val) :
    memV v (covered rs target ctx) =
      (analyze rs target ctx).any (fun e => memV v e.vs) := by
  rw [covered, memV_foldl_unionV v _ _ target.domain (kind_emptyV _)
    (fun e he => (analyze_entries rs target ctx hk hcoh v e he).1),
    memV_emptyV, Bool.false_or]

/-- Covered values lie in the target universe. -/
theorem memV_covered_univ (rs : RuleSet) (target : FieldRef) (ctx : Ctx)
    (hk : rsKindOk rs = true) (hcoh : CohRefs (rsRefs rs) target) (v : Val)
    (hm : memV v (covered rs target ctx) = true) :
    memUniv target.domain v = true := by
  rw [memV_covered rs target ctx hk hcoh v] at hm
  rcases List.any_eq_true.mp hm with ⟨e, he, hme⟩
  exact (analyze_entries rs target ctx hk hcoh v e he).2 hme

/-- Membership in the uncovered set. -/
theorem memV_uncovered (rs : RuleSet) (target : FieldRef) (ctx : Ctx) (v : Val) :
    memV v (uncovered rs target ctx) =
      (memUniv target.domain v && !memV v (covered rs target ctx)) := by
  rw [uncovered, memV_diffV_bool target.domain _ _
    (by rw [kind_univV, kind_covered]) (by rw [kind_univV]) v (fun h => h)]
  rfl

/-- Fixedness survives filtering the target's own key out of the
context. -/
theorem FixedRefs_filter (l : List FieldRef) (target : FieldRef) (ctx : Ctx)
    (h : FixedRefs l target ctx) :
    FixedRefs l target (ctx.filter fun kv => decide (kv.1 ≠ target.name)) := by
  intro f hf hne
  rcases h f hf hne with ⟨x, hx, hnorm⟩
  exact ⟨x, by rw [ctxGet_filter_ne target.name ctx f.name hne]; exact hx, hnorm⟩

/-- C4: for every rule set, target and context, under the builder's
kind and coherence invariants, covered() and uncovered() partition the
target universe — their union has exactly the universe's members and
their intersection has none. -/
theorem claim_C4_partition (rs : RuleSet) (target : FieldRef) (ctx : Ctx)
    (hk : rsKindOk rs = true) (hcoh : CohRefs (rsRefs rs) target) (v : Val) :
    memV v (unionV (covered rs target ctx) (uncovered rs target ctx)) =
      memUniv target.domain v ∧
    memV v (interV (covered rs target ctx) (uncovered rs target ctx)) = false := by
  have hku : (uncovered rs target ctx).kind = target.domain.kind := by
    rw [uncovered, kind_diffV, kind_univV]
  have hunc := memV_uncovered rs target ctx v
  constructor
  · rw [memV_unionV_bool _ _ (by rw [kind_covered, hku]) v, hunc]
    rcases hc : memV v (covered rs target ctx)
    · simp
    · have := memV_covered_univ rs target ctx hk hcoh v hc
      simp [this]
  · rw [memV_interV_bool _ _ (by rw [kind_covered, hku]) v, hunc]
    rcases hc : memV v (covered rs target ctx) <;> simp

/-- C1: with every non-target referenced field fixed in the context to
a normal value of its domain, and under the builder's kind and
coherence invariants, for every value v of the target universe:
resolving the context extended with target=v returns payload p exactly
when the analysis emits an entry whose value set contains v with
payload p; at most one emitted entry contains v; and resolving the
extended context fails NoMatch exactly when v lies in uncovered(). -/
theorem claim_C1_refinement (rs : RuleSet) (target : FieldRef) (ctx : Ctx)
    (hk : rsKindOk rs = true) (hcoh : CohRefs (rsRefs rs) target)
    (hfix : FixedRefs (rsRefs rs) target ctx) (v : Val)
    (hv : memUniv target.domain v = true) :
    (∀ p : Payload,
       resolveRS ((target.name, .val v) :: ctx) rs = .ok p ↔
         ∃ e ∈ analyze rs target ctx, memV v e.vs = true ∧ e.payload = p) ∧
    ((analyze rs target ctx).countP (fun e => memV v e.vs) ≤ 1) ∧
    (resolveRS ((target.name, .val v) :: ctx) rs = .error .noMatch ↔
       memV v (uncovered rs target ctx) = true) := by
  set ctxF := ctx.filter (fun kv => decide (kv.1 ≠ target.name)) with hctxF
  have hgets : ∀ nm, ctxGet ((target.name, CtxVal.val v) :: ctx) nm =
      ctxGet ((target.name, CtxVal.val v) :: ctxF) nm := by
    intro nm
    by_cases hnm : nm = target.name
    · subst hnm
      rw [ctxGet_cons_self, ctxGet_cons_self]
    · rw [ctxGet_cons_ne _ _ _ _ (fun h => hnm h.symm),
        ctxGet_cons_ne _ _ _ _ (fun h => hnm h.symm), hctxF,
        ctxGet_filter_ne target.name ctx nm hnm]
  have hres : resolveRS ((target.name, CtxVal.val v) :: ctx) rs =
      resolveRS ((target.name, CtxVal.val v) :: ctxF) rs :=
    resolveRS_ctx_congr _ _ rs hgets
  have hOk : RSOk target ctxF rs := ⟨hk, hcoh, FixedRefs_filter _ _ _ hfix⟩
  have hmain := resolveList_analyzeList_equiv
    (pairsSize (orderIdx rs) + fbSize rs.fallback) target ctxF v rs.fallback
    rs.rules.length (univV target.domain) [] (orderIdx rs)
    (emptyV target.domain) le_rfl (RSOk_cands target ctxF rs hOk)
    (RSOk_fbOk target ctxF rs hOk) (kind_univV target.domain)
    (kind_emptyV target.domain) hv hv (memV_emptyV target.domain v)
  have hanalyze : analyze rs target ctx =
      analyzeList target ctxF rs.fallback rs.rules.length
        (univV target.domain) [] (orderIdx rs) (emptyV target.domain) := by
    rw [analyze, analyzeRS_eq]
  refine ⟨?_, ?_, ?_⟩
  · intro p
    rw [hres, resolveRS_eq, hanalyze]
    exact hmain.1 p
  · rw [hanalyze]
    exact hmain.2.2
  · rw [hres, resolveRS_eq]
    have hnm := hmain.2.1
    rw [← hanalyze] at hnm
    rw [hnm]
    have hcov := memV_covered rs target ctx hk hcoh v
    rw [memV_uncovered rs target ctx v, hv, Bool.true_and, hcov,
      Bool.not_eq_true', List.any_eq_false]
    constructor
    · intro h e he
      rw [h e he]
      simp
    · intro h e he
      rcases hm : memV v e.vs
      · rfl
      · exact absurd hm (h e he)

/-- A concrete discrete field over three countries. -/
def wCountry : FieldRef :=
  ⟨"country", .discrete {Val.str "US", Val.str "RU", Val.str "FR"}⟩

/-- A concrete single-rule rule set over the country field. -/
def wC1rs : RuleSet :=
  .mk [.value (.isin wCountry {Val.str "US", Val.str "RU"}) "north" 0 "A"]
    Option.none .firstMatch

/-- The concrete rule set references only the country field. -/
theorem wC1rs_refs : rsRefs wC1rs = [wCountry] := by
  simp [wC1rs, rsRefs.eq_def, rulesRefs.eq_def, ruleRefs.eq_def, condRefs]

/-- Witness for C1 at a concrete input. -/
theorem claim_C1_witness :
    (∀ p : Payload,
       resolveRS [(wCountry.name, CtxVal.val (Val.str "US"))] wC1rs = .ok p ↔
         ∃ e ∈ analyze wC1rs wCountry [],
           memV (Val.str "US") e.vs = true ∧ e.payload = p) ∧
    ((analyze wC1rs wCountry []).countP
      (fun e => memV (Val.str "US") e.vs) ≤ 1) ∧
    (resolveRS [(wCountry.name, CtxVal.val (Val.str "US"))] wC1rs =
        .error .noMatch ↔
       memV (Val.str "US") (uncovered wC1rs wCountry []) = true) :=
  claim_C1_refinement wC1rs wCountry [] (by decide)
    (by
      intro f hf _
      rw [wC1rs_refs, List.mem_singleton] at hf
      subst hf
      rfl)
    (by
      intro f hf hne
      rw [wC1rs_refs, List.mem_singleton] at hf
      subst hf
      exact absurd rfl hne)
    (Val.str "US") (by decide)

/-- Witness for C4 at a concrete input. -/
theorem claim_C4_witness :
    memV (Val.str "FR")
        (unionV (covered wC1rs wCountry []) (uncovered wC1rs wCountry [])) =
      memUniv wCountry.domain (Val.str "FR") ∧
    memV (Val.str "FR")
        (interV (covered wC1rs wCountry []) (uncovered wC1rs wCountry [])) =
      false :=
  claim_C4_partition wC1rs wCountry [] (by decide)
    (by
      intro f hf _
      rw [wC1rs_refs, List.mem_singleton] at hf
      subst hf
      rfl)
    (Val.str "FR")

end Unirules
